import Mathlib

/-!
Formal model of the dependency scanner, build plan and builder cleanup of the
ninja fork under verification.  The definitions below are shallow embeddings of
the C++ sources (`graph.cc`, `build.cc`); machine timestamps are modelled as
`Int` (with `-1` = stat error, `0` = missing, positive = real mtime, exactly as
in the source), fallible code returns explicit error strings, and the mutable
graph is threaded as explicit state.
-/

namespace Ninja

/-- Timestamps: signed 64-bit in the source; `-1` means a stat error, `0` means
the file is missing, a positive value is a real modification time. -/
abbrev TimeStamp := Int

/-- A build-log entry (`BuildLog::LogEntry`) restricted to the fields the
scanner reads: the command hash and the recorded mtime. -/
structure LogEntry where
  commandHash : Nat
  mtime : TimeStamp
deriving Repr, DecidableEq

/-- `BuildLog::LookupByOutput`, modelled as a map from (hashed) output path to
the log entry.  The whole build log is optional, as `build_log()` may be null. -/
abbrev BuildLogFn := String → Option LogEntry

/-- `Node::exists()`: a node exists when its mtime is not the missing marker 0. -/
def nodeExists (m : TimeStamp) : Bool := m ≠ 0

/-- `graph.cc` lines 346-358: the mtime the output-older-than-input test
compares against.  On a restat rule with a build log that has an entry for this
output, the entry's recorded mtime replaces the on-disk output mtime. -/
def restatOutputMtime (restat : Bool) (buildLog : Option BuildLogFn)
    (outPath : String) (outMtime : TimeStamp) : TimeStamp :=
  match buildLog with
  | some log =>
    if restat then
      match log outPath with
      | some entry => entry.mtime
      | none => outMtime
    else outMtime
  | none => outMtime

/-- `graph.cc` lines 345-368: the "output is older than the most recent input"
test of `DependencyScan::RecomputeOutputDirty`.  It fires when the on-disk
output mtime is older than the most recent input and the (possibly
restat-substituted) output mtime is still older than that input. -/
def outputMtimeTestDirty (restat : Bool) (buildLog : Option BuildLogFn)
    (mostRecentInput : Option TimeStamp) (outPath : String)
    (outMtime : TimeStamp) : Bool :=
  match mostRecentInput with
  | some inMtime =>
    if outMtime < inMtime then
      decide (restatOutputMtime restat buildLog outPath outMtime < inMtime)
    else false
  | none => false

/-- `DependencyScan::RecomputeOutputDirty` (`graph.cc` lines 322-399).  The
`entry` pointer that the source threads from the restat branch into the
build-log branch is a cache of the pure lookup `log outPath`, so both branches
simply perform that lookup here. -/
def RecomputeOutputDirty (isPhony inputsEmpty restat generator : Bool)
    (buildLog : Option BuildLogFn) (mostRecentInput : Option TimeStamp)
    (commandHash : Nat) (outPath : String) (outMtime : TimeStamp) : Bool :=
  if isPhony then
    -- Phony edges don't write any output; dirty only with no inputs and a
    -- missing output.
    inputsEmpty && !nodeExists outMtime
  else if !nodeExists outMtime then
    -- Dirty if we're missing the output.
    true
  else if outputMtimeTestDirty restat buildLog mostRecentInput outPath outMtime then
    -- Dirty if the output is older than the input.
    true
  else
    match buildLog with
    | none => false
    | some log =>
      match log outPath with
      | some entry =>
        if !generator && commandHash ≠ entry.commandHash then
          -- May also be dirty due to the command changing since the last build.
          true
        else
          match mostRecentInput with
          | some inMtime =>
            -- May also be dirty due to the mtime in the log being older than
            -- the mtime of the most recent input.
            decide (entry.mtime < inMtime)
          | none => false
      | none => !generator

/-! ### Builder cleanup on interrupt (`build.cc` lines 373-404) -/

/-- The result of `DiskInterface::LStat(path, &is_dir, &err)`: the mtime
(`-1` = error), whether the path is a directory (only written on success, so
only meaningful when the mtime is not `-1`), and the error message written when
the mtime is `-1`. -/
structure LStatRes where
  mtime : TimeStamp
  isDir : Bool
  errMsg : String
deriving Repr, DecidableEq

/-- A snapshot of one output node during `Builder::Cleanup`: its path and the
mtime recorded on the node (`(*o)->mtime()`). -/
structure CleanupOut where
  path : String
  mtime : TimeStamp
deriving Repr, DecidableEq

/-- A snapshot of one active edge during `Builder::Cleanup`: whether it is a
phony-output edge, its unescaped depfile binding, and its outputs. -/
structure CleanupEdge where
  phonyOutput : Bool
  depfile : String
  outputs : List CleanupOut
deriving Repr, DecidableEq

/-- The per-output body of the `Builder::Cleanup` loop (`build.cc` lines
383-399).  `is_dir` starts false and is only written by a successful `LStat`,
so an errored stat leaves it false.  Returns whether the output is removed and
the error message logged (if the stat failed). -/
def cleanupOutput (lstat : String → LStatRes) (depfile : String)
    (o : CleanupOut) : Bool × Option String :=
  let r := lstat o.path
  let isDir := if r.mtime = -1 then false else r.isDir
  let logged : Option String := if r.mtime = -1 then some r.errMsg else none
  (!isDir && (depfile ≠ "" || o.mtime ≠ r.mtime), logged)

/-- One active edge's pass of `Builder::Cleanup`: phony-output edges are
skipped entirely; otherwise each output is examined with `cleanupOutput` and
the depfile, when declared, is removed.  Returns the removed paths and the
logged stat errors, in order. -/
def cleanupEdge (lstat : String → LStatRes) (e : CleanupEdge) :
    List String × List String :=
  if e.phonyOutput then ([], [])
  else
    let step := fun (acc : List String × List String) (o : CleanupOut) =>
      let (removed, logged) := cleanupOutput lstat e.depfile o
      (acc.1 ++ (if removed then [o.path] else []),
       acc.2 ++ (match logged with | some m => [m] | none => []))
    let acc := e.outputs.foldl step ([], [])
    (acc.1 ++ (if e.depfile ≠ "" then [e.depfile] else []), acc.2)

/-- `Builder::Cleanup` over the active edges returned by `GetActiveEdges`:
the removed paths and logged errors of every non-phony-output edge. -/
def BuilderCleanup (lstat : String → LStatRes) (edges : List CleanupEdge) :
    List String × List String :=
  edges.foldl
    (fun acc e =>
      let r := cleanupEdge lstat e
      (acc.1 ++ r.1, acc.2 ++ r.2))
    ([], [])

/-! ### Edge variable evaluation (`graph.cc` lines 410-462, 485-560) -/

/-- One token of an unevaluated binding pattern (`EvalString` of the manifest,
not in `src/`): a literal chunk or a `$var` reference. -/
inductive Tok where
  | lit (s : String)
  | var (v : String)
deriving Repr, DecidableEq

/-- An unevaluated binding pattern. -/
abbrev Pattern := List Tok

/-- Modelled from the spec: `kEvalRecursionLimit` (graph.h, not in `src/`), the
fixed depth of `EdgeEval::recursion_vars_`; the spec's design note puts it at
a manifest-level depth of about 16, the value the array has in the source. -/
def kEvalRecursionLimit : Nat := 16

/-- The per-evaluation context of `EdgeEval`: the edge's rule bindings
(`rule().GetBinding`), the edge-local bindings (`unevaled_bindings_`, searched
backwards so the last occurrence wins), the enclosing scope (modelled from the
spec: `Scope::EvaluateVariable` / `EvaluateVariableAtPos`, not in `src/`, as an
already-evaluated map), the explicit input/output path lists used by `$in`,
`$in_newline` and `$out`, and the escaping function applied to those paths
(`GetShellEscapedString` for `kShellEscape`, identity for `kDoNotEscape`;
util.cc is not in `src/`). -/
structure EvalEdge where
  ruleBindings : List (String × Pattern)
  localBindings : List (String × Pattern)
  scope : String → String
  explicitIns : List String
  explicitOuts : List String
  escapeInOut : String → String

/-- `Rule::GetBinding` (rule bindings are unique per rule): first match. -/
def ruleLookup (bs : List (String × Pattern)) (v : String) : Option Pattern :=
  (bs.find? (fun p => p.1 == v)).map (·.2)

/-- `Edge::EvaluateVariableSelfOnly` (`graph.cc` lines 621-633): search the
edge-local bindings backwards, last matching binding wins. -/
def lookupLocal (bs : List (String × Pattern)) (v : String) : Option Pattern :=
  (bs.reverse.find? (fun p => p.1 == v)).map (·.2)

/-- Modelled from the spec: `EvaluateBindingInScope` (eval_env, not in `src/`):
an edge-local binding is expanded in the edge's enclosing scope, with no
rule-variable recursion machinery involved. -/
def evalPatternInScope (scope : String → String) (p : Pattern) : String :=
  p.foldl (fun acc t => acc ++ match t with | .lit s => s | .var v => scope v) ""

/-- `EdgeEval::AppendPathList` (`graph.cc` lines 464-483): paths joined by a
separator, each escaped per the evaluation's escape kind. -/
def joinPaths (paths : List String) (sep : String) (esc : String → String) : String :=
  String.intercalate sep (paths.map esc)

/-- The inner loop of the cycle message (`graph.cc` lines 442-446): append
`" -> " ++ v` for each further recorded variable, stopping right after the
first one equal to the ring's first entry. -/
def cycleWalk (r0 : String) : List String → String
  | [] => ""
  | x :: xs => " -> " ++ x ++ (if x = r0 then "" else cycleWalk r0 xs)

/-- The cycle listing of `graph.cc` lines 441-446: the first recorded variable
followed by the walk over the remaining ones. -/
def cycleString : List String → String
  | [] => ""
  | r0 :: rest => r0 ++ cycleWalk r0 rest

/-- Results of edge-variable evaluation: success carries the produced text,
the recursion ring (`recursion_vars_[0..recursion_count_)`, which the source
never pops) and an observer flag recording whether some rule-binding lookup
saw its variable already in the ring; `err` is a failed evaluation; `fuelOut`
only signals that the fuel bound of this embedding was reached. -/
inductive EvalOut where
  | ok (text : String) (ring : List String) (revisited : Bool)
  | err (msg : String)
  | fuelOut
deriving Repr, DecidableEq

/-- Modelled from the spec: the token loop of `EvaluateBindingOnRule`
(eval_env, not in `src/`): expand a rule-binding pattern token by token,
threading the recursion state through the supplied variable evaluator and
propagating errors.  The evaluator parameter is the nested
`EdgeEval::EvaluateVariable` call. -/
def evalPatternWith (f : List String → Bool → String → EvalOut) :
    List String → Bool → Pattern → EvalOut
  | ring, rev, [] => .ok "" ring rev
  | ring, rev, .lit s :: rest =>
    match evalPatternWith f ring rev rest with
    | .ok t ring' rev' => .ok (s ++ t) ring' rev'
    | other => other
  | ring, rev, .var v :: rest =>
    match f ring rev v with
    | .ok t ring' rev' =>
      match evalPatternWith f ring' rev' rest with
      | .ok t2 ring'' rev'' => .ok (t ++ t2) ring'' rev''
      | other => other
    | other => other

/-- `EdgeEval::EvaluateVariable` (`graph.cc` lines 414-462).  `$in`,
`$in_newline` and `$out` expand to the explicit path regions; otherwise the
edge-local binding wins, then a rule binding (with the recursion-limit check
and the ring push — `recursion_count_` is never decremented), and finally the
enclosing scope.  The `revisited` flag is a pure observer for the claim about
revisited variables; it does not alter control flow. -/
def EvaluateVariable (e : EvalEdge) : Nat → List String → Bool → String → EvalOut
  | 0, _, _, _ => .fuelOut
  | fuel + 1, ring, revisited, v =>
    if v = "in" || v = "in_newline" then
      .ok (joinPaths e.explicitIns (if v = "in" then " " else "\n") e.escapeInOut)
        ring revisited
    else if v = "out" then
      .ok (joinPaths e.explicitOuts " " e.escapeInOut) ring revisited
    else
      match lookupLocal e.localBindings v with
      | some pat => .ok (evalPatternInScope e.scope pat) ring revisited
      | none =>
        match ruleLookup e.ruleBindings v with
        | some pat =>
          let revisited := revisited || ring.contains v
          if ring.length = kEvalRecursionLimit then
            .err ("cycle in rule variables: " ++ cycleString ring)
          else
            evalPatternWith (fun r rv w => EvaluateVariable e fuel r rv w)
              (ring ++ [v]) revisited pat
        | none => .ok (e.scope v) ring revisited

/-- Modelled from the spec: `EvaluateBindingOnRule` (eval_env, not in `src/`)
as called from `graph.cc` line 452: the pattern loop with the nested
`EvaluateVariable` calls at the given fuel. -/
def EvaluateBindingOnRule (e : EvalEdge) (fuel : Nat) (ring : List String)
    (revisited : Bool) (p : Pattern) : EvalOut :=
  evalPatternWith (fun r rv w => EvaluateVariable e fuel r rv w) ring revisited p

/-- `Edge::EvaluateVariable` (`graph.cc` lines 555-560): each edge-level
variable evaluation constructs a fresh `EdgeEval`, so the ring starts empty. -/
def EdgeEvaluateVariable (e : EvalEdge) (fuel : Nat) (v : String) : EvalOut :=
  EvaluateVariable e fuel [] false v

/-- `Edge::EvaluateCommand` (`graph.cc` lines 490-505): the resolved `command`
binding, with `;rspfile=<rspfile_content>` appended when the rspfile content is
non-empty and requested.  Each binding gets its own fresh evaluation. -/
def EvaluateCommandStr (e : EvalEdge) (fuel : Nat) (inclRspFile : Bool) : EvalOut :=
  match EdgeEvaluateVariable e fuel "command" with
  | .ok c ring rev =>
    if inclRspFile then
      match EdgeEvaluateVariable e fuel "rspfile_content" with
      | .ok r ring' rev' =>
        .ok (if r = "" then c else c ++ ";rspfile=" ++ r) ring' rev'
      | other => other
    else .ok c ring rev
  | other => other

/-- A concrete evaluation context with a genuine rule-variable cycle:
`a = $b`, `b = $a`. -/
def evalCycleEdge : EvalEdge where
  ruleBindings := [("a", [.var "b"]), ("b", [.var "a"])]
  localBindings := []
  scope := fun _ => ""
  explicitIns := []
  explicitOuts := []
  escapeInOut := id

/-- A concrete evaluation context where a rule variable is referenced twice as
siblings: `command = $a $a`, `a = x`. -/
def evalSiblingEdge : EvalEdge where
  ruleBindings := [("command", [.var "a", .lit " ", .var "a"]), ("a", [.lit "x"])]
  localBindings := []
  scope := fun _ => ""
  explicitIns := []
  explicitOuts := []
  escapeInOut := id

/-! ### The graph state of the dependency scanner (`graph.cc`) -/

/-- `Edge::mark_`: the traversal mark (`VisitNone` is the spec's `Unvisited`). -/
inductive Mark where
  | VisitNone
  | VisitInStack
  | VisitDone
deriving Repr, DecidableEq

/-- The cached `Edge::DepScanInfo` produced by `PrecomputeDepScanInfo`:
the boolean bindings `restat`, `generator`, `deps`, `depfile`, the command
hash, and the validity flag. -/
structure DepScanInfo where
  restat : Bool := false
  generator : Bool := false
  deps : Bool := false
  depfile : Bool := false
  commandHash : Nat := 0
  valid : Bool := false
deriving Repr, DecidableEq

/-- A `Node`: canonical path, mtime (with `statusKnown` playing the role of
the source's `mtime_ != -1` "has been statted" state, which is never consulted
after a stat error because the scan aborts), dirty flag, the scan-scoped
precomputed mtime and collection flag, the at-most-one producing edge, the
manifest out-edges and the out-edges discovered through depfiles/deps log. -/
structure Node where
  path : String
  mtime : TimeStamp := 0
  statusKnown : Bool := false
  dirty : Bool := false
  precomputedMtime : Option TimeStamp := none
  precomputedDirtiness : Bool := false
  inEdge : Option Nat := none
  outEdges : List Nat := []
  depScanOutEdges : List Nat := []
deriving Repr, DecidableEq

/-- An `Edge`: the phony-rule flag (`rule_ == &State::kPhonyRule`), the
fork's phony-output flag, the pool id, the input list with its implicit and
order-only region sizes, the output list with its explicit/implicit region
sizes, the traversal mark and result state, and the precomputed scan info.
The depfile path is the (precomputed) result of `GetUnescapedDepfile`. -/
structure Edge where
  isPhony : Bool := false
  phonyOutput : Bool := false
  pool : Nat := 0
  inputs : List Nat := []
  implicitDeps : Nat := 0
  orderOnlyDeps : Nat := 0
  outputs : List Nat := []
  explicitOuts : Nat := 0
  implicitOuts : Nat := 0
  mark : Mark := .VisitNone
  outputsReady : Bool := false
  depsMissing : Bool := false
  precomputedDirtiness : Bool := false
  depScanInfo : DepScanInfo := {}
  depfilePath : String := ""
deriving Repr, DecidableEq

/-- The mutable graph: nodes and edges addressed by index. -/
structure BuildState where
  nodes : List Node
  edges : List Edge
deriving Repr, DecidableEq

def BuildState.node (st : BuildState) (i : Nat) : Node :=
  st.nodes.getD i { path := "" }

def BuildState.edge (st : BuildState) (i : Nat) : Edge :=
  st.edges.getD i {}

def BuildState.setNode (st : BuildState) (i : Nat) (n : Node) : BuildState :=
  { st with nodes := st.nodes.set i n }

def BuildState.setEdge (st : BuildState) (i : Nat) (e : Edge) : BuildState :=
  { st with edges := st.edges.set i e }

/-- A deps-log record (`DepsLog::Deps`): the recorded mtime and node list. -/
structure DepsLogEntry where
  mtime : TimeStamp
  nodes : List Nat
deriving Repr, DecidableEq

/-- `DiskInterface::ReadFile` results. -/
inductive ReadRes where
  | okay (content : String)
  | notFound
  | otherError (msg : String)
deriving Repr, DecidableEq

/-- A parsed Make-style depfile: one target and its dependencies. -/
structure ParsedDepfile where
  out : String
  ins : List String
deriving Repr, DecidableEq

/-- The external collaborators of one scan: the disk (`Stat`/`LStat` as total
mtime maps plus the error message the disk interface writes on a failed stat),
the optional build log, the deps log, `ReadFile`, the depfile parser and path
canonicaliser (both modelled from the spec: depfile_parser.cc and util.cc are
not in `src/`), and whether the parallel pre-stat pass runs
(`IsStatThreadSafe() && GetOptimalThreadPoolJobCount() > 1`). -/
structure ScanEnv where
  statFn : String → TimeStamp
  lstatFn : String → TimeStamp
  statErrMsg : String → String
  buildLog : Option BuildLogFn
  depsLog : Nat → Option DepsLogEntry
  readFile : String → ReadRes
  parseDepfile : String → Except String ParsedDepfile
  canon : String → Except String String
  parallelStat : Bool

/-- `Node::Stat` (`graph.cc` lines 38-44): `LStat` for nodes with an in-edge
(generated outputs must not be dereferenced through symlinks), `Stat`
otherwise; stores the mtime and succeeds iff it is not `-1`. -/
def nodeStat (env : ScanEnv) (st : BuildState) (i : Nat) : BuildState × Bool :=
  let n := st.node i
  let m := match n.inEdge with
    | some _ => env.lstatFn n.path
    | none => env.statFn n.path
  (st.setNode i { n with mtime := m, statusKnown := true }, m ≠ -1)

/-- `Node::PrecomputeStat` (`graph.cc` lines 30-36): same stat choice, stored
into the precomputed cache. -/
def nodePrecomputeStat (env : ScanEnv) (st : BuildState) (i : Nat) :
    BuildState × Bool :=
  let n := st.node i
  let m := match n.inEdge with
    | some _ => env.lstatFn n.path
    | none => env.statFn n.path
  (st.setNode i { n with precomputedMtime := some m }, m ≠ -1)

/-- Modelled from the spec: `Node::StatIfNecessary` (graph.h, not in `src/`):
ensure the node's mtime is known, consulting the scan's precomputed cache
before going to the disk.  Returns the state, success, and the stat error
message on failure. -/
def statIfNecessary (env : ScanEnv) (st : BuildState) (i : Nat) :
    BuildState × Bool × String :=
  let n := st.node i
  if n.statusKnown then (st, true, "")
  else
    match n.precomputedMtime with
    | some m =>
      (st.setNode i { n with mtime := m, statusKnown := true }, m ≠ -1,
        if m = -1 then env.statErrMsg n.path else "")
    | none =>
      let (st', ok) := nodeStat env st i
      (st', ok, if ok then "" else env.statErrMsg n.path)

/-- `Edge::maybe_phonycycle_diagnostic` (`graph.cc` lines 613-619): the
CMake-style self-referencing phony shape. -/
def maybePhonycycleDiagnostic (e : Edge) : Bool :=
  e.isPhony && e.outputs.length == 1 && e.implicitOuts == 0 &&
    e.implicitDeps == 0 && e.orderOnlyDeps == 0

/-- `DependencyScan::VerifyDAG` (`graph.cc` lines 269-306).  Returns `none`
when the node's in-edge carries no temporary mark; otherwise walks the stack
for the first node produced by this edge, rewrites that position to the
current node, and builds the `dependency cycle:` message (with the phonycycle
hint when the cycle's start is the stack's last entry and the edge has the
self-referencing phony shape).  The source asserts that the stack walk finds
an entry; the unreachable miss is mapped to `none`. -/
def VerifyDAG (st : BuildState) (nid : Nat) (stack : List Nat) : Option String :=
  let eid := (st.node nid).inEdge.getD 0
  if (st.edge eid).mark ≠ .VisitInStack then none
  else
    match stack.findIdx? (fun s => (st.node s).inEdge == some eid) with
    | none => none
    | some i =>
      let stack' := stack.set i nid
      let cycle := stack'.drop i
      let msg := (cycle.foldl (fun acc s => acc ++ (st.node s).path ++ " -> ")
          "dependency cycle: ") ++ (st.node nid).path
      some (if i + 1 = stack.length && maybePhonycycleDiagnostic (st.edge eid)
        then msg ++ " [-w phonycycle=err]" else msg)

/-- `Edge::AllInputsReady` (`graph.cc` lines 401-408). -/
def AllInputsReady (st : BuildState) (eid : Nat) : Bool :=
  (st.edge eid).inputs.all fun i =>
    match (st.node i).inEdge with
    | some inE => (st.edge inE).outputsReady
    | none => true

/-- `DependencyScan::RecomputeOutputsDirty` (`graph.cc` lines 308-320): check
each output with `RecomputeOutputDirty` until one is dirty.  The C++ bool
return is unconditionally true (there is no error path), so only the
outputs-dirty flag is modelled. -/
def RecomputeOutputsDirtyB (env : ScanEnv) (st : BuildState) (eid : Nat)
    (mri : Option Nat) : Bool :=
  let e := st.edge eid
  e.outputs.any fun o =>
    RecomputeOutputDirty e.isPhony e.inputs.isEmpty e.depScanInfo.restat
      e.depScanInfo.generator env.buildLog (mri.map fun i => (st.node i).mtime)
      e.depScanInfo.commandHash (st.node o).path (st.node o).mtime

/-! ### The implicit dep loader (`graph.cc` lines 708-839) -/

/-- Modelled from the spec: `State::GetNode` (state.cc, not in `src/`): look
up the node with this canonical path, creating a fresh one if unknown. -/
def getNode (st : BuildState) (path : String) : BuildState × Nat :=
  match st.nodes.findIdx? (fun n => n.path == path) with
  | some i => (st, i)
  | none => ({ st with nodes := st.nodes ++ [{ path := path }] }, st.nodes.length)

/-- `ImplicitDepLoader::CreatePhonyInEdge` (`graph.cc` lines 823-839):
synthesize a phony producer (with `outputs_ready` already true) for a
discovered node that has none. -/
def createPhonyInEdge (st : BuildState) (nid : Nat) : BuildState :=
  let n := st.node nid
  match n.inEdge with
  | some _ => st
  | none =>
    let eid := st.edges.length
    let phony : Edge :=
      { isPhony := true, outputs := [nid], explicitOuts := 1, outputsReady := true }
    let st := { st with edges := st.edges ++ [phony] }
    st.setNode nid { n with inEdge := some eid }

/-- `ImplicitDepLoader::PreallocateSpace` (`graph.cc` lines 815-821): insert
`count` empty slots right before the order-only region and grow the implicit
region. -/
def preallocateSpace (st : BuildState) (eid : Nat) (count : Nat) : BuildState :=
  let e := st.edge eid
  let cut := e.inputs.length - e.orderOnlyDeps
  st.setEdge eid { e with
    inputs := e.inputs.take cut ++ List.replicate count 0 ++ e.inputs.drop cut,
    implicitDeps := e.implicitDeps + count }

/-- The fill loop shared by both deps sources: store each discovered node in
its preallocated input slot, record the discovered out-edge on the node
(`AddOutEdgeDepScan`), and synthesize a phony producer if needed. -/
def fillImplicitDeps (st : BuildState) (eid : Nat) (pos : Nat) :
    List Nat → BuildState
  | [] => st
  | d :: rest =>
    let e := st.edge eid
    let st := st.setEdge eid { e with inputs := e.inputs.set pos d }
    let n := st.node d
    let st := st.setNode d { n with depScanOutEdges := n.depScanOutEdges ++ [eid] }
    let st := createPhonyInEdge st d
    fillImplicitDeps st eid (pos + 1) rest

/-- `ImplicitDepLoader::LoadDepsFromLog` (`graph.cc` lines 788-813): deps are
looked up for the first output; a missing record, or a record older than the
output's mtime, is a silent failure (false with an empty error). -/
def LoadDepsFromLog (env : ScanEnv) (st : BuildState) (eid : Nat) :
    BuildState × Bool × String :=
  let output := (st.edge eid).outputs.headD 0
  match env.depsLog output with
  | none => (st, false, "")
  | some deps =>
    if (st.node output).mtime > deps.mtime then (st, false, "")
    else
      let pos := (st.edge eid).inputs.length - (st.edge eid).orderOnlyDeps
      let st := preallocateSpace st eid deps.nodes.length
      (fillImplicitDeps st eid pos deps.nodes, true, "")

/-- The depfile input loop of `LoadDepFile` (`graph.cc` lines 771-783):
canonicalize each path (propagating canonicalisation errors verbatim), look
the node up or create it, and fill the slot. -/
def fillDepfileIns (env : ScanEnv) (st : BuildState) (eid : Nat) (pos : Nat) :
    List String → BuildState × Bool × String
  | [] => (st, true, "")
  | p :: rest =>
    match env.canon p with
    | .error cerr => (st, false, cerr)
    | .ok cp =>
      let (st, nid) := getNode st cp
      let e := st.edge eid
      let st := st.setEdge eid { e with inputs := e.inputs.set pos nid }
      let n := st.node nid
      let st := st.setNode nid { n with depScanOutEdges := n.depScanOutEdges ++ [eid] }
      let st := createPhonyInEdge st nid
      fillDepfileIns env st eid (pos + 1) rest

/-- `ImplicitDepLoader::LoadDepFile` (`graph.cc` lines 723-786).  A missing
depfile reads as empty; empty content is a silent failure; parse and
canonicalisation failures carry a `path: `-prefixed message; a first-output
mismatch is a silent failure; otherwise the parsed inputs are loaded. -/
def LoadDepFile (env : ScanEnv) (st : BuildState) (eid : Nat) (path : String) :
    BuildState × Bool × String :=
  match env.readFile path with
  | .otherError m => (st, false, "loading '" ++ path ++ "': " ++ m)
  | r =>
    let content := match r with
      | .okay c => c
      | _ => ""
    if content = "" then (st, false, "")
    else
      match env.parseDepfile content with
      | .error perr => (st, false, path ++ ": " ++ perr)
      | .ok df =>
        match env.canon df.out with
        | .error cerr => (st, false, path ++ ": " ++ cerr)
        | .ok outPath =>
          let firstOut := (st.edge eid).outputs.headD 0
          if (st.node firstOut).path ≠ outPath then (st, false, "")
          else
            let pos := (st.edge eid).inputs.length - (st.edge eid).orderOnlyDeps
            let st := preallocateSpace st eid df.ins.length
            fillDepfileIns env st eid pos df.ins

/-- `ImplicitDepLoader::LoadDeps` (`graph.cc` lines 708-721): deps log first,
then depfile, else nothing to load. -/
def LoadDeps (env : ScanEnv) (st : BuildState) (eid : Nat) :
    BuildState × Bool × String :=
  let e := st.edge eid
  if e.depScanInfo.deps then LoadDepsFromLog env st eid
  else if e.depScanInfo.depfile then LoadDepFile env st eid e.depfilePath
  else (st, true, "")

/-! ### The recursive scan (`graph.cc` lines 46-267) -/

/-- Results of `RecomputeNodeDirty`: success with the updated graph, failure
with the error message and the partially-updated graph, or fuel exhaustion of
this embedding (which the sufficiency lemmas rule out). -/
inductive ScanRes where
  | ok (st : BuildState)
  | fail (msg : String) (st : BuildState)
  | fuelOut
deriving Repr, DecidableEq

/-- Results of the input loop: the state plus the loop-carried locals
(`dirty`, `most_recent_input`), or a propagated failure. -/
inductive LoopRes where
  | ok (st : BuildState) (dirty : Bool) (mri : Option Nat)
  | fail (msg : String) (st : BuildState)
  | fuelOut
deriving Repr, DecidableEq

/-- The output stat loop of `RecomputeNodeDirty` (`graph.cc` lines 196-201). -/
def statOutputs (env : ScanEnv) (st : BuildState) :
    List Nat → BuildState × Bool × String
  | [] => (st, true, "")
  | o :: rest =>
    let (st', ok, msg) := statIfNecessary env st o
    if ok then statOutputs env st' rest else (st', false, msg)

/-- Mark every output dirty (`graph.cc` lines 245-250). -/
def markOutputsDirty (st : BuildState) (outs : List Nat) : BuildState :=
  outs.foldl (fun s o => s.setNode o { s.node o with dirty := true }) st

/-- Modelled from the spec: `Edge::is_order_only` (graph.h, not in `src/`):
the order-only inputs are the trailing `order_only_deps_` entries. -/
def isOrderOnly (e : Edge) (idx : Nat) : Bool :=
  e.inputs.length - e.orderOnlyDeps ≤ idx

/-- The input loop of `RecomputeNodeDirty` (`graph.cc` lines 211-237),
parameterized by the recursive visit: visit the input, propagate
not-outputs-ready from its producing edge to this edge, and for
non-order-only inputs either take dirtiness or track the most recent input. -/
def visitInputs (visit : Nat → BuildState → ScanRes) (eid : Nat) :
    BuildState → Bool → Option Nat → Nat → List Nat → LoopRes
  | st, dirty, mri, _, [] => .ok st dirty mri
  | st, dirty, mri, idx, i :: rest =>
    match visit i st with
    | .fail m st' => .fail m st'
    | .fuelOut => .fuelOut
    | .ok st =>
      let st :=
        match (st.node i).inEdge with
        | some inE =>
          if !(st.edge inE).outputsReady then
            st.setEdge eid { st.edge eid with outputsReady := false }
          else st
        | none => st
      if isOrderOnly (st.edge eid) idx then
        visitInputs visit eid st dirty mri (idx + 1) rest
      else if (st.node i).dirty then
        visitInputs visit eid st true mri (idx + 1) rest
      else
        let mri' := match mri with
          | none => some i
          | some m => if (st.node i).mtime > (st.node m).mtime then some i else m
        visitInputs visit eid st dirty mri' (idx + 1) rest

/-- `DependencyScan::RecomputeNodeDirty` (`graph.cc` lines 164-267), with
explicit fuel for the recursion.  The stack is passed by value: the C++
push/pop discipline makes the callee's pops invisible to the caller. -/
def RecomputeNodeDirty (env : ScanEnv) :
    Nat → Nat → List Nat → BuildState → ScanRes
  | 0, _, _, _ => .fuelOut
  | fuel + 1, nid, stack, st =>
    match (st.node nid).inEdge with
    | none =>
      -- Leaf node: dirty iff missing, once statted.
      if (st.node nid).statusKnown then .ok st
      else
        let (st, ok, msg) := statIfNecessary env st nid
        if !ok then .fail msg st
        else
          let n := st.node nid
          .ok (st.setNode nid { n with dirty := !nodeExists n.mtime })
    | some eid =>
      if (st.edge eid).mark = .VisitDone then .ok st
      else
        match VerifyDAG st nid stack with
        | some msg => .fail msg st
        | none =>
          let st := st.setEdge eid { st.edge eid with mark := .VisitInStack }
          let stack := stack ++ [nid]
          let st := st.setEdge eid
            { st.edge eid with outputsReady := true, depsMissing := false }
          let (st, okOut, msgOut) := statOutputs env st (st.edge eid).outputs
          if !okOut then .fail msgOut st
          else
            let (st, ldOk, ldMsg) := LoadDeps env st eid
            if !ldOk && ldMsg ≠ "" then .fail ldMsg st
            else
              let dirty0 := !ldOk
              let st := if !ldOk then
                  st.setEdge eid { st.edge eid with depsMissing := true }
                else st
              match visitInputs (fun n s => RecomputeNodeDirty env fuel n stack s)
                  eid st dirty0 none 0 (st.edge eid).inputs with
              | .fail m st => .fail m st
              | .fuelOut => .fuelOut
              | .ok st dirty mri =>
                let dirty := if !dirty then RecomputeOutputsDirtyB env st eid mri
                  else dirty
                let st := if dirty then markOutputsDirty st (st.edge eid).outputs
                  else st
                let st := if dirty &&
                    !((st.edge eid).isPhony && (st.edge eid).inputs.isEmpty) then
                    st.setEdge eid { st.edge eid with outputsReady := false }
                  else st
                .ok (st.setEdge eid { st.edge eid with mark := .VisitDone })

/-! ### The scan driver (`graph.cc` lines 46-162) -/

/-- The duplicate-checking iteration of `CollectPrecomputeLists` over a node
list (edge inputs or deps-log nodes), parameterized by the recursive visit. -/
def collectMany (f : Nat → BuildState → List Nat → List Nat →
    BuildState × List Nat × List Nat) :
    List Nat → BuildState → List Nat → List Nat → BuildState × List Nat × List Nat
  | [], st, ns, es => (st, ns, es)
  | n :: rest, st, ns, es =>
    let (st, ns, es) :=
      if (st.node n).precomputedDirtiness then (st, ns, es) else f n st ns es
    collectMany f rest st ns es

/-- `DependencyScan::CollectPrecomputeLists` (`graph.cc` lines 87-121):
depth-first collection of the transitive closure over in-edge inputs and
deps-log records, deduplicated by the `precomputed_dirtiness` flags. -/
def CollectPrecomputeLists (env : ScanEnv) :
    Nat → Nat → BuildState → List Nat → List Nat → BuildState × List Nat × List Nat
  | 0, _, st, ns, es => (st, ns, es)
  | fuel + 1, nid, st, ns, es =>
    if (st.node nid).precomputedDirtiness then (st, ns, es)
    else
      let st := st.setNode nid { st.node nid with precomputedDirtiness := true }
      let ns := ns ++ [nid]
      let (st, ns, es) :=
        match (st.node nid).inEdge with
        | some eid =>
          if !(st.edge eid).precomputedDirtiness then
            let st := st.setEdge eid
              { st.edge eid with precomputedDirtiness := true }
            let es := es ++ [eid]
            collectMany (fun n s a b => CollectPrecomputeLists env fuel n s a b)
              (st.edge eid).inputs st ns es
          else (st, ns, es)
        | none => (st, ns, es)
      match env.depsLog nid with
      | some deps =>
        collectMany (fun n s a b => CollectPrecomputeLists env fuel n s a b)
          deps.nodes st ns es
      | none => (st, ns, es)

/-- The collection over all initial nodes (`graph.cc` lines 53-57), with the
shared accumulator lists. -/
def collectAll (env : ScanEnv) (fuel : Nat) (initial : List Nat)
    (st : BuildState) : BuildState × List Nat × List Nat :=
  initial.foldl
    (fun acc n =>
      let (st, ns, es) := acc
      CollectPrecomputeLists env fuel n st ns es)
    (st, [], [])

/-- Modelled from the spec: the parallel pre-stat pass over the collected
nodes (`graph.cc` lines 133-146 with `ParallelMap`/`PropagateError` from
parallel_map.h, not in `src/`): every node is pre-statted, the workers' error
strings are collected, and the first non-empty one is surfaced. -/
def precomputeStatAll (env : ScanEnv) :
    List Nat → BuildState → BuildState × String
  | [], st => (st, "")
  | n :: rest, st =>
    let (st', ok) := nodePrecomputeStat env st n
    let msg := if ok then "" else env.statErrMsg (st'.node n).path
    let (st'', restMsg) := precomputeStatAll env rest st'
    (st'', if msg ≠ "" then msg else restMsg)

/-- `Edge::PrecomputeDepScanInfo` over the collected edges (`graph.cc` lines
148-159 and 519-545).  The binding evaluations behind the flags and command
hash are modelled as the edge's stored `depScanInfo` (the evaluation machinery
itself is embedded as `EvaluateVariable`); this pass marks the info valid. -/
def precomputeDepScanInfoAll (st : BuildState) : List Nat → BuildState
  | [] => st
  | e :: rest =>
    precomputeDepScanInfoAll
      (st.setEdge e { st.edge e with
        depScanInfo := { (st.edge e).depScanInfo with valid := true } }) rest

/-- `DependencyScan::PrecomputeNodesDirty` (`graph.cc` lines 123-162): the
pre-stat pass runs only when the disk interface is thread-safe and more than
one worker is available; the edge info pass always runs. -/
def PrecomputeNodesDirty (env : ScanEnv) (nodes edges : List Nat)
    (st : BuildState) : BuildState × Bool × String :=
  if env.parallelStat then
    let (st, msg) := precomputeStatAll env nodes st
    if msg ≠ "" then (st, false, msg)
    else (precomputeDepScanInfoAll st edges, true, "")
  else (precomputeDepScanInfoAll st edges, true, "")

/-- The outcome of `RecomputeNodesDirty`: the success flag, error message and
final state, or fuel exhaustion of the embedding. -/
inductive ScanOut where
  | res (success : Bool) (err : String) (st : BuildState)
  | fuelOut
deriving Repr, DecidableEq

/-- The main pass of `RecomputeNodesDirty` (`graph.cc` lines 63-73): visit
each initial node with a fresh stack, stopping at the first failure. -/
def mainPass (env : ScanEnv) (fuel : Nat) :
    List Nat → BuildState → ScanOut
  | [], st => .res true "" st
  | n :: rest, st =>
    match RecomputeNodeDirty env fuel n [] st with
    | .ok st => mainPass env fuel rest st
    | .fail msg st => .res false msg st
    | .fuelOut => .fuelOut

/-- The post-scan cleanup (`graph.cc` lines 75-82): clear the precomputed
mtime of every collected node (`Node::ClearPrecomputedStat`). -/
def clearPrecomputedStats (ns : List Nat) (st : BuildState) : BuildState :=
  ns.foldl (fun s n => s.setNode n { s.node n with precomputedMtime := none }) st

/-- `DependencyScan::RecomputeNodesDirty` (`graph.cc` lines 46-85): collect,
precompute, main pass, and the unconditional clearing of the precomputed
mtimes. -/
def RecomputeNodesDirty (env : ScanEnv) (fuel : Nat) (initial : List Nat)
    (st : BuildState) : ScanOut :=
  let (st1, allNodes, allEdges) := collectAll env fuel initial st
  let (st2, ok1, msg1) := PrecomputeNodesDirty env allNodes allEdges st1
  match (if ok1 then mainPass env fuel initial st2 else .res false msg1 st2) with
  | .res success msg st3 => .res success msg (clearPrecomputedStats allNodes st3)
  | .fuelOut => .fuelOut

/-- The final state of a scan outcome, when the scan ran to an outcome. -/
def ScanOut.state : ScanOut → Option BuildState
  | .res _ _ st => some st
  | .fuelOut => none

/-- The success flag of a scan outcome. -/
def ScanOut.success : ScanOut → Option Bool
  | .res b _ _ => some b
  | .fuelOut => none

/-- The error message of a scan outcome. -/
def ScanOut.errMsg : ScanOut → Option String
  | .res _ m _ => some m
  | .fuelOut => none

/-- A concrete scan environment: `in` is missing on disk, `out` has mtime 5,
everything else mtime 1; no build log, no deps log, no depfiles on disk. -/
def exEnv : ScanEnv where
  statFn := fun p => if p = "in" then 0 else if p = "out" then 5 else 1
  lstatFn := fun p => if p = "in" then 0 else if p = "out" then 5 else 1
  statErrMsg := fun p => "stat(" ++ p ++ "): error"
  buildLog := none
  depsLog := fun _ => none
  readFile := fun _ => .notFound
  parseDepfile := fun _ => .error "no parse"
  canon := fun s => .ok s
  parallelStat := false

/-- A concrete graph: a phony edge `build out: phony in` whose input `in` is a
missing source file. -/
def exPhonyInput : BuildState where
  nodes := [{ path := "in" }, { path := "out", inEdge := some 0 }]
  edges := [{ isPhony := true, inputs := [0], outputs := [1], explicitOuts := 1 }]

/-- A concrete graph: the CMake-style self-referencing phony
`build a: phony a`. -/
def exPhonySelfLoop : BuildState where
  nodes := [{ path := "a", inEdge := some 0 }]
  edges := [{ isPhony := true, inputs := [0], outputs := [0], explicitOuts := 1 }]

/-- A concrete graph with a two-edge cycle: `build a: cat b` and
`build b: cat a`. -/
def exTwoCycle : BuildState where
  nodes := [{ path := "a", inEdge := some 0 }, { path := "b", inEdge := some 1 }]
  edges := [{ inputs := [1], outputs := [0], explicitOuts := 1 },
            { inputs := [0], outputs := [1], explicitOuts := 1 }]

/-- A concrete graph exercising the stack-position rewrite of `VerifyDAG`:
`build a b: cat c` and `build c: cat b`.  A scan started at `a` detects the
cycle when revisiting edge 0 through `b`, and the stack entry `a` (where edge
0 was first entered) is rewritten to the currently visited node `b`. -/
def exTwoOut : BuildState where
  nodes := [{ path := "a", inEdge := some 0 }, { path := "b", inEdge := some 0 },
            { path := "c", inEdge := some 1 }]
  edges := [{ inputs := [2], outputs := [0, 1], explicitOuts := 2 },
            { inputs := [1], outputs := [2], explicitOuts := 1 }]

/-- A concrete environment with an empty deps log and mtime 5 for every path. -/
def exDepsEnv : ScanEnv where
  statFn := fun _ => 5
  lstatFn := fun _ => 5
  statErrMsg := fun p => "stat(" ++ p ++ "): error"
  buildLog := none
  depsLog := fun _ => none
  readFile := fun _ => .notFound
  parseDepfile := fun _ => .error "no parse"
  canon := fun s => .ok s
  parallelStat := false

/-- A concrete graph: one input-less edge producing `obj` that declares
`deps` (so it consults the deps log). -/
def exDepsState : BuildState where
  nodes := [{ path := "obj", inEdge := some 0 }]
  edges := [{ inputs := [], outputs := [0], explicitOuts := 1,
              depScanInfo := { deps := true } }]

/-- A concrete environment in which every depfile exists but is empty. -/
def exDepfileEnv : ScanEnv where
  statFn := fun _ => 5
  lstatFn := fun _ => 5
  statErrMsg := fun p => "stat(" ++ p ++ "): error"
  buildLog := none
  depsLog := fun _ => none
  readFile := fun _ => .okay ""
  parseDepfile := fun _ => .error "no parse"
  canon := fun s => .ok s
  parallelStat := false

/-- A concrete graph: one input-less edge producing `obj` that declares a
depfile `obj.d`. -/
def exDepfileState : BuildState where
  nodes := [{ path := "obj", inEdge := some 0 }]
  edges := [{ inputs := [], outputs := [0], explicitOuts := 1,
              depScanInfo := { depfile := true }, depfilePath := "obj.d" }]

/-! ### The build plan (`build.cc` lines 81-290) -/

/-- The per-edge want state of the Plan. -/
inductive Want where
  | nothing
  | toStart
  | toFinish
deriving Repr, DecidableEq

/-- `Plan::EdgeResult`. -/
inductive EdgeResult where
  | succeeded
  | failed
deriving Repr, DecidableEq

/-- Modelled from the spec: `Pool` (state.h/state.cc, not in `src/`): a named
concurrency bucket with an integer depth, a current-use counter and the
delayed-edge queue.  Depth 0 is the default unbounded pool. -/
structure Pool where
  depth : Nat := 0
  currentUse : Nat := 0
  delayed : List Nat := []

/-- Modelled from the spec: `Pool::ShouldDelayEdge`: pooled edges (depth ≠ 0)
go through the delayed queue. -/
def Pool.shouldDelayEdge (p : Pool) : Bool := p.depth ≠ 0

/-- Modelled from the spec: `Pool::EdgeScheduled`: take one slot. -/
def Pool.edgeScheduled (p : Pool) : Pool := { p with currentUse := p.currentUse + 1 }

/-- Modelled from the spec: `Pool::EdgeFinished`: release one slot. -/
def Pool.edgeFinishedP (p : Pool) : Pool := { p with currentUse := p.currentUse - 1 }

/-- Modelled from the spec: the loop of `Pool::RetrieveReadyEdges`: admit
delayed edges in order while capacity remains.  Returns the remaining delayed
queue, the new use count and the admitted edges. -/
def retrieveGo (depth : Nat) : List Nat → Nat → List Nat × Nat × List Nat
  | [], use => ([], use, [])
  | d :: rest, use =>
    if use + 1 ≤ depth then
      let (rem, use', adds) := retrieveGo depth rest (use + 1)
      (rem, use', d :: adds)
    else (d :: rest, use, [])

/-- Modelled from the spec: `Pool::RetrieveReadyEdges`. -/
def Pool.retrieveReadyEdges (p : Pool) : Pool × List Nat :=
  let (rem, use', adds) := retrieveGo p.depth p.delayed p.currentUse
  ({ p with delayed := rem, currentUse := use' }, adds)

/-- The Plan's state: the two counters, the want map (association list in
insertion order), the ready list, and the pools. -/
structure PlanState where
  commandEdges : Int := 0
  wantedEdges : Int := 0
  want : List (Nat × Want) := []
  ready : List Nat := []
  pools : Nat → Pool := fun _ => {}

/-- `want_.find(e)`. -/
def wantLookup (w : List (Nat × Want)) (e : Nat) : Option Want :=
  (w.find? (fun p => p.1 == e)).map (·.2)

/-- Writing through the found iterator: update the value stored for `e`. -/
def wantSet (w : List (Nat × Want)) (e : Nat) (v : Want) : List (Nat × Want) :=
  w.map (fun p => if p.1 == e then (p.1, v) else p)

/-- `want_.insert(make_pair(edge, kWantNothing))`: no-op if present; returns
whether the entry was inserted. -/
def wantInsert (w : List (Nat × Want)) (e : Nat) (v : Want) :
    List (Nat × Want) × Bool :=
  match wantLookup w e with
  | some _ => (w, false)
  | none => (w ++ [(e, v)], true)

/-- `want_.erase(e)`. -/
def wantErase (w : List (Nat × Want)) (e : Nat) : List (Nat × Want) :=
  w.filter (fun p => p.1 != e)

/-- One promotion (`WantNothing → WantToStart` in `AddSubTarget`) or demotion
(`→ WantNothing` in `CleanNode`) event, with the edge's phony flag; a pure
observer used to state the counter bookkeeping. -/
inductive PlanEvent where
  | promote (e : Nat) (phony : Bool)
  | demote (e : Nat) (phony : Bool)
deriving Repr, DecidableEq

/-- The contribution of the events to `command_edges`: +1 per non-phony
promotion, −1 per non-phony demotion. -/
def evCommandDelta : List PlanEvent → Int
  | [] => 0
  | .promote _ ph :: rest => (if ph then 0 else 1) + evCommandDelta rest
  | .demote _ ph :: rest => (if ph then 0 else -1) + evCommandDelta rest

/-- The contribution of the events to `wanted_edges`: +1 per promotion, −1 per
demotion. -/
def evWantedDelta : List PlanEvent → Int
  | [] => 0
  | .promote _ _ :: rest => 1 + evWantedDelta rest
  | .demote _ _ :: rest => -1 + evWantedDelta rest

/-- Insertion into a sorted edge-id list (the ready/out-edge sets are ordered
by `EdgeCmp`, i.e. by edge id). -/
def insertSorted (x : Nat) : List Nat → List Nat
  | [] => [x]
  | y :: ys => if x ≤ y then x :: y :: ys else y :: insertSorted x ys

/-- `Node::GetOutEdges` (`graph.cc` lines 664-678): the manifest out-edges
sorted by `EdgeCmp` (edge id), followed by the dep-scan out-edges in
discovery order. -/
def GetOutEdges (st : BuildState) (n : Nat) : List Nat :=
  (st.node n).outEdges.foldr insertSorted [] ++ (st.node n).depScanOutEdges

/-- `Plan::ScheduleWork` (`build.cc` lines 149-170): idempotent on
`WantToFinish`; otherwise mark `WantToFinish` and either delay through the
pool (draining whatever becomes ready) or schedule directly. -/
def ScheduleWork (bs : BuildState) (ps : PlanState) (e : Nat) : PlanState :=
  match wantLookup ps.want e with
  | none => ps
  | some w =>
    if w = .toFinish then ps
    else
      let ps := { ps with want := wantSet ps.want e .toFinish }
      let pid := (bs.edge e).pool
      let pool := ps.pools pid
      if pool.shouldDelayEdge then
        let pool := { pool with delayed := pool.delayed ++ [e] }
        let (pool, adds) := pool.retrieveReadyEdges
        { ps with
          pools := (fun i => if i = pid then pool else ps.pools i),
          ready := ps.ready ++ adds }
      else
        let pool := pool.edgeScheduled
        { ps with
          pools := (fun i => if i = pid then pool else ps.pools i),
          ready := ps.ready ++ [e] }

/-- `Plan::FindWork` (`build.cc` lines 140-147). -/
def FindWork (ps : PlanState) : Option Nat × PlanState :=
  match ps.ready with
  | [] => (none, ps)
  | e :: rest => (some e, { ps with ready := rest })

/-- The input loop of `AddSubTarget` (`build.cc` lines 131-136), parameterized
by the recursive call (which takes the node and the dependent). -/
def addSubTargetsWith
    (f : Nat → Option Nat → PlanState → PlanState × Bool × String × List PlanEvent)
    (nid : Nat) : PlanState → List PlanEvent → List Nat →
      PlanState × Bool × String × List PlanEvent
  | ps, evs, [] => (ps, true, "", evs)
  | ps, evs, i :: rest =>
    let (ps, ok, err, evs') := f i (some nid) ps
    if !ok && err ≠ "" then (ps, false, err, evs ++ evs')
    else addSubTargetsWith f nid ps (evs ++ evs') rest

/-- `Plan::AddSubTarget` (`build.cc` lines 94-138), with explicit recursion
fuel and the promotion events as a pure observer.  Returns the plan, the C++
bool result, the error and the events. -/
def AddSubTarget (bs : BuildState) :
    Nat → Nat → Option Nat → PlanState →
      PlanState × Bool × String × List PlanEvent
  | 0, _, _, ps => (ps, false, "", [])
  | fuel + 1, nid, dependent, ps =>
    match (bs.node nid).inEdge with
    | none =>
      if (bs.node nid).dirty then
        let referenced := match dependent with
          | some d => ", needed by '" ++ (bs.node d).path ++ "',"
          | none => ""
        (ps, false, "'" ++ (bs.node nid).path ++ "'" ++ referenced ++
          " missing and no known rule to make it", [])
      else (ps, false, "", [])
    | some e =>
      if (bs.edge e).outputsReady then (ps, false, "", [])
      else
        let (want1, inserted) := wantInsert ps.want e .nothing
        let ps := { ps with want := want1 }
        let w := (wantLookup ps.want e).getD .nothing
        let (ps, evs) :=
          if (bs.node nid).dirty && w == .nothing then
            let ps := { ps with
              want := (wantSet ps.want e .toStart),
              wantedEdges := ps.wantedEdges + 1 }
            let ps := if AllInputsReady bs e then ScheduleWork bs ps e else ps
            let ps := if !(bs.edge e).isPhony then
                { ps with commandEdges := ps.commandEdges + 1 }
              else ps
            (ps, [PlanEvent.promote e (bs.edge e).isPhony])
          else (ps, [])
        if !inserted then (ps, true, "", evs)
        else
          addSubTargetsWith (fun i dep p => AddSubTarget bs fuel i dep p)
            nid ps evs (bs.edge e).inputs

/-- `Plan::AddTarget` (`build.cc` lines 90-92). -/
def AddTarget (bs : BuildState) (fuel : Nat) (nid : Nat) (ps : PlanState) :
    PlanState × Bool × String × List PlanEvent :=
  AddSubTarget bs fuel nid none ps

/-- The out-edge loop of `NodeFinished` (`build.cc` lines 200-217),
parameterized by the recursive `EdgeFinished`. -/
def outEdgesLoop
    (ef : Nat → EdgeResult → BuildState × PlanState → BuildState × PlanState)
    (bs : BuildState) (ps : PlanState) :
    List Nat → BuildState × PlanState
  | [] => (bs, ps)
  | oe :: rest =>
    let (bs, ps) :=
      match wantLookup ps.want oe with
      | none => (bs, ps)
      | some w =>
        if AllInputsReady bs oe then
          if w ≠ .nothing then (bs, ScheduleWork bs ps oe)
          else ef oe .succeeded (bs, ps)
        else (bs, ps)
    outEdgesLoop ef bs ps rest

/-- `Plan::NodeFinished`'s body for one node, parameterized by the recursive
`EdgeFinished`. -/
def NodeFinishedCore
    (ef : Nat → EdgeResult → BuildState × PlanState → BuildState × PlanState)
    (bs : BuildState) (ps : PlanState) (n : Nat) : BuildState × PlanState :=
  outEdgesLoop ef bs ps (GetOutEdges bs n)

/-- The output loop of `EdgeFinished` (`build.cc` lines 192-195). -/
def nodeFinishedList
    (ef : Nat → EdgeResult → BuildState × PlanState → BuildState × PlanState)
    (bs : BuildState) (ps : PlanState) :
    List Nat → BuildState × PlanState
  | [] => (bs, ps)
  | n :: rest =>
    let (bs, ps) := NodeFinishedCore ef bs ps n
    nodeFinishedList ef bs ps rest

/-- `Plan::EdgeFinished` (`build.cc` lines 172-196), with explicit fuel for
the `NodeFinished` recursion.  Pool bookkeeping releases the slot only for
directly wanted edges and always drains the pool's ready edges; a failed
result stops there; a successful one decrements `wanted_edges` if directly
wanted, erases the want entry, marks the outputs ready and propagates through
`NodeFinished`. -/
def EdgeFinished (bsps : BuildState × PlanState) :
    Nat → Nat → EdgeResult → BuildState × PlanState
  | 0, _, _ => bsps
  | fuel + 1, e, result =>
    let (bs, ps) := bsps
    match wantLookup ps.want e with
    | none => (bs, ps)
    | some w =>
      let directlyWanted := w ≠ Want.nothing
      let pid := (bs.edge e).pool
      let pool := ps.pools pid
      let pool := if directlyWanted then pool.edgeFinishedP else pool
      let (pool, adds) := pool.retrieveReadyEdges
      let ps := { ps with
                  pools := (fun i => if i = pid then pool else ps.pools i),
                  ready := ps.ready ++ adds }
      match result with
      | .failed => (bs, ps)
      | .succeeded =>
        let ps := if directlyWanted then
            { ps with wantedEdges := ps.wantedEdges - 1 }
          else ps
        let ps := { ps with want := wantErase ps.want e }
        let bs := bs.setEdge e { bs.edge e with outputsReady := true }
        nodeFinishedList (fun e' r p => EdgeFinished p fuel e' r) bs ps
          (bs.edge e).outputs

/-- `Plan::NodeFinished` (`build.cc` lines 198-218) at the given fuel. -/
def NodeFinished (fuel : Nat) (bs : BuildState) (ps : PlanState) (n : Nat) :
    BuildState × PlanState :=
  NodeFinishedCore (fun e r p => EdgeFinished p fuel e r) bs ps n

/-- The output recursion of `CleanNode` (`build.cc` lines 266-270),
parameterized by the recursive call. -/
def cleanOutputs
    (f : Nat → BuildState → PlanState → BuildState × PlanState × List PlanEvent)
    (bs : BuildState) (ps : PlanState) :
    List Nat → BuildState × PlanState × List PlanEvent
  | [] => (bs, ps, [])
  | o :: rest =>
    let (bs', ps', evs) := f o bs ps
    let (bs'', ps'', evs') := cleanOutputs f bs' ps' rest
    (bs'', ps'', evs ++ evs')

/-- One out-edge's body of `CleanNode` (`build.cc` lines 224-278): skip
not-wanted, deps-missing and phony-output edges; when every non-order-only
input is clean, recompute the most recent input and the output dirtiness, and
if the outputs are clean, recursively clean them and demote the edge to
`WantNothing` (decrementing `wanted_edges`, and `command_edges` for non-phony
edges).  The C++ error path is unreachable (`RecomputeOutputsDirty` cannot
fail), so the function is total. -/
def cleanOneEdge
    (f : Nat → BuildState → PlanState → BuildState × PlanState × List PlanEvent)
    (env : ScanEnv) (bs : BuildState) (ps : PlanState) (oe : Nat) :
    BuildState × PlanState × List PlanEvent :=
  match wantLookup ps.want oe with
  | none => (bs, ps, [])
  | some w =>
    if w = .nothing then (bs, ps, [])
    else if (bs.edge oe).depsMissing then (bs, ps, [])
    else if (bs.edge oe).phonyOutput then (bs, ps, [])
    else
      let nonOO := (bs.edge oe).inputs.take
        ((bs.edge oe).inputs.length - (bs.edge oe).orderOnlyDeps)
      if nonOO.all (fun i => !(bs.node i).dirty) then
        let mri := nonOO.foldl
          (fun m i =>
            match m with
            | none => some i
            | some mm =>
              if (bs.node i).mtime > (bs.node mm).mtime then some i else mm)
          none
        if !(RecomputeOutputsDirtyB env bs oe mri) then
          let (bs, ps, evs) := cleanOutputs f bs ps (bs.edge oe).outputs
          let ps := { ps with
            want := (wantSet ps.want oe .nothing),
            wantedEdges := ps.wantedEdges - 1 }
          let ps := if !(bs.edge oe).isPhony then
              { ps with commandEdges := ps.commandEdges - 1 }
            else ps
          (bs, ps, evs ++ [PlanEvent.demote oe (bs.edge oe).isPhony])
        else (bs, ps, [])
      else (bs, ps, [])

/-- The out-edge loop of `CleanNode`. -/
def cleanOutEdges
    (f : Nat → BuildState → PlanState → BuildState × PlanState × List PlanEvent)
    (env : ScanEnv) (bs : BuildState) (ps : PlanState) :
    List Nat → BuildState × PlanState × List PlanEvent
  | [] => (bs, ps, [])
  | oe :: rest =>
    let (bs', ps', evs) := cleanOneEdge f env bs ps oe
    let (bs'', ps'', evs') := cleanOutEdges f env bs' ps' rest
    (bs'', ps'', evs ++ evs')

/-- `Plan::CleanNode` (`build.cc` lines 220-280), with explicit fuel and the
demotion events as a pure observer. -/
def CleanNode (env : ScanEnv) :
    Nat → Nat → BuildState → PlanState → BuildState × PlanState × List PlanEvent
  | 0, _, bs, ps => (bs, ps, [])
  | fuel + 1, n, bs, ps =>
    let bs := bs.setNode n { bs.node n with dirty := false }
    cleanOutEdges (fun n' b p => CleanNode env fuel n' b p) env bs ps
      (GetOutEdges bs n)

/-- A top-level Plan operation: the public entry points whose counter
bookkeeping the claims describe. -/
inductive PlanOp where
  | addTarget (n : Nat)
  | edgeFinished (e : Nat) (r : EdgeResult)
  | cleanNode (n : Nat)

/-- Run a sequence of Plan operations, collecting all promotion/demotion
events. -/
def runPlanOps (env : ScanEnv) (fuel : Nat) :
    List PlanOp → BuildState → PlanState →
      BuildState × PlanState × List PlanEvent
  | [], bs, ps => (bs, ps, [])
  | op :: rest, bs, ps =>
    let (bs1, ps1, evs) :=
      match op with
      | .addTarget n =>
        let (ps', _, _, evs) := AddTarget bs fuel n ps
        (bs, ps', evs)
      | .edgeFinished e r =>
        let (bs', ps') := EdgeFinished (bs, ps) fuel e r
        (bs', ps', [])
      | .cleanNode n => CleanNode env fuel n bs ps
    let (bs2, ps2, evs') := runPlanOps env fuel rest bs1 ps1
    (bs2, ps2, evs ++ evs')

/-- The `directly_wanted` test of `Plan::EdgeFinished` (`build.cc` line 175),
as a function of the plan state. -/
def directlyWanted (ps : PlanState) (e : Nat) : Bool :=
  match wantLookup ps.want e with
  | some w => w != .nothing
  | none => false

/-- A concrete plan scenario: the clean edge `out ← in` (both clean, edge not
ready), reached by `AddTarget out`, so its want entry is `kWantNothing`. -/
def exPlanGraph : BuildState where
  nodes := [{ path := "in", statusKnown := true, mtime := 1 },
            { path := "out", statusKnown := true, mtime := 2, inEdge := some 0 }]
  edges := [{ inputs := [0], outputs := [1], explicitOuts := 1 }]

/-! ### Invariants and measures of the scan, used to state its verification -/

/-- Progress order of traversal marks: `VisitNone < VisitInStack < VisitDone`. -/
def markRank : Mark → Nat
  | .VisitNone => 0
  | .VisitInStack => 1
  | .VisitDone => 2

/-- The number of unvisited edges — the scan's fuel measure. -/
def countNone (st : BuildState) : Nat :=
  (List.range st.edges.length).countP
    (fun e => (st.edge e).mark == Mark.VisitNone)

/-- The direct dependency relation of the graph: `m` depends on `n` when `n`
is an input of `m`'s producing edge. -/
def depStep (st : BuildState) (m n : Nat) : Prop :=
  ∃ e, (st.node m).inEdge = some e ∧ n ∈ (st.edge e).inputs

/-- A node the scan has settled: a leaf with known status, or a produced node
whose edge is `VisitDone`. -/
def processed (st : BuildState) (n : Nat) : Prop :=
  match (st.node n).inEdge with
  | none => (st.node n).statusKnown = true
  | some e => (st.edge e).mark = Mark.VisitDone

/-- Structural well-formedness of a build graph: indices in range, and each
output's node records the edge as its unique producer. -/
structure WFState (st : BuildState) : Prop where
  inEdgeValid : ∀ n e, (st.node n).inEdge = some e → e < st.edges.length
  inputValid : ∀ e n, n ∈ (st.edge e).inputs → n < st.nodes.length
  outputValid : ∀ e n, n ∈ (st.edge e).outputs → n < st.nodes.length
  singleProducer : ∀ e n, n ∈ (st.edge e).outputs → (st.node n).inEdge = some e

/-- No edge consults the deps log or a depfile. -/
def NoDeps (st : BuildState) : Prop :=
  ∀ e, (st.edge e).depScanInfo.deps = false ∧
    (st.edge e).depScanInfo.depfile = false

/-- A disk whose stats never error. -/
def goodEnv (env : ScanEnv) : Prop :=
  (∀ p, env.statFn p ≠ -1) ∧ (∀ p, env.lstatFn p ≠ -1)

/-- The stack/marks correspondence: every in-stack edge produces some node on
the traversal stack (the invariant behind `VerifyDAG`'s stack walk). -/
def StackMarks (st : BuildState) (stack : List Nat) : Prop :=
  ∀ e, (st.edge e).mark = Mark.VisitInStack →
    ∃ n ∈ stack, (st.node n).inEdge = some e

/-- Dirtiness is only ever assigned to statted nodes. -/
def DirtyKnown (st : BuildState) : Prop :=
  ∀ n, (st.node n).dirty = true → (st.node n).statusKnown = true

/-- A dirty produced node's edge is finished, and its readiness is exactly
the input-less-phony exception of `graph.cc` lines 252-258. -/
def DirtyLinked (st : BuildState) : Prop :=
  ∀ n e, (st.node n).dirty = true → (st.node n).inEdge = some e →
    (st.edge e).mark = Mark.VisitDone ∧
    (st.edge e).outputsReady = ((st.edge e).isPhony && (st.edge e).inputs.isEmpty)

/-- Finished edges carry a strictly decreasing rank into their inputs'
producing edges, and their leaf inputs are statted — the acyclicity
certificate of the finished region. -/
def DoneRank (st : BuildState) : Prop :=
  ∃ (N : Nat) (r : Nat → Nat),
    ∀ e, (st.edge e).mark = Mark.VisitDone → r e < N ∧
      ∀ n ∈ (st.edge e).inputs,
        ((st.node n).inEdge = none → (st.node n).statusKnown = true) ∧
        ∀ d, (st.node n).inEdge = some d →
          (st.edge d).mark = Mark.VisitDone ∧ r d < r e

/-- The scan invariant threaded through `RecomputeNodeDirty`. -/
def ScanInv (st : BuildState) (stack : List Nat) : Prop :=
  StackMarks st stack ∧ DoneRank st ∧ DirtyKnown st ∧ DirtyLinked st

/-- What one scan step may do to the graph: the structure (paths, producers,
inputs, outputs, rule data) is untouched, status only becomes known, and
marks only progress. -/
structure ScanStep (st st' : BuildState) : Prop where
  nodesLen : st'.nodes.length = st.nodes.length
  edgesLen : st'.edges.length = st.edges.length
  path : ∀ i, (st'.node i).path = (st.node i).path
  inEdge : ∀ i, (st'.node i).inEdge = (st.node i).inEdge
  preEq : ∀ i, (st'.node i).precomputedMtime = (st.node i).precomputedMtime
  inputs : ∀ e, (st'.edge e).inputs = (st.edge e).inputs
  outputs : ∀ e, (st'.edge e).outputs = (st.edge e).outputs
  isPhony : ∀ e, (st'.edge e).isPhony = (st.edge e).isPhony
  info : ∀ e, (st'.edge e).depScanInfo.deps = (st.edge e).depScanInfo.deps ∧
    (st'.edge e).depScanInfo.depfile = (st.edge e).depScanInfo.depfile
  statusMono : ∀ i, (st.node i).statusKnown = true →
    (st'.node i).statusKnown = true
  markMono : ∀ e, markRank (st.edge e).mark ≤ markRank (st'.edge e).mark

/-- A step that touches only node status data: edges untouched, and of the
nodes only `mtime`/`statusKnown` (monotonically) may change.  This is the
shape of the stat passes. -/
structure NodeOnlyStep (st st' : BuildState) : Prop where
  edges : st'.edges = st.edges
  nodesLen : st'.nodes.length = st.nodes.length
  path : ∀ j, (st'.node j).path = (st.node j).path
  inEdge : ∀ j, (st'.node j).inEdge = (st.node j).inEdge
  preEq : ∀ j, (st'.node j).precomputedMtime = (st.node j).precomputedMtime
  dirty : ∀ j, (st'.node j).dirty = (st.node j).dirty
  statusMono : ∀ j, (st.node j).statusKnown = true →
    (st'.node j).statusKnown = true

/-- `p1 -> p2 -> ... -> pk` — the arrow-joined path list of a cycle report. -/
def arrowJoin : List String → String
  | [] => ""
  | [s] => s
  | s :: rest => s ++ " -> " ++ arrowJoin rest

/-- The claimed shape of a scan failure message: a dependency cycle starting
and ending at the same path, possibly with the phonycycle hint. -/
def cycleMsgForm (msg : String) : Prop :=
  ∃ (p : String) (mid : List String) (suffix : Bool),
    msg = "dependency cycle: " ++ arrowJoin (p :: (mid ++ [p])) ++
      (if suffix then " [-w phonycycle=err]" else "")

/-- The precomputed-mtime cache holds no stat errors (the parallel pre-stat
pass only stores mtimes read from the disk). -/
def GoodPre (st : BuildState) : Prop :=
  ∀ n, (st.node n).precomputedMtime ≠ some (-1)

/-- Equality of two graphs outside the scan-scoped precompute caches: the
collect and precompute passes touch only `precomputed_dirtiness_`, the
precomputed mtimes and `DepScanInfo::valid`. -/
def EqOutsidePrecompute (st st' : BuildState) : Prop :=
  st'.nodes.length = st.nodes.length ∧ st'.edges.length = st.edges.length ∧
  (∀ j, (st'.node j).path = (st.node j).path ∧
    (st'.node j).mtime = (st.node j).mtime ∧
    (st'.node j).statusKnown = (st.node j).statusKnown ∧
    (st'.node j).dirty = (st.node j).dirty ∧
    (st'.node j).inEdge = (st.node j).inEdge) ∧
  (∀ e, (st'.edge e).inputs = (st.edge e).inputs ∧
    (st'.edge e).outputs = (st.edge e).outputs ∧
    (st'.edge e).isPhony = (st.edge e).isPhony ∧
    (st'.edge e).mark = (st.edge e).mark ∧
    (st'.edge e).depScanInfo.deps = (st.edge e).depScanInfo.deps ∧
    (st'.edge e).depScanInfo.depfile = (st.edge e).depScanInfo.depfile)

/-- Postcondition of `RecomputeNodeDirty`: on success the graph took scan
steps only, the in-stack set is unchanged, the invariant holds again, the
node is settled and no new unvisited edges appeared; a failure carries a
cycle-shaped message; fuel never runs out. -/
def RNDPost (st : BuildState) (stack : List Nat) (nid : Nat) :
    ScanRes → Prop
  | .ok st' =>
    ScanStep st st' ∧
    (∀ e, (st'.edge e).mark = Mark.VisitInStack ↔
      (st.edge e).mark = Mark.VisitInStack) ∧
    ScanInv st' stack ∧ processed st' nid ∧ countNone st' ≤ countNone st
  | .fail msg _ => cycleMsgForm msg
  | .fuelOut => False

/-- Postcondition of the input loop, analogous to `RNDPost` with every
visited input settled. -/
def VIPost (st : BuildState) (stack : List Nat) (l : List Nat) :
    LoopRes → Prop
  | .ok st' _ _ =>
    ScanStep st st' ∧
    (∀ e, (st'.edge e).mark = Mark.VisitInStack ↔
      (st.edge e).mark = Mark.VisitInStack) ∧
    ScanInv st' stack ∧ (∀ i ∈ l, processed st' i) ∧
    countNone st' ≤ countNone st
  | .fail msg _ => cycleMsgForm msg
  | .fuelOut => False

/-! ### Theorems -/

theorem BuildState.node_setNode (st : BuildState) (i j : Nat) (n : Node) :
    (st.setNode i n).node j =
      if i = j ∧ i < st.nodes.length then n else st.node j := by
  simp only [BuildState.node, BuildState.setNode, List.getD_eq_getElem?_getD,
    List.getElem?_set]
  by_cases hij : i = j
  · subst hij
    by_cases h : i < st.nodes.length
    · simp [h]
    · simp [h, List.getElem?_eq_none (Nat.le_of_not_lt h)]
  · simp [hij]

theorem BuildState.edge_setNode (st : BuildState) (i j : Nat) (n : Node) :
    (st.setNode i n).edge j = st.edge j := rfl

theorem BuildState.edge_setEdge (st : BuildState) (i j : Nat) (e : Edge) :
    (st.setEdge i e).edge j =
      if i = j ∧ i < st.edges.length then e else st.edge j := by
  simp only [BuildState.edge, BuildState.setEdge, List.getD_eq_getElem?_getD,
    List.getElem?_set]
  by_cases hij : i = j
  · subst hij
    by_cases h : i < st.edges.length
    · simp [h]
    · simp [h, List.getElem?_eq_none (Nat.le_of_not_lt h)]
  · simp [hij]

theorem BuildState.node_setEdge (st : BuildState) (i j : Nat) (e : Edge) :
    (st.setEdge i e).node j = st.node j := rfl

theorem BuildState.nodes_length_setNode (st : BuildState) (i : Nat) (n : Node) :
    (st.setNode i n).nodes.length = st.nodes.length := by
  simp [BuildState.setNode]

theorem BuildState.nodes_setEdge (st : BuildState) (i : Nat) (e : Edge) :
    (st.setEdge i e).nodes = st.nodes := rfl

theorem BuildState.edges_setNode (st : BuildState) (i : Nat) (n : Node) :
    (st.setNode i n).edges = st.edges := rfl

theorem BuildState.edges_length_setEdge (st : BuildState) (i : Nat) (e : Edge) :
    (st.setEdge i e).edges.length = st.edges.length := by
  simp [BuildState.setEdge]

/-- C1: for a non-phony edge whose output exists and whose on-disk mtime is
older than the most recent non-order-only input's mtime, `RecomputeOutputDirty`
reports the output dirty whenever the mtime test fires; the test fires
unconditionally unless the edge is a restat rule and the build log has an entry
for the output, in which case the entry's mtime replaces the on-disk mtime and
the test fires exactly when that stored mtime is older than the input's. -/
theorem C1_mtime_test_restat_exception
    (restat generator : Bool) (buildLog : Option BuildLogFn)
    (commandHash : Nat) (outPath : String) (outMtime inMtime : TimeStamp)
    (hexists : outMtime ≠ 0) (holder : outMtime < inMtime) :
    (outputMtimeTestDirty restat buildLog (some inMtime) outPath outMtime = true →
      RecomputeOutputDirty false false restat generator buildLog (some inMtime)
        commandHash outPath outMtime = true)
    ∧ ((restat = false ∨ buildLog = none ∨
        ∃ log, buildLog = some log ∧ log outPath = none) →
      outputMtimeTestDirty restat buildLog (some inMtime) outPath outMtime = true)
    ∧ (∀ log entry, restat = true → buildLog = some log → log outPath = some entry →
      (outputMtimeTestDirty restat buildLog (some inMtime) outPath outMtime = true ↔
        entry.mtime < inMtime)) := by
  refine ⟨?_, ?_, ?_⟩
  · intro htest
    simp [RecomputeOutputDirty, nodeExists, hexists, htest]
  · rintro (h | h | ⟨log, hlog, hnone⟩) <;>
      simp_all [outputMtimeTestDirty, restatOutputMtime, holder] <;>
      cases buildLog <;> simp_all [holder]
  · intro log entry hr hlog hentry
    subst hr hlog
    simp [outputMtimeTestDirty, restatOutputMtime, hentry, holder]

/-- Witness for `C1_mtime_test_restat_exception` at a concrete input: output
mtime 5, input mtime 10, restat rule with a log entry of mtime 3. -/
theorem C1_mtime_test_restat_exception_witness :
    outputMtimeTestDirty true (some fun _ => some ⟨7, 3⟩) (some 10) "out" 5 = true ↔
      (3 : Int) < 10 := by
  exact (C1_mtime_test_restat_exception true false
    (some fun _ => some ⟨7, 3⟩) 7 "out" 5 10 (by decide) (by decide)).2.2
    _ ⟨7, 3⟩ rfl rfl rfl

/-- C2: for a non-phony edge with an existing, mtime-clean output and a build
log present: with a log entry and a non-generator edge, a command-hash mismatch
reports dirty; with no log entry and a non-generator edge, dirty; a generator
edge's result ignores the command hash entirely (it can only be dirty via the
entry-mtime-older-than-input check) and is clean when no entry exists. -/
theorem C2_command_hash_checks
    (restat generator : Bool) (log : BuildLogFn)
    (mostRecentInput : Option TimeStamp) (commandHash : Nat)
    (outPath : String) (outMtime : TimeStamp)
    (hexists : outMtime ≠ 0)
    (hclean : outputMtimeTestDirty restat (some log) mostRecentInput outPath outMtime
      = false) :
    (∀ entry, log outPath = some entry → generator = false →
      commandHash ≠ entry.commandHash →
      RecomputeOutputDirty false false restat generator (some log) mostRecentInput
        commandHash outPath outMtime = true)
    ∧ (log outPath = none → generator = false →
      RecomputeOutputDirty false false restat generator (some log) mostRecentInput
        commandHash outPath outMtime = true)
    ∧ (generator = true →
      RecomputeOutputDirty false false restat generator (some log) mostRecentInput
        commandHash outPath outMtime =
        (match log outPath, mostRecentInput with
          | some entry, some inMtime => decide (entry.mtime < inMtime)
          | _, _ => false)) := by
  refine ⟨?_, ?_, ?_⟩
  · intro entry hentry hgen hhash
    simp [RecomputeOutputDirty, nodeExists, hexists, hclean, hentry, hgen, hhash]
  · intro hnone hgen
    simp [RecomputeOutputDirty, nodeExists, hexists, hclean, hnone, hgen]
  · intro hgen
    subst hgen
    cases hentry : log outPath <;>
      cases mostRecentInput <;>
      simp [RecomputeOutputDirty, nodeExists, hexists, hclean, hentry]

/-- Witness for `C2_command_hash_checks`: a non-generator edge whose command
hash 8 differs from the logged hash 7 is dirty even though mtimes agree. -/
theorem C2_command_hash_checks_witness :
    RecomputeOutputDirty false false false false (some fun _ => some ⟨7, 10⟩)
      (some 10) 8 "out" 12 = true := by
  exact (C2_command_hash_checks false false (fun _ => some ⟨7, 10⟩)
    (some 10) 8 "out" 12 (by decide) (by decide)).1 ⟨7, 10⟩ rfl rfl (by decide)

/-- C7 counterexample: with `LStat` failing (mtime `-1`, message "boom") on the
single output of a non-phony-output active edge with no depfile and recorded
mtime 5, `Builder::Cleanup` logs the error but still removes the output — it
does not skip the deletion as the claim states. -/
theorem C7_counterexample_lstat_error_deletes :
    BuilderCleanup (fun _ => ⟨-1, false, "boom"⟩)
      [⟨false, "", [⟨"o", 5⟩]⟩] = (["o"], ["boom"]) := by
  decide

/-- C7 amended: on an `LStat` error the Builder logs the error and falls
through to the same deletion rule with the new mtime `-1` (and `is_dir` left
false), so the output is removed iff the edge has a depfile or its recorded
mtime differs from `-1`; on a successful stat the output is removed exactly
when it is not a directory and either the edge has a depfile or the mtime
changed; an output path is removed by the edge's pass iff that per-output rule
fires or it coincides with the declared depfile. -/
theorem C7_amended_cleanup_deletion_rule
    (lstat : String → LStatRes) (e : CleanupEdge) (o : CleanupOut)
    (hph : e.phonyOutput = false) (hout : e.outputs = [o]) :
    ((lstat o.path).mtime = -1 →
      (cleanupOutput lstat e.depfile o).2 = some (lstat o.path).errMsg
      ∧ (cleanupOutput lstat e.depfile o).1 = (e.depfile ≠ "" || o.mtime ≠ -1))
    ∧ ((lstat o.path).mtime ≠ -1 →
      (cleanupOutput lstat e.depfile o).2 = none
      ∧ (cleanupOutput lstat e.depfile o).1 =
          (!(lstat o.path).isDir && (e.depfile ≠ "" || o.mtime ≠ (lstat o.path).mtime)))
    ∧ (o.path ∈ (cleanupEdge lstat e).1 ↔
      (cleanupOutput lstat e.depfile o).1 = true
      ∨ (e.depfile = o.path ∧ e.depfile ≠ "")) := by
  refine ⟨?_, ?_, ?_⟩
  · intro herr
    constructor
    · simp [cleanupOutput, herr]
    · simp [cleanupOutput, herr]
  · intro hok
    constructor
    · simp [cleanupOutput, hok]
    · simp [cleanupOutput, hok]
  · simp only [cleanupEdge, hph, hout, if_false, Bool.false_eq_true,
      List.foldl_cons, List.foldl_nil]
    rcases hrem : (cleanupOutput lstat e.depfile o).1 <;>
      rcases hlog : (cleanupOutput lstat e.depfile o).2 <;>
      by_cases hdf : e.depfile = "" <;>
      simp [hrem, hlog, hdf] <;>
      constructor <;> intro h <;> simp_all <;> tauto

/-- Witness for `C7_amended_cleanup_deletion_rule` at the counterexample input:
the stat error is logged and the output (recorded mtime 5 ≠ -1, no depfile) is
removed. -/
theorem C7_amended_cleanup_deletion_rule_witness :
    (cleanupOutput (fun _ => ⟨-1, false, "boom"⟩) "" ⟨"o", 5⟩).2 = some "boom"
    ∧ (cleanupOutput (fun _ => ⟨-1, false, "boom"⟩) "" ⟨"o", 5⟩).1 =
        ("" ≠ "" || (5 : Int) ≠ -1) := by
  exact (C7_amended_cleanup_deletion_rule (fun _ => ⟨-1, false, "boom"⟩)
    ⟨false, "", [⟨"o", 5⟩]⟩ ⟨"o", 5⟩ rfl rfl).1 rfl

/-- C8 counterexample: with rule bindings `command = $a $a`, `a = x`, the
second lookup of `a` revisits a variable already recorded on the evaluation
ring (the flag is true), yet evaluation succeeds with "x x" — it does not fail
with a cycle error.  The source only errors when `recursion_count_` reaches the
limit; it never checks membership. -/
theorem C8_counterexample_revisit_succeeds :
    EvaluateVariable evalSiblingEdge 10 [] false "command" =
      .ok "x x" ["command", "a", "a"] true := by
  decide

/-- C8 amended: evaluation through rule bindings fails with
`cycle in rule variables: v1 -> v2 -> ...` exactly when the count of
rule-binding lookups within one evaluation reaches `kEvalRecursionLimit` (16);
the message lists the recorded variables starting from the first, stopping
after the first repetition of it.  Any genuinely cyclic chain of rule bindings
reaches the limit and fails this way — concretely, `a = $b`, `b = $a` yields
exactly `cycle in rule variables: a -> b -> a` — but a mere revisit below the
limit does not fail. -/
theorem C8_amended_cycle_error_at_recursion_limit :
    (∀ (e : EvalEdge) (fuel : Nat) (ring : List String) (rev : Bool)
      (v : String) (pat : Pattern),
      ring.length = kEvalRecursionLimit →
      v ≠ "in" → v ≠ "in_newline" → v ≠ "out" →
      lookupLocal e.localBindings v = none →
      ruleLookup e.ruleBindings v = some pat →
      0 < fuel →
      EvaluateVariable e fuel ring rev v =
        .err ("cycle in rule variables: " ++ cycleString ring))
    ∧ EvaluateVariable evalCycleEdge 40 [] false "a" =
        .err "cycle in rule variables: a -> b -> a" := by
  constructor
  · intro e fuel ring rev v pat hring hv1 hv2 hv3 hlocal hrule hfuel
    match fuel, hfuel with
    | fuel + 1, _ =>
      rw [EvaluateVariable]
      simp [hv1, hv2, hv3, hlocal, hrule, hring]
  · decide

/-- Witness for `C8_amended_cycle_error_at_recursion_limit`: a full ring of 16
recorded variables makes the next rule-binding lookup fail with the cycle
message. -/
theorem C8_amended_cycle_error_at_recursion_limit_witness :
    EvaluateVariable evalCycleEdge 1 (List.replicate 16 "z") false "a" =
      .err ("cycle in rule variables: " ++ cycleString (List.replicate 16 "z")) := by
  exact C8_amended_cycle_error_at_recursion_limit.1 evalCycleEdge 1
    (List.replicate 16 "z") false "a" [.var "b"] (by decide) (by decide)
    (by decide) (by decide) rfl rfl (by decide)

/-- C4 counterexample: scanning `build out: phony in` with `in` missing and
`out` present (mtime 5), the scanner marks the output `out` dirty — the edge
is phony, has an input, and the output exists on disk, contradicting the
claimed "dirty iff no inputs and output missing" for the scanner.  (The dirty
input makes the edge dirty, and a dirty edge marks all its outputs dirty.) -/
theorem C4_counterexample_phony_dirty_input :
    (RecomputeNodesDirty exEnv 10 [1] exPhonyInput).state.map
      (fun st => ((st.edge 0).isPhony, (st.edge 0).inputs, (st.node 1).dirty,
        (st.node 1).mtime)) = some (true, [0], true, 5) := by
  decide

/-- C5 counterexample: after the same successful scan of
`build out: phony in`, the reached edge's traversal mark is `VisitDone`, not
`Unvisited` — `RecomputeNodesDirty` never resets marks. -/
theorem C5_counterexample_mark_not_reset :
    (RecomputeNodesDirty exEnv 10 [1] exPhonyInput).state.map
      (fun st => (st.edge 0).mark) = some .VisitDone
    ∧ Mark.VisitDone ≠ Mark.VisitNone := by
  constructor
  · decide
  · decide

/-- Shared helper: processing a node whose single-output, input-less, non-phony
edge suffers a silent dependency-load failure (`LoadDeps` returns false with an
empty error) completes successfully with `deps_missing` set, the edge marked
done and not ready, and the output marked dirty. -/
theorem RND_silent_deps_failure (env : ScanEnv) (fuel : Nat) (nid eid : Nat)
    (stack : List Nat) (st : BuildState)
    (hin : (st.node nid).inEdge = some eid)
    (heid : eid < st.edges.length)
    (hnid : nid < st.nodes.length)
    (hmark : (st.edge eid).mark = .VisitNone)
    (houts : (st.edge eid).outputs = [nid])
    (hins : (st.edge eid).inputs = [])
    (hphony : (st.edge eid).isPhony = false)
    (hsk : (st.node nid).statusKnown = false)
    (hpre : (st.node nid).precomputedMtime = none)
    (hlstat : env.lstatFn (st.node nid).path ≠ -1)
    (hload : ∀ s : BuildState,
      (s.edge eid).depScanInfo = (st.edge eid).depScanInfo →
      (s.edge eid).depfilePath = (st.edge eid).depfilePath →
      (s.edge eid).outputs = [nid] →
      (s.node nid).mtime = env.lstatFn (st.node nid).path →
      (s.node nid).path = (st.node nid).path →
      LoadDeps env s eid = (s, false, "")) :
    ∃ st', RecomputeNodeDirty env (fuel + 1) nid stack st = .ok st'
      ∧ (st'.edge eid).depsMissing = true
      ∧ (st'.edge eid).mark = .VisitDone
      ∧ (st'.edge eid).outputsReady = false
      ∧ (st'.node nid).dirty = true := by
  simp only [RecomputeNodeDirty, hin, hmark, VerifyDAG, statOutputs,
    statIfNecessary, nodeStat, statOutputs, visitInputs, markOutputsDirty,
    BuildState.edge_setEdge, BuildState.node_setEdge, BuildState.node_setNode,
    BuildState.edge_setNode, BuildState.edges_length_setEdge,
    BuildState.nodes_length_setNode, BuildState.edges_setNode,
    BuildState.nodes_setEdge, true_and, and_true,
    heid, hnid, houts, hins, hphony, hsk, hpre,
    hlstat, and_self, if_true, if_false, Option.getD_some, reduceCtorEq, ne_eq,
    not_false_eq_true, not_true_eq_false, decide_eq_true_eq, reduceIte,
    List.foldl_cons, List.foldl_nil, List.isEmpty_nil, Bool.false_and,
    Bool.and_false, Bool.not_false, Bool.not_true, Bool.true_and, Bool.and_true,
    Bool.and_self, decide_not]
  rw [hload _
    (by simp [BuildState.edge_setEdge, BuildState.edge_setNode,
      BuildState.edges_length_setEdge, heid])
    (by simp [BuildState.edge_setEdge, BuildState.edge_setNode,
      BuildState.edges_length_setEdge, heid])
    (by simp [BuildState.edge_setEdge, BuildState.edge_setNode,
      BuildState.edges_length_setEdge, heid])
    (by simp [BuildState.node_setNode, BuildState.node_setEdge,
      BuildState.nodes_length_setNode, BuildState.nodes_setEdge, hnid])
    (by simp [BuildState.node_setNode, BuildState.node_setEdge,
      BuildState.nodes_length_setNode, BuildState.nodes_setEdge, hnid])]
  simp only [BuildState.edge_setEdge, BuildState.node_setEdge,
    BuildState.node_setNode, BuildState.edge_setNode,
    BuildState.edges_length_setEdge, BuildState.nodes_length_setNode,
    BuildState.edges_setNode, BuildState.nodes_setEdge, true_and, and_true,
    heid, hnid, houts, hins, hphony, and_self, if_true, if_false, ne_eq,
    not_false_eq_true, not_true_eq_false, decide_eq_true_eq, reduceIte,
    reduceCtorEq, visitInputs, markOutputsDirty, List.foldl_cons,
    List.foldl_nil, List.isEmpty_nil, Bool.false_and, Bool.and_false,
    Bool.not_false, Bool.not_true, Bool.true_and, Bool.and_true, Bool.and_self,
    Bool.not_eq_true, decide_True, decide_False]
  refine ⟨_, rfl, ?_, ?_, ?_, ?_⟩ <;>
    simp [BuildState.edge_setEdge, BuildState.node_setNode,
      BuildState.node_setEdge, BuildState.edges_length_setEdge,
      BuildState.nodes_length_setNode, BuildState.edges_setNode,
      BuildState.nodes_setEdge, heid, hnid]

/-- C6: for an edge that declares `deps`, `LoadDepsFromLog` returns false with
an empty error when the deps log has no entry for the edge's first output, and
likewise when the entry's recorded mtime is strictly older than the output's
on-disk mtime (stale deps); and the scanner then sets `deps_missing`, marks
the edge's output dirty and completes the node without failing. -/
theorem C6_deps_log_missing_or_stale
    (env : ScanEnv) (st : BuildState) (fuel nid eid : Nat) (stack : List Nat)
    (hin : (st.node nid).inEdge = some eid)
    (heid : eid < st.edges.length)
    (hnid : nid < st.nodes.length)
    (hmark : (st.edge eid).mark = .VisitNone)
    (houts : (st.edge eid).outputs = [nid])
    (hins : (st.edge eid).inputs = [])
    (hphony : (st.edge eid).isPhony = false)
    (hsk : (st.node nid).statusKnown = false)
    (hpre : (st.node nid).precomputedMtime = none)
    (hlstat : env.lstatFn (st.node nid).path ≠ -1)
    (hdeps : (st.edge eid).depScanInfo.deps = true)
    (hmiss : env.depsLog nid = none ∨
      ∃ d, env.depsLog nid = some d ∧ d.mtime < env.lstatFn (st.node nid).path) :
    (∀ (s : BuildState) (e : Nat),
      env.depsLog ((s.edge e).outputs.headD 0) = none →
      LoadDepsFromLog env s e = (s, false, ""))
    ∧ (∀ (s : BuildState) (e : Nat) (d : DepsLogEntry),
      env.depsLog ((s.edge e).outputs.headD 0) = some d →
      (s.node ((s.edge e).outputs.headD 0)).mtime > d.mtime →
      LoadDepsFromLog env s e = (s, false, ""))
    ∧ (∃ st', RecomputeNodeDirty env (fuel + 1) nid stack st = .ok st'
        ∧ (st'.edge eid).depsMissing = true
        ∧ (st'.edge eid).mark = .VisitDone
        ∧ (st'.node nid).dirty = true) := by
  refine ⟨?_, ?_, ?_⟩
  · intro s e h
    have h' : env.depsLog ((s.edge e).outputs.head?.getD 0) = none := by
      simpa using h
    simp [LoadDepsFromLog, h']
  · intro s e d h hgt
    have h' : env.depsLog ((s.edge e).outputs.head?.getD 0) = some d := by
      simpa using h
    have hgt' : d.mtime < (s.node ((s.edge e).outputs.head?.getD 0)).mtime := by
      simpa using hgt
    simp [LoadDepsFromLog, h', hgt']
  · obtain ⟨st', heq, h1, h2, _, h4⟩ :=
      RND_silent_deps_failure env fuel nid eid stack st hin heid hnid hmark
        houts hins hphony hsk hpre hlstat (fun s hsi _ hso hsm hsp => by
          rcases hmiss with hnone | ⟨d, hd, hlt⟩
          · simp [LoadDeps, hsi, hdeps, LoadDepsFromLog, hso, hnone]
          · simp [LoadDeps, hsi, hdeps, LoadDepsFromLog, hso, hd, hsm,
              hlt])
    exact ⟨st', heq, h1, h2, h4⟩

/-- Witness for `C6_deps_log_missing_or_stale`: an input-less `deps` edge
producing `obj` with an empty deps log is scanned successfully with
`deps_missing` set and `obj` dirty. -/
theorem C6_deps_log_missing_or_stale_witness :
    ∃ st', RecomputeNodeDirty exDepsEnv 1 0 [] exDepsState = .ok st'
      ∧ (st'.edge 0).depsMissing = true
      ∧ (st'.edge 0).mark = .VisitDone
      ∧ (st'.node 0).dirty = true := by
  exact (C6_deps_log_missing_or_stale exDepsEnv exDepsState 0 0 0 []
    rfl (by decide) (by decide) rfl rfl rfl rfl rfl rfl (by decide) rfl
    (Or.inl rfl)).2.2

/-- C10: a depfile that exists but is empty is treated exactly like a missing
depfile: `LoadDepFile` returns false with an empty error (the same result as
`NotFound`), and the scanner then sets `deps_missing` and marks the edge's
output dirty without failing, rather than succeeding with zero dependencies
or reporting a parse error. -/
theorem C10_empty_depfile_like_missing
    (env : ScanEnv) (st : BuildState) (fuel nid eid : Nat) (stack : List Nat)
    (hin : (st.node nid).inEdge = some eid)
    (heid : eid < st.edges.length)
    (hnid : nid < st.nodes.length)
    (hmark : (st.edge eid).mark = .VisitNone)
    (houts : (st.edge eid).outputs = [nid])
    (hins : (st.edge eid).inputs = [])
    (hphony : (st.edge eid).isPhony = false)
    (hsk : (st.node nid).statusKnown = false)
    (hpre : (st.node nid).precomputedMtime = none)
    (hlstat : env.lstatFn (st.node nid).path ≠ -1)
    (hdeps : (st.edge eid).depScanInfo.deps = false)
    (hdf : (st.edge eid).depScanInfo.depfile = true)
    (hread : env.readFile (st.edge eid).depfilePath = .okay "") :
    (∀ (s : BuildState) (e : Nat) (p : String),
      env.readFile p = .okay "" → LoadDepFile env s e p = (s, false, ""))
    ∧ (∀ (s : BuildState) (e : Nat) (p : String),
      env.readFile p = .notFound → LoadDepFile env s e p = (s, false, ""))
    ∧ (∃ st', RecomputeNodeDirty env (fuel + 1) nid stack st = .ok st'
        ∧ (st'.edge eid).depsMissing = true
        ∧ (st'.edge eid).mark = .VisitDone
        ∧ (st'.node nid).dirty = true) := by
  refine ⟨?_, ?_, ?_⟩
  · intro s e p h
    simp [LoadDepFile, h]
  · intro s e p h
    simp [LoadDepFile, h]
  · obtain ⟨st', heq, h1, h2, _, h4⟩ :=
      RND_silent_deps_failure env fuel nid eid stack st hin heid hnid hmark
        houts hins hphony hsk hpre hlstat (fun s hsi hdp hso _ _ => by
          simp [LoadDeps, hsi, hdeps, hdf, LoadDepFile, hdp, hread])
    exact ⟨st', heq, h1, h2, h4⟩

/-- Witness for `C10_empty_depfile_like_missing`: an input-less depfile edge
producing `obj` whose depfile `obj.d` exists but is empty is scanned with
`deps_missing` set and `obj` dirty. -/
theorem C10_empty_depfile_like_missing_witness :
    ∃ st', RecomputeNodeDirty exDepfileEnv 1 0 [] exDepfileState = .ok st'
      ∧ (st'.edge 0).depsMissing = true
      ∧ (st'.edge 0).mark = .VisitDone
      ∧ (st'.node 0).dirty = true := by
  exact (C10_empty_depfile_like_missing exDepfileEnv exDepfileState 0 0 0 []
    rfl (by decide) (by decide) rfl rfl rfl rfl rfl rfl (by decide) rfl rfl
    rfl).2.2

theorem evCommandDelta_append (a b : List PlanEvent) :
    evCommandDelta (a ++ b) = evCommandDelta a + evCommandDelta b := by
  induction a with
  | nil => simp [evCommandDelta]
  | cons x rest ih =>
    cases x <;> simp [evCommandDelta, ih] <;> ring

theorem evWantedDelta_append (a b : List PlanEvent) :
    evWantedDelta (a ++ b) = evWantedDelta a + evWantedDelta b := by
  induction a with
  | nil => simp [evWantedDelta]
  | cons x rest ih =>
    cases x <;> simp [evWantedDelta, ih] <;> ring

theorem ScheduleWork_command (bs : BuildState) (ps : PlanState) (e : Nat) :
    (ScheduleWork bs ps e).commandEdges = ps.commandEdges := by
  unfold ScheduleWork
  cases h : wantLookup ps.want e with
  | none => rfl
  | some w =>
    by_cases hw : w = Want.toFinish
    · simp [hw]
    · by_cases hd : (ps.pools (bs.edge e).pool).shouldDelayEdge <;>
        simp [hw, hd]

theorem ScheduleWork_wanted (bs : BuildState) (ps : PlanState) (e : Nat) :
    (ScheduleWork bs ps e).wantedEdges = ps.wantedEdges := by
  unfold ScheduleWork
  cases h : wantLookup ps.want e with
  | none => rfl
  | some w =>
    by_cases hw : w = Want.toFinish
    · simp [hw]
    · by_cases hd : (ps.pools (bs.edge e).pool).shouldDelayEdge <;>
        simp [hw, hd]

/-- The property of a completion callback that leaves the counters unchanged
on not-directly-wanted edges. -/
def KeepsCounters
    (ef : Nat → EdgeResult → BuildState × PlanState → BuildState × PlanState) :
    Prop :=
  ∀ (e : Nat) (p : BuildState × PlanState),
    wantLookup p.2.want e = some .nothing →
    (ef e .succeeded p).2.commandEdges = p.2.commandEdges ∧
    (ef e .succeeded p).2.wantedEdges = p.2.wantedEdges

theorem outEdgesLoop_counters
    (ef : Nat → EdgeResult → BuildState × PlanState → BuildState × PlanState)
    (hef : KeepsCounters ef) :
    ∀ (l : List Nat) (bs : BuildState) (ps : PlanState),
      (outEdgesLoop ef bs ps l).2.commandEdges = ps.commandEdges ∧
      (outEdgesLoop ef bs ps l).2.wantedEdges = ps.wantedEdges := by
  intro l
  induction l with
  | nil => intro bs ps; exact ⟨rfl, rfl⟩
  | cons oe rest ih =>
    intro bs ps
    simp only [outEdgesLoop]
    cases h : wantLookup ps.want oe with
    | none => exact ih bs ps
    | some w =>
      by_cases hr : AllInputsReady bs oe
      · by_cases hw : w = Want.nothing
        · subst hw
          simp only [hr, if_true, ne_eq, not_true_eq_false, if_false,
            reduceIte]
          obtain ⟨h1, h2⟩ := hef oe (bs, ps) h
          obtain ⟨h3, h4⟩ := ih (ef oe .succeeded (bs, ps)).1
            (ef oe .succeeded (bs, ps)).2
          exact ⟨by rw [h3, h1], by rw [h4, h2]⟩
        · simp only [hr, if_true, hw, ne_eq, not_false_eq_true, reduceIte]
          obtain ⟨h3, h4⟩ := ih bs (ScheduleWork bs ps oe)
          exact ⟨by rw [h3, ScheduleWork_command],
            by rw [h4, ScheduleWork_wanted]⟩
      · simp only [hr, if_false, reduceIte]
        exact ih bs ps

theorem nodeFinishedList_counters
    (ef : Nat → EdgeResult → BuildState × PlanState → BuildState × PlanState)
    (hef : KeepsCounters ef) :
    ∀ (l : List Nat) (bs : BuildState) (ps : PlanState),
      (nodeFinishedList ef bs ps l).2.commandEdges = ps.commandEdges ∧
      (nodeFinishedList ef bs ps l).2.wantedEdges = ps.wantedEdges := by
  intro l
  induction l with
  | nil => intro bs ps; exact ⟨rfl, rfl⟩
  | cons n rest ih =>
    intro bs ps
    simp only [nodeFinishedList, NodeFinishedCore]
    obtain ⟨h1, h2⟩ := outEdgesLoop_counters ef hef (GetOutEdges bs n) bs ps
    obtain ⟨h3, h4⟩ := ih (outEdgesLoop ef bs ps (GetOutEdges bs n)).1
      (outEdgesLoop ef bs ps (GetOutEdges bs n)).2
    exact ⟨by rw [h3, h1], by rw [h4, h2]⟩

/-- A not-directly-wanted completion (want entry absent or `kWantNothing`)
leaves both counters unchanged, at any fuel. -/
theorem EdgeFinished_counters_notDirect :
    ∀ (fuel : Nat) (e : Nat) (bsps : BuildState × PlanState) (r : EdgeResult),
      (wantLookup bsps.2.want e = none ∨
        wantLookup bsps.2.want e = some .nothing) →
      (EdgeFinished bsps fuel e r).2.commandEdges = bsps.2.commandEdges ∧
      (EdgeFinished bsps fuel e r).2.wantedEdges = bsps.2.wantedEdges := by
  intro fuel
  induction fuel with
  | zero => intro e bsps r _; exact ⟨rfl, rfl⟩
  | succ fuel ih =>
    intro e bsps r hw
    obtain ⟨bs, ps⟩ := bsps
    cases r with
    | failed =>
      rcases hw with hw | hw <;> simp [EdgeFinished, hw]
    | succeeded =>
      rcases hw with hw | hw
      · simp [EdgeFinished, hw]
      · simp only [EdgeFinished, hw, ne_eq, not_true_eq_false, reduceIte]
        exact nodeFinishedList_counters _
          (fun e' p hp => ih e' p .succeeded (Or.inr hp)) _ _ _

theorem EdgeFinished_keepsCounters (fuel : Nat) :
    KeepsCounters (fun e' r p => EdgeFinished p fuel e' r) :=
  fun e' p hp => EdgeFinished_counters_notDirect fuel e' p .succeeded (Or.inr hp)

/-- `Plan::EdgeFinished` counter bookkeeping: `command_edges` is never
touched; `wanted_edges` drops by exactly one on a successful completion of a
directly wanted edge and is unchanged otherwise. -/
theorem EdgeFinished_counters (fuel : Nat) (bsps : BuildState × PlanState)
    (e : Nat) (r : EdgeResult) :
    (EdgeFinished bsps (fuel + 1) e r).2.commandEdges = bsps.2.commandEdges ∧
    (EdgeFinished bsps (fuel + 1) e r).2.wantedEdges =
      bsps.2.wantedEdges -
        (if (r == .succeeded && directlyWanted bsps.2 e) = true then 1 else 0) := by
  obtain ⟨bs, ps⟩ := bsps
  cases hlk : wantLookup ps.want e with
  | none =>
    cases r <;> simp [EdgeFinished, directlyWanted, hlk]
  | some w =>
    cases r with
    | failed => simp [EdgeFinished, directlyWanted, hlk]
    | succeeded =>
      by_cases hw : w = Want.nothing
      · subst hw
        simp only [EdgeFinished, directlyWanted, hlk, ne_eq,
          not_true_eq_false, reduceIte, bne_self_eq_false, Bool.and_false,
          if_false, Bool.false_eq_true]
        obtain ⟨h1, h2⟩ := nodeFinishedList_counters _
          (EdgeFinished_keepsCounters fuel) _ _ _
        exact ⟨by rw [h1], by rw [h2]; simp⟩
      · have hne : (w != Want.nothing) = true := by
          simp [bne_iff_ne, hw]
        simp only [EdgeFinished, directlyWanted, hlk, ne_eq, hw,
          not_false_eq_true, reduceIte, hne, Bool.and_true]
        obtain ⟨h1, h2⟩ := nodeFinishedList_counters _
          (EdgeFinished_keepsCounters fuel) _ _ _
        exact ⟨by rw [h1], by rw [h2]; simp⟩

/-- The event-accounting property of a recursive add-target callback. -/
def AddDeltaProp
    (f : Nat → Option Nat → PlanState → PlanState × Bool × String × List PlanEvent) :
    Prop :=
  ∀ (i : Nat) (dep : Option Nat) (ps : PlanState),
    (f i dep ps).1.commandEdges =
      ps.commandEdges + evCommandDelta (f i dep ps).2.2.2 ∧
    (f i dep ps).1.wantedEdges =
      ps.wantedEdges + evWantedDelta (f i dep ps).2.2.2

theorem addSubTargetsWith_delta
    (f : Nat → Option Nat → PlanState → PlanState × Bool × String × List PlanEvent)
    (hf : AddDeltaProp f) :
    ∀ (l : List Nat) (nid : Nat) (ps : PlanState) (evs0 : List PlanEvent),
      (addSubTargetsWith f nid ps evs0 l).1.commandEdges -
        evCommandDelta (addSubTargetsWith f nid ps evs0 l).2.2.2 =
        ps.commandEdges - evCommandDelta evs0 ∧
      (addSubTargetsWith f nid ps evs0 l).1.wantedEdges -
        evWantedDelta (addSubTargetsWith f nid ps evs0 l).2.2.2 =
        ps.wantedEdges - evWantedDelta evs0 := by
  intro l
  induction l with
  | nil => intro nid ps evs0; exact ⟨by simp [addSubTargetsWith],
      by simp [addSubTargetsWith]⟩
  | cons i rest ih =>
    intro nid ps evs0
    simp only [addSubTargetsWith]
    obtain ⟨hc, hw⟩ := hf i (some nid) ps
    by_cases hbr : (!(f i (some nid) ps).2.1 &&
        decide ((f i (some nid) ps).2.2.1 ≠ "")) = true
    · rw [if_pos hbr]
      dsimp only
      exact ⟨by rw [evCommandDelta_append, hc]; ring,
        by rw [evWantedDelta_append, hw]; ring⟩
    · rw [if_neg hbr]
      obtain ⟨h3, h4⟩ := ih nid (f i (some nid) ps).1
        (evs0 ++ (f i (some nid) ps).2.2.2)
      constructor
      · rw [h3, evCommandDelta_append, hc]; ring
      · rw [h4, evWantedDelta_append, hw]; ring

/-- `Plan::AddSubTarget` counter bookkeeping: each counter moves exactly by
the recorded promotion events (+1 `wanted_edges` per promotion, +1
`command_edges` per non-phony promotion). -/
theorem AddSubTarget_delta (bs : BuildState) :
    ∀ (fuel : Nat) (nid : Nat) (dep : Option Nat) (ps : PlanState),
      (AddSubTarget bs fuel nid dep ps).1.commandEdges =
        ps.commandEdges +
          evCommandDelta (AddSubTarget bs fuel nid dep ps).2.2.2 ∧
      (AddSubTarget bs fuel nid dep ps).1.wantedEdges =
        ps.wantedEdges +
          evWantedDelta (AddSubTarget bs fuel nid dep ps).2.2.2 := by
  intro fuel
  induction fuel with
  | zero => intro nid dep ps; simp [AddSubTarget, evCommandDelta, evWantedDelta]
  | succ fuel ih =>
    intro nid dep ps
    cases hin : (bs.node nid).inEdge with
    | none =>
      by_cases hd : (bs.node nid).dirty = true <;>
        cases dep <;>
        simp [AddSubTarget, hin, hd, evCommandDelta, evWantedDelta]
    | some e =>
      by_cases hor : (bs.edge e).outputsReady = true
      · simp [AddSubTarget, hin, hor, evCommandDelta, evWantedDelta]
      · simp only [AddSubTarget, hin, hor, Bool.false_eq_true, if_false,
          reduceIte]
        -- name the post-insert plan state and the promoted state
        rcases hins : wantInsert ps.want e .nothing with ⟨want1, inserted⟩
        simp only [hins]
        set ps1 : PlanState := { ps with want := want1 } with hps1
        have hps1c : ps1.commandEdges = ps.commandEdges := rfl
        have hps1w : ps1.wantedEdges = ps.wantedEdges := rfl
        by_cases hpr : ((bs.node nid).dirty &&
            (wantLookup ps1.want e).getD .nothing == Want.nothing) = true
        · simp only [hpr, if_true, reduceIte]
          set ps2 : PlanState := { ps1 with
            want := (wantSet ps1.want e .toStart),
            wantedEdges := ps1.wantedEdges + 1 } with hps2
          set ps3 : PlanState :=
            if AllInputsReady bs e then ScheduleWork bs ps2 e else ps2 with hps3
          have hps3c : ps3.commandEdges = ps2.commandEdges := by
            rw [hps3]
            by_cases har : AllInputsReady bs e
            · simp [har, ScheduleWork_command]
            · simp [har]
          have hps3w : ps3.wantedEdges = ps2.wantedEdges := by
            rw [hps3]
            by_cases har : AllInputsReady bs e
            · simp [har, ScheduleWork_wanted]
            · simp [har]
          set ps4 : PlanState :=
            if !(bs.edge e).isPhony then
              { ps3 with commandEdges := ps3.commandEdges + 1 }
            else ps3 with hps4
          have hps4c : ps4.commandEdges =
              ps3.commandEdges + (if (bs.edge e).isPhony then 0 else 1) := by
            rw [hps4]
            by_cases hph : (bs.edge e).isPhony <;> simp [hph]
          have hps4w : ps4.wantedEdges = ps3.wantedEdges := by
            rw [hps4]
            by_cases hph : (bs.edge e).isPhony <;> simp [hph]
          have hd4c : ps4.commandEdges = ps.commandEdges +
              evCommandDelta [PlanEvent.promote e (bs.edge e).isPhony] := by
            rw [hps4c, hps3c, hps2]
            simp only [hps1c]
            simp [evCommandDelta]
          have hd4w : ps4.wantedEdges = ps.wantedEdges +
              evWantedDelta [PlanEvent.promote e (bs.edge e).isPhony] := by
            rw [hps4w, hps3w, hps2]
            simp only []
            simp [evWantedDelta, hps1w]
          by_cases hni : inserted = true
          · simp only [hni, Bool.not_true, Bool.false_eq_true, if_false,
              reduceIte]
            obtain ⟨h3, h4⟩ := addSubTargetsWith_delta
              (fun i dep p => AddSubTarget bs fuel i dep p)
              (fun i dep p => ih i dep p) (bs.edge e).inputs nid ps4 [PlanEvent.promote e (bs.edge e).isPhony]
            constructor
            · omega
            · omega
          · have hni' : inserted = false := by
              cases inserted
              · rfl
              · exact absurd rfl hni
            simp only [hni', Bool.not_false, if_true, reduceIte]
            exact ⟨hd4c, hd4w⟩
        · simp only [hpr, Bool.false_eq_true, if_false, reduceIte]
          by_cases hni : inserted = true
          · simp only [hni, Bool.not_true, Bool.false_eq_true, if_false,
              reduceIte]
            obtain ⟨h3, h4⟩ := addSubTargetsWith_delta
              (fun i dep p => AddSubTarget bs fuel i dep p)
              (fun i dep p => ih i dep p) (bs.edge e).inputs nid ps1 []
            have hz1 : evCommandDelta [] = 0 := rfl
            have hz2 : evWantedDelta [] = 0 := rfl
            constructor
            · omega
            · omega
          · have hni' : inserted = false := by
              cases inserted
              · rfl
              · exact absurd rfl hni
            simp only [hni', Bool.not_false, if_true, reduceIte]
            exact ⟨by simp [hps1c, evCommandDelta],
              by simp [hps1w, evWantedDelta]⟩

/-- The event-accounting property of a recursive clean-node callback. -/
def CleanDeltaProp
    (f : Nat → BuildState → PlanState → BuildState × PlanState × List PlanEvent) :
    Prop :=
  ∀ (n : Nat) (bs : BuildState) (ps : PlanState),
    (f n bs ps).2.1.commandEdges =
      ps.commandEdges + evCommandDelta (f n bs ps).2.2 ∧
    (f n bs ps).2.1.wantedEdges =
      ps.wantedEdges + evWantedDelta (f n bs ps).2.2

theorem cleanOutputs_delta
    (f : Nat → BuildState → PlanState → BuildState × PlanState × List PlanEvent)
    (hf : CleanDeltaProp f) :
    ∀ (l : List Nat) (bs : BuildState) (ps : PlanState),
      (cleanOutputs f bs ps l).2.1.commandEdges =
        ps.commandEdges + evCommandDelta (cleanOutputs f bs ps l).2.2 ∧
      (cleanOutputs f bs ps l).2.1.wantedEdges =
        ps.wantedEdges + evWantedDelta (cleanOutputs f bs ps l).2.2 := by
  intro l
  induction l with
  | nil =>
    intro bs ps
    simp [cleanOutputs, evCommandDelta, evWantedDelta]
  | cons o rest ih =>
    intro bs ps
    rcases hfo : f o bs ps with ⟨bs1, ps1, evs1⟩
    have h12 := hf o bs ps
    rw [hfo] at h12
    obtain ⟨h1, h2⟩ := h12
    rcases hrest : cleanOutputs f bs1 ps1 rest with ⟨bs2, ps2, evs2⟩
    have h34 := ih bs1 ps1
    rw [hrest] at h34
    obtain ⟨h3, h4⟩ := h34
    simp only [cleanOutputs, hfo, hrest]
    rw [evCommandDelta_append, evWantedDelta_append]
    simp only at h1 h2 h3 h4 ⊢
    constructor
    · omega
    · omega

theorem cleanOneEdge_delta
    (f : Nat → BuildState → PlanState → BuildState × PlanState × List PlanEvent)
    (hf : CleanDeltaProp f) (env : ScanEnv) (bs : BuildState) (ps : PlanState)
    (oe : Nat) :
    (cleanOneEdge f env bs ps oe).2.1.commandEdges =
      ps.commandEdges + evCommandDelta (cleanOneEdge f env bs ps oe).2.2 ∧
    (cleanOneEdge f env bs ps oe).2.1.wantedEdges =
      ps.wantedEdges + evWantedDelta (cleanOneEdge f env bs ps oe).2.2 := by
  unfold cleanOneEdge
  cases hlk : wantLookup ps.want oe with
  | none => simp [evCommandDelta, evWantedDelta]
  | some w =>
    by_cases hw : w = Want.nothing
    · simp [hw, evCommandDelta, evWantedDelta]
    · simp only [hw, if_false, reduceIte]
      by_cases hdm : (bs.edge oe).depsMissing = true
      · simp [hdm, evCommandDelta, evWantedDelta]
      · simp only [hdm, Bool.false_eq_true, if_false, reduceIte]
        by_cases hpo : (bs.edge oe).phonyOutput = true
        · simp [hpo, evCommandDelta, evWantedDelta]
        · simp only [hpo, Bool.false_eq_true, if_false, reduceIte]
          by_cases hcl : ((bs.edge oe).inputs.take
              ((bs.edge oe).inputs.length - (bs.edge oe).orderOnlyDeps)).all
                (fun i => !(bs.node i).dirty) = true
          · simp only [hcl, if_true, reduceIte]
            by_cases hod : RecomputeOutputsDirtyB env bs oe
                (((bs.edge oe).inputs.take
                  ((bs.edge oe).inputs.length - (bs.edge oe).orderOnlyDeps)).foldl
                  (fun m i =>
                    match m with
                    | none => some i
                    | some mm =>
                      if (bs.node i).mtime > (bs.node mm).mtime then some i
                      else mm)
                  none) = true
            · simp [hod, evCommandDelta, evWantedDelta]
            · simp only [hod, Bool.not_eq_true, Bool.false_eq_true, if_false,
                reduceIte, Bool.not_false, if_true]
              rcases hco : cleanOutputs f bs ps (bs.edge oe).outputs with
                ⟨bs1, ps1, evs1⟩
              have h1 : ps1.commandEdges =
                  ps.commandEdges + evCommandDelta evs1 := by
                have h := (cleanOutputs_delta f hf (bs.edge oe).outputs bs ps).1
                rw [hco] at h
                simpa using h
              have h2 : ps1.wantedEdges =
                  ps.wantedEdges + evWantedDelta evs1 := by
                have h := (cleanOutputs_delta f hf (bs.edge oe).outputs bs ps).2
                rw [hco] at h
                simpa using h
              simp only [hco]
              rw [evCommandDelta_append, evWantedDelta_append]
              by_cases hph : (bs1.edge oe).isPhony = true
              · rw [hph]
                simp only [Bool.not_true, Bool.false_eq_true, if_false,
                  reduceIte]
                have hdc : evCommandDelta [PlanEvent.demote oe true] = 0 := rfl
                have hdw : evWantedDelta [PlanEvent.demote oe true] = -1 := rfl
                constructor
                · rw [hdc]; omega
                · rw [hdw]; omega
              · have hph' : (bs1.edge oe).isPhony = false := by
                  cases hx : (bs1.edge oe).isPhony
                  · rfl
                  · exact absurd hx hph
                rw [hph']
                simp only [Bool.not_false, if_true, reduceIte]
                have hdc : evCommandDelta [PlanEvent.demote oe false] = -1 := rfl
                have hdw : evWantedDelta [PlanEvent.demote oe false] = -1 := rfl
                constructor
                · rw [hdc]; omega
                · rw [hdw]; omega
          · simp [hcl, evCommandDelta, evWantedDelta]

theorem cleanOutEdges_delta
    (f : Nat → BuildState → PlanState → BuildState × PlanState × List PlanEvent)
    (hf : CleanDeltaProp f) (env : ScanEnv) :
    ∀ (l : List Nat) (bs : BuildState) (ps : PlanState),
      (cleanOutEdges f env bs ps l).2.1.commandEdges =
        ps.commandEdges + evCommandDelta (cleanOutEdges f env bs ps l).2.2 ∧
      (cleanOutEdges f env bs ps l).2.1.wantedEdges =
        ps.wantedEdges + evWantedDelta (cleanOutEdges f env bs ps l).2.2 := by
  intro l
  induction l with
  | nil =>
    intro bs ps
    simp [cleanOutEdges, evCommandDelta, evWantedDelta]
  | cons oe rest ih =>
    intro bs ps
    rcases hone : cleanOneEdge f env bs ps oe with ⟨bs1, ps1, evs1⟩
    have h12 := cleanOneEdge_delta f hf env bs ps oe
    rw [hone] at h12
    obtain ⟨h1, h2⟩ := h12
    rcases hrest : cleanOutEdges f env bs1 ps1 rest with ⟨bs2, ps2, evs2⟩
    have h34 := ih bs1 ps1
    rw [hrest] at h34
    obtain ⟨h3, h4⟩ := h34
    simp only [cleanOutEdges, hone, hrest]
    rw [evCommandDelta_append, evWantedDelta_append]
    simp only at h1 h2 h3 h4 ⊢
    constructor
    · omega
    · omega

theorem CleanNode_delta (env : ScanEnv) :
    ∀ (fuel : Nat) (n : Nat) (bs : BuildState) (ps : PlanState),
      (CleanNode env fuel n bs ps).2.1.commandEdges =
        ps.commandEdges + evCommandDelta (CleanNode env fuel n bs ps).2.2 ∧
      (CleanNode env fuel n bs ps).2.1.wantedEdges =
        ps.wantedEdges + evWantedDelta (CleanNode env fuel n bs ps).2.2 := by
  intro fuel
  induction fuel with
  | zero => intro n bs ps; simp [CleanNode, evCommandDelta, evWantedDelta]
  | succ fuel ih =>
    intro n bs ps
    simp only [CleanNode]
    exact cleanOutEdges_delta (fun n' b p => CleanNode env fuel n' b p)
      (fun n' b p => ih n' b p) env _ _ _

theorem EdgeFinished_command_anyFuel (fuel : Nat)
    (bsps : BuildState × PlanState) (e : Nat) (r : EdgeResult) :
    (EdgeFinished bsps fuel e r).2.commandEdges = bsps.2.commandEdges := by
  cases fuel with
  | zero => rfl
  | succ fuel => exact (EdgeFinished_counters fuel bsps e r).1

/-- Over any sequence of Plan operations, `command_edges` moves exactly by
the recorded events: +1 per non-phony promotion, −1 per non-phony demotion. -/
theorem runPlanOps_command (env : ScanEnv) (fuel : Nat) :
    ∀ (ops : List PlanOp) (bs : BuildState) (ps : PlanState),
      (runPlanOps env fuel ops bs ps).2.1.commandEdges =
        ps.commandEdges + evCommandDelta (runPlanOps env fuel ops bs ps).2.2 := by
  intro ops
  induction ops with
  | nil => intro bs ps; simp [runPlanOps, evCommandDelta]
  | cons op rest ih =>
    intro bs ps
    cases op with
    | addTarget n =>
      rcases hadd : AddSubTarget bs fuel n none ps with ⟨ps1, ok1, err1, evs1⟩
      have h1 := (AddSubTarget_delta bs fuel n none ps).1
      rw [hadd] at h1
      rcases hrest : runPlanOps env fuel rest bs ps1 with ⟨bs2, ps2, evs2⟩
      have h3 := ih bs ps1
      rw [hrest] at h3
      simp only [runPlanOps, AddTarget, hadd, hrest]
      rw [evCommandDelta_append]
      simp only at h1 h3 ⊢
      omega
    | edgeFinished e r =>
      rcases hef : EdgeFinished (bs, ps) fuel e r with ⟨bs1, ps1⟩
      have h1 := EdgeFinished_command_anyFuel fuel (bs, ps) e r
      rw [hef] at h1
      rcases hrest : runPlanOps env fuel rest bs1 ps1 with ⟨bs2, ps2, evs2⟩
      have h3 := ih bs1 ps1
      rw [hrest] at h3
      simp only [runPlanOps, hef, hrest, List.nil_append]
      simp only at h1 h3 ⊢
      omega
    | cleanNode n =>
      rcases hcn : CleanNode env fuel n bs ps with ⟨bs1, ps1, evs1⟩
      have h1 := (CleanNode_delta env fuel n bs ps).1
      rw [hcn] at h1
      rcases hrest : runPlanOps env fuel rest bs1 ps1 with ⟨bs2, ps2, evs2⟩
      have h3 := ih bs1 ps1
      rw [hrest] at h3
      simp only [runPlanOps, hcn, hrest]
      rw [evCommandDelta_append]
      simp only at h1 h3 ⊢
      omega

/-- C9 counterexample: a clean edge reached by `AddTarget` sits in the want
map as `kWantNothing`; reporting its successful completion to
`Plan::EdgeFinished` (as `NodeFinished` does for clean edges) leaves
`wanted_edges` unchanged at 0 — it does not strictly decrease. -/
theorem C9_counterexample_not_directly_wanted :
    (AddTarget exPlanGraph 5 1 {}).1.wantedEdges = 0
    ∧ wantLookup (AddTarget exPlanGraph 5 1 {}).1.want 0 = some .nothing
    ∧ ¬((EdgeFinished (exPlanGraph, (AddTarget exPlanGraph 5 1 {}).1) 5 0
          .succeeded).2.wantedEdges
        < (AddTarget exPlanGraph 5 1 {}).1.wantedEdges) := by
  refine ⟨?_, ?_, ?_⟩
  · decide
  · decide
  · decide

/-- C9 amended: `wanted_edges` decreases by exactly one on a successful
completion of a directly wanted edge (want ≠ `kWantNothing` at the call) and
is unchanged otherwise, and `Plan::EdgeFinished` never touches
`command_edges`; `command_edges` moves by +1 per non-phony
`WantNothing→WantToStart` promotion in `AddSubTarget` and −1 per non-phony
demotion in `CleanNode`, so over any operation sequence it equals the number
of non-phony promotions minus the number of non-phony demotions. -/
theorem C9_amended_plan_counters (env : ScanEnv) (fuel : Nat) :
    (∀ (bsps : BuildState × PlanState) (e : Nat) (r : EdgeResult),
      (EdgeFinished bsps (fuel + 1) e r).2.commandEdges = bsps.2.commandEdges ∧
      (EdgeFinished bsps (fuel + 1) e r).2.wantedEdges =
        bsps.2.wantedEdges -
          (if (r == .succeeded && directlyWanted bsps.2 e) = true then 1 else 0))
    ∧ (∀ (bs : BuildState) (nid : Nat) (dep : Option Nat) (ps : PlanState),
      (AddSubTarget bs fuel nid dep ps).1.commandEdges =
        ps.commandEdges +
          evCommandDelta (AddSubTarget bs fuel nid dep ps).2.2.2 ∧
      (AddSubTarget bs fuel nid dep ps).1.wantedEdges =
        ps.wantedEdges +
          evWantedDelta (AddSubTarget bs fuel nid dep ps).2.2.2)
    ∧ (∀ (n : Nat) (bs : BuildState) (ps : PlanState),
      (CleanNode env fuel n bs ps).2.1.commandEdges =
        ps.commandEdges + evCommandDelta (CleanNode env fuel n bs ps).2.2 ∧
      (CleanNode env fuel n bs ps).2.1.wantedEdges =
        ps.wantedEdges + evWantedDelta (CleanNode env fuel n bs ps).2.2)
    ∧ (∀ (ops : List PlanOp) (bs : BuildState) (ps : PlanState),
      (runPlanOps env fuel ops bs ps).2.1.commandEdges =
        ps.commandEdges +
          evCommandDelta (runPlanOps env fuel ops bs ps).2.2) :=
  ⟨fun bsps e r => EdgeFinished_counters fuel bsps e r,
   fun bs nid dep ps => AddSubTarget_delta bs fuel nid dep ps,
   fun n bs ps => CleanNode_delta env fuel n bs ps,
   runPlanOps_command env fuel⟩

/-! ### Scan-step and invariant machinery for the traversal claims -/

theorem mark_none_of_rank_le {m : Mark} (h : markRank m ≤ 0) : m = .VisitNone := by
  cases m <;> simp [markRank] at h ⊢

theorem mark_done_of_rank_ge {m : Mark} (h : 2 ≤ markRank m) : m = .VisitDone := by
  cases m <;> simp [markRank] at h ⊢

theorem ScanStep.reflS (st : BuildState) : ScanStep st st :=
  ⟨rfl, rfl, fun _ => rfl, fun _ => rfl, fun _ => rfl, fun _ => rfl,
   fun _ => rfl, fun _ => rfl, fun _ => ⟨rfl, rfl⟩, fun _ h => h,
   fun _ => Nat.le_refl _⟩

theorem ScanStep.transS {a b c : BuildState} (h1 : ScanStep a b)
    (h2 : ScanStep b c) : ScanStep a c where
  nodesLen := h2.nodesLen.trans h1.nodesLen
  edgesLen := h2.edgesLen.trans h1.edgesLen
  path i := (h2.path i).trans (h1.path i)
  inEdge i := (h2.inEdge i).trans (h1.inEdge i)
  preEq i := (h2.preEq i).trans (h1.preEq i)
  inputs e := (h2.inputs e).trans (h1.inputs e)
  outputs e := (h2.outputs e).trans (h1.outputs e)
  isPhony e := (h2.isPhony e).trans (h1.isPhony e)
  info e := ⟨((h2.info e).1).trans ((h1.info e).1),
    ((h2.info e).2).trans ((h1.info e).2)⟩
  statusMono i h := h2.statusMono i (h1.statusMono i h)
  markMono e := (h1.markMono e).trans (h2.markMono e)

theorem ScanStep.markDone {a b : BuildState} (h : ScanStep a b) (e : Nat)
    (hd : (a.edge e).mark = .VisitDone) : (b.edge e).mark = .VisitDone := by
  apply mark_done_of_rank_ge
  have := h.markMono e
  rw [hd] at this
  exact this

theorem processed_mono {a b : BuildState} (h : ScanStep a b) (i : Nat)
    (hp : processed a i) : processed b i := by
  unfold processed at hp ⊢
  rw [h.inEdge i]
  cases hin : (a.node i).inEdge with
  | none =>
    rw [hin] at hp
    exact h.statusMono i hp
  | some e =>
    rw [hin] at hp
    exact h.markDone e hp

theorem WFState.stepWF {a b : BuildState} (w : WFState a) (h : ScanStep a b) :
    WFState b where
  inEdgeValid n e he := h.edgesLen ▸ w.inEdgeValid n e ((h.inEdge n) ▸ he)
  inputValid e n hn := h.nodesLen ▸ w.inputValid e n ((h.inputs e) ▸ hn)
  outputValid e n hn := h.nodesLen ▸ w.outputValid e n ((h.outputs e) ▸ hn)
  singleProducer e n hn :=
    (h.inEdge n).trans (w.singleProducer e n ((h.outputs e) ▸ hn))

theorem NoDeps.stepND {a b : BuildState} (w : NoDeps a) (h : ScanStep a b) :
    NoDeps b := fun e =>
  ⟨((h.info e).1).trans (w e).1, ((h.info e).2).trans (w e).2⟩

theorem GoodPre.stepGP {a b : BuildState} (w : GoodPre a) (h : ScanStep a b) :
    GoodPre b := fun n => (h.preEq n) ▸ w n

theorem countP_lt_of_mem {l : List Nat} {p q : Nat → Bool}
    (hpq : ∀ x ∈ l, p x = true → q x = true) (a : Nat) (ha : a ∈ l)
    (hpa : p a = false) (hqa : q a = true) : l.countP p < l.countP q := by
  induction l with
  | nil => cases ha
  | cons x t ih =>
    rw [List.countP_cons, List.countP_cons]
    rcases List.mem_cons.1 ha with rfl | hat
    · rw [hpa, hqa]
      simp only [Bool.false_eq_true, reduceIte, if_false, if_true]
      have := List.countP_mono_left (fun y hy => hpq y (List.mem_cons_of_mem _ hy))
      omega
    · have hlt := ih (fun y hy => hpq y (List.mem_cons_of_mem _ hy)) hat
      have hx : p x = true → q x = true := hpq x (List.mem_cons_self x t)
      by_cases hpx : p x = true
      · rw [hpx, hx hpx]; omega
      · rw [Bool.not_eq_true] at hpx
        rw [hpx]
        by_cases hqx : q x = true
        · rw [hqx]
          simp only [Bool.false_eq_true, reduceIte, if_false, if_true]
          omega
        · rw [Bool.not_eq_true] at hqx
          rw [hqx]; simpa using hlt

theorem countNone_mono {a b : BuildState}
    (hlen : b.edges.length = a.edges.length)
    (hm : ∀ e, markRank (a.edge e).mark ≤ markRank (b.edge e).mark) :
    countNone b ≤ countNone a := by
  unfold countNone
  rw [hlen]
  apply List.countP_mono_left
  intro e _ hb
  rw [beq_iff_eq] at hb ⊢
  have := hm e
  rw [hb] at this
  exact mark_none_of_rank_le (by simpa [markRank] using this)

theorem countNone_mono_of_step {a b : BuildState} (h : ScanStep a b) :
    countNone b ≤ countNone a :=
  countNone_mono h.edgesLen h.markMono

theorem countNone_congr {a b : BuildState}
    (hlen : b.edges.length = a.edges.length)
    (hm : ∀ e, (b.edge e).mark = (a.edge e).mark) :
    countNone b = countNone a := by
  unfold countNone
  rw [hlen]
  exact List.countP_congr (fun e _ => by rw [hm e])

theorem countNone_lt {a b : BuildState}
    (hlen : b.edges.length = a.edges.length)
    (hm : ∀ e, markRank (a.edge e).mark ≤ markRank (b.edge e).mark)
    (eid : Nat) (he : eid < a.edges.length)
    (h0 : (a.edge eid).mark = .VisitNone)
    (h1 : (b.edge eid).mark ≠ .VisitNone) : countNone b < countNone a := by
  unfold countNone
  rw [hlen]
  apply countP_lt_of_mem (a := eid)
  · intro e _ hb
    rw [beq_iff_eq] at hb ⊢
    have := hm e
    rw [hb] at this
    exact mark_none_of_rank_le (by simpa [markRank] using this)
  · exact List.mem_range.2 he
  · simpa using h1
  · simpa using h0

theorem BuildState.edge_congr {a b : BuildState} (h : b.edges = a.edges) :
    ∀ e, b.edge e = a.edge e := by
  intro e
  unfold BuildState.edge
  rw [h]

/-- Scan-step for a node update that keeps the structural fields. -/
theorem scanStep_setNode (st : BuildState) (i : Nat) (n' : Node)
    (hp : n'.path = (st.node i).path)
    (hi : n'.inEdge = (st.node i).inEdge)
    (hpre : n'.precomputedMtime = (st.node i).precomputedMtime)
    (hs : (st.node i).statusKnown = true → n'.statusKnown = true) :
    ScanStep st (st.setNode i n') where
  nodesLen := BuildState.nodes_length_setNode st i n'
  edgesLen := by rw [BuildState.edges_setNode]
  path j := by
    rw [BuildState.node_setNode]
    split
    · next h => rw [hp, h.1]
    · rfl
  inEdge j := by
    rw [BuildState.node_setNode]
    split
    · next h => rw [hi, h.1]
    · rfl
  preEq j := by
    rw [BuildState.node_setNode]
    split
    · next h => rw [hpre, h.1]
    · rfl
  inputs e := by rw [BuildState.edge_setNode]
  outputs e := by rw [BuildState.edge_setNode]
  isPhony e := by rw [BuildState.edge_setNode]
  info e := by rw [BuildState.edge_setNode]; exact ⟨rfl, rfl⟩
  statusMono j hj := by
    rw [BuildState.node_setNode]
    split
    · next h => exact hs (h.1 ▸ hj)
    · exact hj
  markMono e := by rw [BuildState.edge_setNode]

/-- Scan-step for an edge update that keeps the structural fields and does
not demote the mark. -/
theorem scanStep_setEdge (st : BuildState) (i : Nat) (e' : Edge)
    (hin : e'.inputs = (st.edge i).inputs)
    (hout : e'.outputs = (st.edge i).outputs)
    (hph : e'.isPhony = (st.edge i).isPhony)
    (hdeps : e'.depScanInfo.deps = (st.edge i).depScanInfo.deps)
    (hdf : e'.depScanInfo.depfile = (st.edge i).depScanInfo.depfile)
    (hm : markRank (st.edge i).mark ≤ markRank e'.mark) :
    ScanStep st (st.setEdge i e') where
  nodesLen := by rw [BuildState.nodes_setEdge]
  edgesLen := BuildState.edges_length_setEdge st i e'
  path j := by rw [BuildState.node_setEdge]
  inEdge j := by rw [BuildState.node_setEdge]
  preEq j := by rw [BuildState.node_setEdge]
  inputs e := by
    rw [BuildState.edge_setEdge]
    split
    · next h => rw [hin, h.1]
    · rfl
  outputs e := by
    rw [BuildState.edge_setEdge]
    split
    · next h => rw [hout, h.1]
    · rfl
  isPhony e := by
    rw [BuildState.edge_setEdge]
    split
    · next h => rw [hph, h.1]
    · rfl
  info e := by
    rw [BuildState.edge_setEdge]
    split
    · next h => exact ⟨by rw [hdeps, h.1], by rw [hdf, h.1]⟩
    · exact ⟨rfl, rfl⟩
  statusMono j hj := by rw [BuildState.node_setEdge]; exact hj
  markMono e := by
    rw [BuildState.edge_setEdge]
    split
    · next h => exact h.1 ▸ hm
    · exact Nat.le_refl _

/-- Invariant transport across a step that rewrites only node-level data:
edges untouched, producers untouched, status only becoming known, and new
dirtiness confined to statted leaves. -/
theorem ScanInv_nodeOnly {st st' : BuildState} (stack : List Nat)
    (hedges : st'.edges = st.edges)
    (hin : ∀ j, (st'.node j).inEdge = (st.node j).inEdge)
    (hsk : ∀ j, (st.node j).statusKnown = true → (st'.node j).statusKnown = true)
    (hdirty : ∀ j, (st'.node j).dirty = true → (st.node j).dirty = true ∨
      ((st'.node j).inEdge = none ∧ (st'.node j).statusKnown = true))
    (inv : ScanInv st stack) : ScanInv st' stack := by
  obtain ⟨hsm, hdr, hdk, hdl⟩ := inv
  have he := BuildState.edge_congr hedges
  refine ⟨?_, ?_, ?_, ?_⟩
  · intro e hm
    rw [he e] at hm
    obtain ⟨n, hn, hne⟩ := hsm e hm
    exact ⟨n, hn, (hin n).trans hne⟩
  · obtain ⟨N, r, hr⟩ := hdr
    refine ⟨N, r, fun e hm => ?_⟩
    rw [he e] at hm
    obtain ⟨hb, hcl⟩ := hr e hm
    refine ⟨hb, fun n hn => ?_⟩
    rw [he e] at hn
    obtain ⟨hleaf, hprod⟩ := hcl n hn
    refine ⟨fun h0 => hsk n (hleaf ((hin n) ▸ h0)), fun d hd => ?_⟩
    obtain ⟨hdm, hrd⟩ := hprod d ((hin n) ▸ hd)
    exact ⟨(he d) ▸ hdm, hrd⟩
  · intro n hn
    rcases hdirty n hn with h | ⟨_, h⟩
    · exact hsk n (hdk n h)
    · exact h
  · intro n e hn hne
    rcases hdirty n hn with h | ⟨h0, _⟩
    · obtain ⟨hm, hready⟩ := hdl n e h ((hin n) ▸ hne)
      rw [he e]
      exact ⟨hm, hready⟩
    · rw [h0] at hne; cases hne

/-- Invariant transport across clearing `outputs_ready` of an in-stack edge. -/
theorem ScanInv_setReady (st : BuildState) (stack : List Nat) (eid : Nat)
    (hmark : (st.edge eid).mark = .VisitInStack) (b : Bool)
    (inv : ScanInv st stack) :
    ScanInv (st.setEdge eid { st.edge eid with outputsReady := b }) stack := by
  obtain ⟨hsm, hdr, hdk, hdl⟩ := inv
  have hmarks : ∀ e,
      ((st.setEdge eid { st.edge eid with outputsReady := b }).edge e).mark =
        (st.edge e).mark := by
    intro e
    rw [BuildState.edge_setEdge]
    split
    · next h => rw [h.1]
    · rfl
  have hnodes : ∀ j,
      (st.setEdge eid { st.edge eid with outputsReady := b }).node j =
        st.node j := fun j => BuildState.node_setEdge st eid j _
  refine ⟨?_, ?_, ?_, ?_⟩
  · intro e hm
    rw [hmarks e] at hm
    obtain ⟨n, hn, hne⟩ := hsm e hm
    exact ⟨n, hn, (hnodes n) ▸ hne⟩
  · obtain ⟨N, r, hr⟩ := hdr
    refine ⟨N, r, fun e hm => ?_⟩
    rw [hmarks e] at hm
    obtain ⟨hb, hcl⟩ := hr e hm
    refine ⟨hb, fun n hn => ?_⟩
    rw [BuildState.edge_setEdge] at hn
    have hn' : n ∈ (st.edge e).inputs := by
      revert hn
      split
      · next h => rw [h.1]; exact fun hn => hn
      · exact fun hn => hn
    obtain ⟨hleaf, hprod⟩ := hcl n hn'
    rw [hnodes n]
    exact ⟨hleaf, fun d hd => ⟨(hmarks d) ▸ (hprod d hd).1, (hprod d hd).2⟩⟩
  · intro n hn
    rw [hnodes n] at hn ⊢
    exact hdk n hn
  · intro n e hn hne
    rw [hnodes n] at hn hne
    obtain ⟨hm, hready⟩ := hdl n e hn hne
    have hne' : e ≠ eid := by
      intro h
      rw [h, hmark] at hm
      cases hm
    rw [BuildState.edge_setEdge]
    split
    · next h => exact absurd h.1.symm hne'
    · exact ⟨hm, hready⟩

theorem NodeOnlyStep.reflN (st : BuildState) : NodeOnlyStep st st :=
  ⟨rfl, rfl, fun _ => rfl, fun _ => rfl, fun _ => rfl, fun _ => rfl,
   fun _ h => h⟩

theorem NodeOnlyStep.transN {a b c : BuildState} (h1 : NodeOnlyStep a b)
    (h2 : NodeOnlyStep b c) : NodeOnlyStep a c where
  edges := h2.edges.trans h1.edges
  nodesLen := h2.nodesLen.trans h1.nodesLen
  path j := (h2.path j).trans (h1.path j)
  inEdge j := (h2.inEdge j).trans (h1.inEdge j)
  preEq j := (h2.preEq j).trans (h1.preEq j)
  dirty j := (h2.dirty j).trans (h1.dirty j)
  statusMono j h := h2.statusMono j (h1.statusMono j h)

theorem NodeOnlyStep.toScanStep {a b : BuildState} (h : NodeOnlyStep a b) :
    ScanStep a b where
  nodesLen := h.nodesLen
  edgesLen := by rw [h.edges]
  path := h.path
  inEdge := h.inEdge
  preEq := h.preEq
  inputs e := by rw [BuildState.edge_congr h.edges]
  outputs e := by rw [BuildState.edge_congr h.edges]
  isPhony e := by rw [BuildState.edge_congr h.edges]
  info e := by rw [BuildState.edge_congr h.edges]; exact ⟨rfl, rfl⟩
  statusMono := h.statusMono
  markMono e := by rw [BuildState.edge_congr h.edges]

theorem NodeOnlyStep.scanInv {a b : BuildState} (h : NodeOnlyStep a b)
    (stack : List Nat) (inv : ScanInv a stack) : ScanInv b stack :=
  ScanInv_nodeOnly stack h.edges h.inEdge h.statusMono
    (fun j hj => Or.inl ((h.dirty j) ▸ hj)) inv

/-- `Node::StatIfNecessary` under a good disk and cache: succeeds with an
empty message, touches only status data, and leaves the node statted. -/
theorem statIfNecessary_good (env : ScanEnv) (he : goodEnv env)
    (st : BuildState) (i : Nat) (hpre : GoodPre st) :
    ∃ st', statIfNecessary env st i = (st', true, "") ∧ NodeOnlyStep st st' ∧
      (i < st.nodes.length → (st'.node i).statusKnown = true) := by
  unfold statIfNecessary
  by_cases hsk : (st.node i).statusKnown
  · exact ⟨st, by rw [if_pos hsk], NodeOnlyStep.reflN st, fun _ => hsk⟩
  · have hstep : ∀ m : TimeStamp, NodeOnlyStep st
        (st.setNode i { st.node i with mtime := m, statusKnown := true }) := by
      intro m
      refine ⟨by rw [BuildState.edges_setNode],
        BuildState.nodes_length_setNode st i _, ?_, ?_, ?_, ?_, ?_⟩
      · intro j
        rw [BuildState.node_setNode]
        split
        · next hij => rw [hij.1]
        · rfl
      · intro j
        rw [BuildState.node_setNode]
        split
        · next hij => rw [hij.1]
        · rfl
      · intro j
        rw [BuildState.node_setNode]
        split
        · next hij => rw [hij.1]
        · rfl
      · intro j
        rw [BuildState.node_setNode]
        split
        · next hij => rw [hij.1]
        · rfl
      · intro j hj
        rw [BuildState.node_setNode]
        split
        · rfl
        · exact hj
    have hknown : ∀ m : TimeStamp, i < st.nodes.length →
        ((st.setNode i { st.node i with mtime := m, statusKnown := true }).node
          i).statusKnown = true := by
      intro m hi
      rw [BuildState.node_setNode, if_pos ⟨rfl, hi⟩]
    cases hp : (st.node i).precomputedMtime with
    | some m =>
      have hm : m ≠ -1 := fun h => hpre i (by rw [hp, h])
      refine ⟨_, ?_, hstep m, hknown m⟩
      simp only [statIfNecessary, if_neg hsk, hp]
      simp [hm]
    | none =>
      cases hie : (st.node i).inEdge with
      | some e =>
        have hm := he.2 (st.node i).path
        refine ⟨_, ?_, hstep (env.lstatFn (st.node i).path), hknown _⟩
        simp only [statIfNecessary, if_neg hsk, hp, nodeStat, hie]
        simp [hm]
      | none =>
        have hm := he.1 (st.node i).path
        refine ⟨_, ?_, hstep (env.statFn (st.node i).path), hknown _⟩
        simp only [statIfNecessary, if_neg hsk, hp, nodeStat, hie]
        simp [hm]

/-- The output stat loop under a good disk and cache. -/
theorem statOutputs_good (env : ScanEnv) (he : goodEnv env) :
    ∀ (l : List Nat) (st : BuildState), GoodPre st →
    ∃ st', statOutputs env st l = (st', true, "") ∧ NodeOnlyStep st st' ∧
      (∀ o ∈ l, o < st.nodes.length → (st'.node o).statusKnown = true) := by
  intro l
  induction l with
  | nil =>
    intro st _
    exact ⟨st, rfl, NodeOnlyStep.reflN st, fun o ho => absurd ho (by simp)⟩
  | cons o rest ih =>
    intro st hpre
    obtain ⟨st1, heq1, hstep1, hsk1⟩ := statIfNecessary_good env he st o hpre
    have hpre1 : GoodPre st1 := fun n => (hstep1.preEq n) ▸ hpre n
    obtain ⟨st2, heq2, hstep2, hsk2⟩ := ih st1 hpre1
    refine ⟨st2, ?_, hstep1.transN hstep2, ?_⟩
    · unfold statOutputs
      rw [heq1]
      simpa using heq2
    · intro x hx hxlen
      rcases List.mem_cons.1 hx with rfl | hxr
      · exact hstep2.statusMono x (hsk1 hxlen)
      · exact hsk2 x hxr (hstep1.nodesLen ▸ hxlen)

/-- `LoadDeps` is the identity on an edge with neither deps mode. -/
theorem LoadDeps_trivial (env : ScanEnv) (st : BuildState) (eid : Nat)
    (h1 : (st.edge eid).depScanInfo.deps = false)
    (h2 : (st.edge eid).depScanInfo.depfile = false) :
    LoadDeps env st eid = (st, true, "") := by
  unfold LoadDeps
  simp [h1, h2]

/-- `markOutputsDirty`: edges untouched, node status untouched, and the
dirty set grows by exactly the in-range listed outputs. -/
theorem markOutputsDirty_spec :
    ∀ (outs : List Nat) (st : BuildState),
      (markOutputsDirty st outs).edges = st.edges ∧
      (markOutputsDirty st outs).nodes.length = st.nodes.length ∧
      (∀ j, ((markOutputsDirty st outs).node j).path = (st.node j).path ∧
        ((markOutputsDirty st outs).node j).inEdge = (st.node j).inEdge ∧
        ((markOutputsDirty st outs).node j).precomputedMtime =
          (st.node j).precomputedMtime ∧
        ((markOutputsDirty st outs).node j).statusKnown =
          (st.node j).statusKnown) ∧
      (∀ j, ((markOutputsDirty st outs).node j).dirty = true ↔
        ((st.node j).dirty = true ∨ (j ∈ outs ∧ j < st.nodes.length))) := by
  intro outs
  induction outs with
  | nil =>
    intro st
    refine ⟨rfl, rfl, fun j => ⟨rfl, rfl, rfl, rfl⟩, fun j => ?_⟩
    simp [markOutputsDirty]
  | cons o rest ih =>
    intro st
    have hexp : markOutputsDirty st (o :: rest) =
        markOutputsDirty (st.setNode o { st.node o with dirty := true }) rest := by
      unfold markOutputsDirty
      rw [List.foldl_cons]
    set st1 := st.setNode o { st.node o with dirty := true } with hst1
    obtain ⟨ha, hb, hc, hd⟩ := ih st1
    rw [hexp]
    have hlen1 : st1.nodes.length = st.nodes.length :=
      BuildState.nodes_length_setNode st o _
    have hnode1 : ∀ j, st1.node j =
        if o = j ∧ o < st.nodes.length then { st.node o with dirty := true }
        else st.node j := fun j => BuildState.node_setNode st o j _
    refine ⟨ha.trans (by rw [hst1, BuildState.edges_setNode]),
      hb.trans hlen1, fun j => ?_, fun j => ?_⟩
    · obtain ⟨h1, h2, h3, h4⟩ := hc j
      rw [h1, h2, h3, h4, hnode1 j]
      split
      · next hij => rw [hij.1]; exact ⟨rfl, rfl, rfl, rfl⟩
      · exact ⟨rfl, rfl, rfl, rfl⟩
    · rw [hd j, hnode1 j]
      constructor
      · rintro (hj | ⟨hjr, hjl⟩)
        · revert hj
          split
          · next hij =>
            intro _
            rcases hij with ⟨rfl, holt⟩
            exact Or.inr ⟨List.mem_cons_self o rest, holt⟩
          · exact fun hj => Or.inl hj
        · exact Or.inr ⟨List.mem_cons_of_mem o hjr, hlen1 ▸ hjl⟩
      · rintro (hj | ⟨hjm, hjl⟩)
        · left
          split
          · rfl
          · exact hj
        · rcases List.mem_cons.1 hjm with rfl | hjr
          · left
            rw [if_pos ⟨rfl, hjl⟩]
          · exact Or.inr ⟨hjr, hlen1 ▸ hjl⟩

/-- Arrow-joining a fold: the message accumulator of `VerifyDAG`. -/
theorem foldl_arrow_map {α : Type} (g : α → String) :
    ∀ (l : List α) (a x : String),
      l.foldl (fun acc s => acc ++ g s ++ " -> ") a ++ x =
        a ++ arrowJoin (l.map g ++ [x]) := by
  intro l
  induction l with
  | nil => intro a x; simp [arrowJoin]
  | cons h t ih =>
    intro a x
    rw [List.foldl_cons, ih]
    rcases t with _ | ⟨y, t'⟩
    · simp [arrowJoin, String.append_assoc]
    · simp [arrowJoin, String.append_assoc]

theorem arrowJoin_cons (s : String) (l : List String) (h : l ≠ []) :
    arrowJoin (s :: l) = s ++ " -> " ++ arrowJoin l := by
  cases l with
  | nil => exact absurd rfl h
  | cons y t => rfl

theorem findIdx?_some_of_exists {α : Type} (p : α → Bool) :
    ∀ (l : List α), (∃ x ∈ l, p x = true) →
      ∃ i, l.findIdx? p = some i ∧ i < l.length := by
  intro l
  induction l with
  | nil => rintro ⟨x, hx, _⟩; cases hx
  | cons a t ih =>
    rintro ⟨x, hx, hpx⟩
    by_cases hpa : p a = true
    · exact ⟨0, by simp [List.findIdx?_cons, hpa], Nat.succ_pos _⟩
    · rcases List.mem_cons.1 hx with rfl | hxt
      · exact absurd hpx hpa
      · obtain ⟨i, hi, hlen⟩ := ih ⟨x, hxt, hpx⟩
        refine ⟨i + 1, ?_, by simpa using Nat.succ_lt_succ hlen⟩
        simp [List.findIdx?_cons, hpa, hi]

/-- `VerifyDAG` is silent when the producing edge is not in-stack. -/
theorem VerifyDAG_none (st : BuildState) (nid eid : Nat) (stack : List Nat)
    (hin : (st.node nid).inEdge = some eid)
    (hmark : (st.edge eid).mark ≠ .VisitInStack) :
    VerifyDAG st nid stack = none := by
  unfold VerifyDAG
  rw [hin]
  simp only [Option.getD_some]
  rw [if_pos hmark]

/-- `VerifyDAG` on an in-stack edge reports a cycle-shaped message, provided
the stack/marks correspondence holds. -/
theorem VerifyDAG_cycleMsg (st : BuildState) (nid eid : Nat) (stack : List Nat)
    (hin : (st.node nid).inEdge = some eid)
    (hmark : (st.edge eid).mark = .VisitInStack)
    (hsm : StackMarks st stack) :
    ∃ msg, VerifyDAG st nid stack = some msg ∧ cycleMsgForm msg := by
  obtain ⟨n, hn, hne⟩ := hsm eid hmark
  obtain ⟨i, hfi, hilen⟩ := findIdx?_some_of_exists
    (fun s => (st.node s).inEdge == some eid) stack ⟨n, hn, by simp [hne]⟩
  unfold VerifyDAG
  rw [hin]
  simp only [Option.getD_some]
  rw [if_neg (fun h => h hmark), hfi]
  have hcy : (stack.set i nid).drop i = nid :: stack.drop (i + 1) := by
    have h1 : i < (stack.set i nid).length := by simpa using hilen
    rw [List.drop_eq_getElem_cons h1, List.getElem_set_self h1,
      List.drop_set_of_lt _ _ (Nat.lt_succ_self i)]
  simp only [hcy]
  refine ⟨_, rfl, ?_⟩
  rw [List.foldl_cons]
  rw [foldl_arrow_map (fun s => (st.node s).path) (stack.drop (i + 1))]
  refine ⟨(st.node nid).path, (stack.drop (i + 1)).map (fun s => (st.node s).path),
    i + 1 = stack.length && maybePhonycycleDiagnostic (st.edge eid), ?_⟩
  rw [arrowJoin_cons _ _ (by simp)]
  split
  · simp [String.append_assoc]
  · simp [String.append_assoc]

theorem markOutputsDirty_scanStep (outs : List Nat) (st : BuildState) :
    ScanStep st (markOutputsDirty st outs) := by
  obtain ⟨h1, h2, h3, _⟩ := markOutputsDirty_spec outs st
  exact ⟨h2, by rw [h1], fun j => (h3 j).1, fun j => (h3 j).2.1,
    fun j => (h3 j).2.2.1, fun e => by rw [BuildState.edge_congr h1],
    fun e => by rw [BuildState.edge_congr h1],
    fun e => by rw [BuildState.edge_congr h1],
    fun e => by rw [BuildState.edge_congr h1]; exact ⟨rfl, rfl⟩,
    fun j hj => by rw [(h3 j).2.2.2]; exact hj,
    fun e => by rw [BuildState.edge_congr h1]⟩

/-- The input loop satisfies its postcondition, given that the recursive
visit does at the current fuel. -/
theorem visitInputs_post (env : ScanEnv) (fuel : Nat)
    (IH : ∀ (nid : Nat) (stack : List Nat) (st : BuildState), WFState st →
      NoDeps st → GoodPre st → ScanInv st stack → nid < st.nodes.length →
      countNone st < fuel →
      RNDPost st stack nid (RecomputeNodeDirty env fuel nid stack st))
    (eid : Nat) (stack : List Nat) :
    ∀ (l : List Nat) (st : BuildState) (dirty : Bool) (mri : Option Nat)
      (idx : Nat), WFState st → NoDeps st → GoodPre st → ScanInv st stack →
      (∀ i ∈ l, i < st.nodes.length) → countNone st < fuel →
      (st.edge eid).mark = .VisitInStack →
      VIPost st stack l
        (visitInputs (fun n s => RecomputeNodeDirty env fuel n stack s) eid st
          dirty mri idx l) := by
  intro l
  induction l with
  | nil =>
    intro st dirty mri idx hwf hnd hgp hinv hlen hcn hmk
    exact ⟨ScanStep.reflS st, fun e => Iff.rfl, hinv,
      fun i hi => absurd hi (by simp), Nat.le_refl _⟩
  | cons i rest ihl =>
    intro st dirty mri idx hwf hnd hgp hinv hlen hcn hmk
    have hi : i < st.nodes.length := hlen i (List.mem_cons_self i rest)
    have hsub := IH i stack st hwf hnd hgp hinv hi hcn
    cases hR : RecomputeNodeDirty env fuel i stack st with
    | fail m sF =>
      rw [hR] at hsub
      simp only [visitInputs, hR]
      exact hsub
    | fuelOut =>
      rw [hR] at hsub
      exact False.elim hsub
    | ok stA =>
      rw [hR] at hsub
      obtain ⟨hsA, hiffA, hinvA, hprocA, hcnA⟩ := hsub
      have hwfA : WFState stA := hwf.stepWF hsA
      have hndA : NoDeps stA := hnd.stepND hsA
      have hgpA : GoodPre stA := hgp.stepGP hsA
      have hmkA : (stA.edge eid).mark = .VisitInStack := (hiffA eid).mpr hmk
      have hcomp : ∀ (stB : BuildState) (d : Bool) (m : Option Nat),
          ScanStep stA stB →
          (∀ e, ((stB.edge e).mark = Mark.VisitInStack ↔
            (stA.edge e).mark = Mark.VisitInStack)) →
          ScanInv stB stack → countNone stB ≤ countNone stA →
          VIPost st stack (i :: rest)
            (visitInputs (fun n s => RecomputeNodeDirty env fuel n stack s)
              eid stB d m (idx + 1) rest) := by
        intro stB d m hsB hiffB hinvB hcnB
        have hwfB : WFState stB := hwfA.stepWF hsB
        have hndB := hndA.stepND hsB
        have hgpB := hgpA.stepGP hsB
        have hmkB : (stB.edge eid).mark = .VisitInStack := (hiffB eid).mpr hmkA
        have hlenB : ∀ x ∈ rest, x < stB.nodes.length := by
          intro x hx
          rw [hsB.nodesLen, hsA.nodesLen]
          exact hlen x (List.mem_cons_of_mem i hx)
        have hcnB2 : countNone stB < fuel :=
          Nat.lt_of_le_of_lt (le_trans hcnB hcnA) hcn
        have hrec := ihl stB d m (idx + 1) hwfB hndB hgpB hinvB hlenB hcnB2 hmkB
        cases hres : visitInputs (fun n s => RecomputeNodeDirty env fuel n stack s)
            eid stB d m (idx + 1) rest with
        | fail mm sFF =>
          rw [hres] at hrec
          exact hrec
        | fuelOut =>
          rw [hres] at hrec
          exact False.elim hrec
        | ok stC dC mC =>
          rw [hres] at hrec
          obtain ⟨hsC, hiffC, hinvC, hprocC, hcnC⟩ := hrec
          refine ⟨(hsA.transS hsB).transS hsC, ?_, hinvC, ?_, ?_⟩
          · intro e
            exact (hiffC e).trans ((hiffB e).trans (hiffA e))
          · intro x hx
            rcases List.mem_cons.1 hx with rfl | hxr
            · exact processed_mono hsC x (processed_mono hsB x hprocA)
            · exact hprocC x hxr
          · exact le_trans hcnC (le_trans hcnB hcnA)
      cases hie : (stA.node i).inEdge with
      | none =>
        simp only [visitInputs, hR, hie]
        split
        · exact hcomp stA dirty mri (ScanStep.reflS stA) (fun e => Iff.rfl)
            hinvA (Nat.le_refl _)
        · split
          · exact hcomp stA true mri (ScanStep.reflS stA) (fun e => Iff.rfl)
              hinvA (Nat.le_refl _)
          · exact hcomp stA dirty _ (ScanStep.reflS stA) (fun e => Iff.rfl)
              hinvA (Nat.le_refl _)
      | some inE =>
        by_cases hrdy : (stA.edge inE).outputsReady = true
        · simp only [visitInputs, hR, hie, hrdy, Bool.not_true,
            Bool.false_eq_true, reduceIte, if_false, if_true]
          split
          · exact hcomp stA dirty mri (ScanStep.reflS stA) (fun e => Iff.rfl)
              hinvA (Nat.le_refl _)
          · split
            · exact hcomp stA true mri (ScanStep.reflS stA) (fun e => Iff.rfl)
                hinvA (Nat.le_refl _)
            · exact hcomp stA dirty _ (ScanStep.reflS stA) (fun e => Iff.rfl)
                hinvA (Nat.le_refl _)
        · rw [Bool.not_eq_true] at hrdy
          simp only [visitInputs, hR, hie, hrdy, Bool.not_false,
            Bool.false_eq_true, reduceIte, if_false, if_true]
          have hsB : ScanStep stA
              (stA.setEdge eid { stA.edge eid with outputsReady := false }) :=
            scanStep_setEdge stA eid _ rfl rfl rfl rfl rfl (Nat.le_refl _)
          have hmarksB : ∀ e,
              ((stA.setEdge eid
                { stA.edge eid with outputsReady := false }).edge e).mark =
                (stA.edge e).mark := by
            intro e
            rw [BuildState.edge_setEdge]
            split
            · next h => rw [h.1]
            · rfl
          have hiffB : ∀ e,
              (((stA.setEdge eid
                { stA.edge eid with outputsReady := false }).edge e).mark =
                  Mark.VisitInStack ↔
                (stA.edge e).mark = Mark.VisitInStack) := by
            intro e
            rw [hmarksB e]
          have hinvB := ScanInv_setReady stA stack eid hmkA false hinvA
          have hcnB : countNone
              (stA.setEdge eid { stA.edge eid with outputsReady := false }) ≤
              countNone stA :=
            le_of_eq (countNone_congr (BuildState.edges_length_setEdge stA eid _)
              hmarksB)
          split
          · exact hcomp _ dirty mri hsB hiffB hinvB hcnB
          · split
            · exact hcomp _ true mri hsB hiffB hinvB hcnB
            · exact hcomp _ dirty _ hsB hiffB hinvB hcnB

/-- The master postcondition of `RecomputeNodeDirty`, by induction on fuel:
under a good disk, no deps modes, and the scan invariant, the visit never
exhausts fuel bounded below by the unvisited-edge count, fails only with
cycle-shaped messages, and on success settles the node while preserving the
invariant. -/
theorem RND_post (env : ScanEnv) (he : goodEnv env) :
    ∀ (fuel : Nat) (nid : Nat) (stack : List Nat) (st : BuildState),
      WFState st → NoDeps st → GoodPre st → ScanInv st stack →
      nid < st.nodes.length → countNone st < fuel →
      RNDPost st stack nid (RecomputeNodeDirty env fuel nid stack st) := by
  intro fuel
  induction fuel with
  | zero =>
    intro nid stack st _ _ _ _ _ hcn
    exact absurd hcn (Nat.not_lt_zero _)
  | succ fuel ih =>
    intro nid stack st hwf hnd hgp hinv hnid hcn
    cases hie : (st.node nid).inEdge with
    | none =>
      by_cases hsk : (st.node nid).statusKnown = true
      · simp only [RecomputeNodeDirty, hie, hsk, reduceIte, if_true]
        refine ⟨ScanStep.reflS st, fun e => Iff.rfl, hinv, ?_, Nat.le_refl _⟩
        unfold processed
        rw [hie]
        exact hsk
      · rw [Bool.not_eq_true] at hsk
        obtain ⟨stS, heqS, hstepS, hknS⟩ := statIfNecessary_good env he st nid hgp
        simp only [RecomputeNodeDirty, hie, hsk, Bool.false_eq_true, reduceIte,
          if_false, heqS, Bool.not_true]
        set stF := stS.setNode nid
          { stS.node nid with dirty := !nodeExists (stS.node nid).mtime } with hstF
        have hknS' : (stS.node nid).statusKnown = true := hknS hnid
        have hsSF : ScanStep stS stF :=
          scanStep_setNode stS nid _ rfl rfl rfl (fun h => h)
        have hnodeF : ∀ j, stF.node j =
            if nid = j ∧ nid < stS.nodes.length then
              { stS.node nid with dirty := !nodeExists (stS.node nid).mtime }
            else stS.node j := fun j => BuildState.node_setNode stS nid j _
        have hedgesF : stF.edges = st.edges := by
          rw [hstF, BuildState.edges_setNode, hstepS.edges]
        have hmarksF : ∀ e, stF.edge e = st.edge e :=
          BuildState.edge_congr hedgesF
        have hskF : (stF.node nid).statusKnown = true := by
          rw [hnodeF nid]
          split
          · exact hknS'
          · exact hknS'
        have hinF : (stF.node nid).inEdge = none := by
          rw [hnodeF nid]
          split
          · show (stS.node nid).inEdge = none
            rw [hstepS.inEdge nid]
            exact hie
          · rw [hstepS.inEdge nid]
            exact hie
        refine ⟨hstepS.toScanStep.transS hsSF, ?_, ?_, ?_, ?_⟩
        · intro e
          rw [hmarksF e]
        · refine ScanInv_nodeOnly stack hedgesF ?_ ?_ ?_ hinv
          · intro j
            rw [hnodeF j]
            split
            · next hj =>
              show (stS.node nid).inEdge = (st.node j).inEdge
              rw [hstepS.inEdge nid, hj.1]
            · exact hstepS.inEdge j
          · intro j hj
            rw [hnodeF j]
            split
            · next h => exact (h.1 ▸ hknS')
            · exact hstepS.statusMono j hj
          · intro j hj
            rw [hnodeF j] at hj
            revert hj
            split
            · next h =>
              intro _
              refine Or.inr ⟨?_, ?_⟩
              · rw [hnodeF j, if_pos h]
                show (stS.node nid).inEdge = none
                rw [hstepS.inEdge nid]
                exact hie
              · rw [hnodeF j, if_pos h]
                exact hknS'
            · intro hj
              exact Or.inl ((hstepS.dirty j) ▸ hj)
        · unfold processed
          rw [hinF]
          exact hskF
        · exact le_of_eq (countNone_congr (by rw [hedgesF])
            (fun e => by rw [hmarksF e]))
    | some eid =>
      have heidlt : eid < st.edges.length := hwf.inEdgeValid nid eid hie
      by_cases hdone : (st.edge eid).mark = .VisitDone
      · simp only [RecomputeNodeDirty, hie]
        rw [if_pos hdone]
        refine ⟨ScanStep.reflS st, fun e => Iff.rfl, hinv, ?_, Nat.le_refl _⟩
        unfold processed
        rw [hie]
        exact hdone
      · cases hmk0 : (st.edge eid).mark with
        | VisitDone => exact absurd hmk0 hdone
        | VisitInStack =>
          obtain ⟨msg, hvd, hform⟩ :=
            VerifyDAG_cycleMsg st nid eid stack hie hmk0 hinv.1
          simp only [RecomputeNodeDirty, hie]
          rw [if_neg hdone]
          simp only [hvd]
          exact hform
        | VisitNone =>
          have hvd : VerifyDAG st nid stack = none :=
            VerifyDAG_none st nid eid stack hie
              (by rw [hmk0]; exact fun h => Mark.noConfusion h)
          simp only [RecomputeNodeDirty, hie]
          rw [if_neg hdone]
          simp only [hvd]
          set st1 := st.setEdge eid { st.edge eid with mark := Mark.VisitInStack }
            with hst1
          set st2 := st1.setEdge eid
            { st1.edge eid with outputsReady := true, depsMissing := false }
            with hst2
          have hs01 : ScanStep st st1 := by
            rw [hst1]
            exact scanStep_setEdge st eid _ rfl rfl rfl rfl rfl
              (by rw [hmk0]; exact Nat.zero_le _)
          have hs12 : ScanStep st1 st2 := by
            rw [hst2]
            exact scanStep_setEdge st1 eid _ rfl rfl rfl rfl rfl (Nat.le_refl _)
          have hedge1 : ∀ e, st1.edge e =
              if eid = e ∧ eid < st.edges.length then
                { st.edge eid with mark := Mark.VisitInStack }
              else st.edge e := fun e => BuildState.edge_setEdge st eid e _
          have hlen1e : st1.edges.length = st.edges.length := hs01.edgesLen
          have hedge2 : ∀ e, st2.edge e =
              if eid = e ∧ eid < st1.edges.length then
                { st1.edge eid with outputsReady := true, depsMissing := false }
              else st1.edge e := fun e => BuildState.edge_setEdge st1 eid e _
          have hmk1 : (st1.edge eid).mark = .VisitInStack := by
            rw [hedge1 eid, if_pos ⟨rfl, heidlt⟩]
          have hmk2 : (st2.edge eid).mark = .VisitInStack := by
            rw [hedge2 eid, if_pos ⟨rfl, hlen1e ▸ heidlt⟩]
            exact hmk1
          have hrdy2 : (st2.edge eid).outputsReady = true := by
            rw [hedge2 eid, if_pos ⟨rfl, hlen1e ▸ heidlt⟩]
          have hedgeOff : ∀ d, d ≠ eid → st2.edge d = st.edge d := by
            intro d hd
            rw [hedge2 d, if_neg (fun hc => hd hc.1.symm),
              hedge1 d, if_neg (fun hc => hd hc.1.symm)]
          have hmarks21 : ∀ e, (st2.edge e).mark = (st1.edge e).mark := by
            intro e
            rw [hedge2 e]
            split
            · next h => rw [h.1]
            · rfl
          have hnodes2 : ∀ n, st2.node n = st.node n := fun _ => rfl
          have hwf2 : WFState st2 := hwf.stepWF (hs01.transS hs12)
          have hnd2 : NoDeps st2 := hnd.stepND (hs01.transS hs12)
          have hgp2 : GoodPre st2 := hgp
          have hinv2 : ScanInv st2 (stack ++ [nid]) := by
            obtain ⟨hsm, hdr, hdk, hdl⟩ := hinv
            refine ⟨?_, ?_, ?_, ?_⟩
            · intro e hm
              by_cases hde : e = eid
              · subst hde
                exact ⟨nid, List.mem_append.2 (Or.inr (List.mem_singleton.2 rfl)),
                  hie⟩
              · rw [hedgeOff e hde] at hm
                obtain ⟨n, hn, hne⟩ := hsm e hm
                exact ⟨n, List.mem_append.2 (Or.inl hn), hne⟩
            · obtain ⟨N, r, hr⟩ := hdr
              refine ⟨N, r, fun e hm => ?_⟩
              have hde : e ≠ eid := by
                intro h
                rw [h, hmk2] at hm
                cases hm
              rw [hedgeOff e hde] at hm
              obtain ⟨hb, hcl⟩ := hr e hm
              refine ⟨hb, fun n hn => ?_⟩
              rw [hedgeOff e hde] at hn
              obtain ⟨hleaf, hprod⟩ := hcl n hn
              refine ⟨hleaf, fun d hd => ?_⟩
              obtain ⟨hdm, hrd⟩ := hprod d hd
              have hdde : d ≠ eid := by
                intro h
                rw [h, hmk0] at hdm
                cases hdm
              rw [hedgeOff d hdde]
              exact ⟨hdm, hrd⟩
            · exact hdk
            · intro n d hn hnd'
              obtain ⟨hm, hready⟩ := hdl n d hn hnd'
              have hdde : d ≠ eid := by
                intro h
                rw [h, hmk0] at hm
                cases hm
              rw [hedgeOff d hdde]
              exact ⟨hm, hready⟩
          have hcn1lt : countNone st1 < countNone st := by
            refine countNone_lt hlen1e hs01.markMono eid heidlt hmk0 ?_
            rw [hmk1]
            exact fun h => Mark.noConfusion h
          have hcn2eq : countNone st2 = countNone st1 :=
            countNone_congr hs12.edgesLen hmarks21
          obtain ⟨st3, heq3, hstep3, hsk3⟩ :=
            statOutputs_good env he ((st2.edge eid).outputs) st2 hgp2
          simp only [heq3, Bool.not_true, Bool.false_eq_true, reduceIte, if_false]
          have hs23 : ScanStep st2 st3 := hstep3.toScanStep
          have hwf3 : WFState st3 := hwf2.stepWF hs23
          have hnd3 : NoDeps st3 := hnd2.stepND hs23
          have hgp3 : GoodPre st3 := hgp2.stepGP hs23
          have hinv3 : ScanInv st3 (stack ++ [nid]) := hstep3.scanInv _ hinv2
          have hmk3 : (st3.edge eid).mark = .VisitInStack := by
            rw [BuildState.edge_congr hstep3.edges eid]
            exact hmk2
          have hld : LoadDeps env st3 eid = (st3, true, "") :=
            LoadDeps_trivial env st3 eid (hnd3 eid).1 (hnd3 eid).2
          simp only [hld, Bool.not_true, Bool.false_and, Bool.false_eq_true,
            reduceIte, if_false, ne_eq]
          have hcn3 : countNone st3 < fuel := by
            have h3eq : countNone st3 = countNone st2 :=
              countNone_congr hs23.edgesLen
                (fun e => by rw [BuildState.edge_congr hstep3.edges e])
            omega
          cases hres : visitInputs
              (fun n s => RecomputeNodeDirty env fuel n (stack ++ [nid]) s)
              eid st3 false none 0 ((st3.edge eid).inputs) with
          | fail mm sF =>
            have hloop := visitInputs_post env fuel ih eid (stack ++ [nid])
              ((st3.edge eid).inputs) st3 false none 0 hwf3 hnd3 hgp3 hinv3
              (fun x hx => hwf3.inputValid eid x hx) hcn3 hmk3
            rw [hres] at hloop
            simp only [hres]
            exact hloop
          | fuelOut =>
            have hloop := visitInputs_post env fuel ih eid (stack ++ [nid])
              ((st3.edge eid).inputs) st3 false none 0 hwf3 hnd3 hgp3 hinv3
              (fun x hx => hwf3.inputValid eid x hx) hcn3 hmk3
            rw [hres] at hloop
            exact False.elim hloop
          | ok st6 dirtyL mriL =>
            have hloop := visitInputs_post env fuel ih eid (stack ++ [nid])
              ((st3.edge eid).inputs) st3 false none 0 hwf3 hnd3 hgp3 hinv3
              (fun x hx => hwf3.inputValid eid x hx) hcn3 hmk3
            rw [hres] at hloop
            simp only [hres]
            obtain ⟨hs36, hiff36, hinv6, hproc6, hcn6⟩ := hloop
            have hwf6 : WFState st6 := hwf3.stepWF hs36
            have hmk6 : (st6.edge eid).mark = .VisitInStack := (hiff36 eid).mpr hmk3
            have hs06 : ScanStep st st6 :=
              ((hs01.transS hs12).transS hs23).transS hs36
            have hcn6le : countNone st6 ≤ countNone st := by
              have h3eq : countNone st3 = countNone st2 :=
                countNone_congr hs23.edgesLen
                  (fun e => by rw [BuildState.edge_congr hstep3.edges e])
              omega
            have heid6 : eid < st6.edges.length := by
              rw [hs06.edgesLen]
              exact heidlt
            have hfinal : ∀ (st8 : BuildState),
                ScanStep st6 st8 →
                (∀ e, (st8.edge e).mark = (st6.edge e).mark) →
                (∀ j, (st8.node j).statusKnown = (st6.node j).statusKnown) →
                (∀ j, (st8.node j).inEdge = (st6.node j).inEdge) →
                (∀ j, (st8.node j).dirty = true → (st6.node j).dirty = true ∨
                  (j ∈ (st6.edge eid).outputs ∧ j < st6.nodes.length ∧
                    (st8.edge eid).outputsReady =
                      ((st6.edge eid).isPhony &&
                        (st6.edge eid).inputs.isEmpty))) →
                (∀ e, e ≠ eid →
                  (st8.edge e).outputsReady = (st6.edge e).outputsReady) →
                RNDPost st stack nid
                  (.ok (st8.setEdge eid
                    { st8.edge eid with mark := Mark.VisitDone })) := by
              intro st8 hs68 hm86 hsk86 hin86 hdi86 hrd86
              set st9 := st8.setEdge eid
                { st8.edge eid with mark := Mark.VisitDone } with hst9
              have heid8 : eid < st8.edges.length := by
                rw [hs68.edgesLen]
                exact heid6
              have hs89 : ScanStep st8 st9 := by
                rw [hst9]
                refine scanStep_setEdge st8 eid _ rfl rfl rfl rfl rfl ?_
                rw [hm86 eid, hmk6]
                exact Nat.le_of_lt (Nat.lt_succ_self _)
              have hedge9 : ∀ e, st9.edge e =
                  if eid = e ∧ eid < st8.edges.length then
                    { st8.edge eid with mark := Mark.VisitDone }
                  else st8.edge e := fun e => BuildState.edge_setEdge st8 eid e _
              have hmk9 : (st9.edge eid).mark = .VisitDone := by
                rw [hedge9 eid, if_pos ⟨rfl, heid8⟩]
              have hmarks9off : ∀ e, e ≠ eid →
                  (st9.edge e).mark = (st6.edge e).mark := by
                intro e hde
                rw [hedge9 e, if_neg (fun hc => hde hc.1.symm), hm86 e]
              have hnodes98 : ∀ n, st9.node n = st8.node n := fun _ => rfl
              have hs09 : ScanStep st st9 := hs06.transS (hs68.transS hs89)
              have hdone9 : ∀ e, (st9.edge e).mark = .VisitDone ↔
                  (e = eid ∨ (st6.edge e).mark = .VisitDone) := by
                intro e
                by_cases hde : e = eid
                · subst hde
                  rw [hmk9]
                  simp
                · rw [hmarks9off e hde]
                  simp [hde]
              refine ⟨hs09, ?_, ?_, ?_, ?_⟩
              · intro e
                by_cases hde : e = eid
                · subst hde
                  rw [hmk9, hmk0]
                  constructor
                  · exact fun h => Mark.noConfusion h
                  · exact fun h => Mark.noConfusion h
                · rw [hmarks9off e hde]
                  rw [(hiff36 e)]
                  have h32 : (st3.edge e).mark = (st2.edge e).mark := by
                    rw [BuildState.edge_congr hstep3.edges e]
                  rw [h32, hmarks21 e, hedge1 e,
                    if_neg (fun hc => hde hc.1.symm)]
              · obtain ⟨hsm6, hdr6, hdk6, hdl6⟩ := hinv6
                refine ⟨?_, ?_, ?_, ?_⟩
                · intro e hm
                  have hde : e ≠ eid := by
                    intro h
                    rw [h, hmk9] at hm
                    cases hm
                  rw [hmarks9off e hde] at hm
                  have hm3 : (st3.edge e).mark = .VisitInStack := (hiff36 e).mp hm
                  have h32 : (st3.edge e).mark = (st2.edge e).mark := by
                    rw [BuildState.edge_congr hstep3.edges e]
                  rw [h32, hmarks21 e, hedge1 e,
                    if_neg (fun hc => hde hc.1.symm)] at hm3
                  obtain ⟨n, hn, hne⟩ := hinv.1 e hm3
                  refine ⟨n, hn, ?_⟩
                  rw [hs09.inEdge n]
                  exact hne
                · obtain ⟨N, r, hr⟩ := hdr6
                  refine ⟨N + 1, fun d => if d = eid then N else r d,
                    fun e hm => ?_⟩
                  rcases (hdone9 e).mp hm with heq | hm6
                  · subst heq
                    refine ⟨?_, fun n hn => ?_⟩
                    · show (if e = e then N else r e) < N + 1
                      rw [if_pos rfl]
                      exact Nat.lt_succ_self N
                    have hn6 : n ∈ (st6.edge e).inputs := by
                      rw [hedge9 e, if_pos ⟨rfl, heid8⟩] at hn
                      rw [← hs68.inputs e]
                      exact hn
                    have hn3 : n ∈ (st3.edge e).inputs := by
                      rw [← hs36.inputs e]
                      exact hn6
                    have hpn : processed st6 n := hproc6 n hn3
                    unfold processed at hpn
                    constructor
                    · intro h0
                      rw [hnodes98 n, hin86 n] at h0
                      rw [h0] at hpn
                      rw [hnodes98 n, hsk86 n]
                      exact hpn
                    · intro d hd
                      rw [hnodes98 n, hin86 n] at hd
                      rw [hd] at hpn
                      have hpn2 : (st6.edge d).mark = .VisitDone := hpn
                      have hdne : d ≠ e := by
                        intro h
                        rw [h, hmk6] at hpn2
                        cases hpn2
                      refine ⟨(hmarks9off d hdne) ▸ hpn2, ?_⟩
                      show (if d = e then N else r d) < (if e = e then N else r e)
                      rw [if_neg hdne, if_pos rfl]
                      exact (hr d hpn2).1
                  · have hde : e ≠ eid := by
                      intro h
                      rw [h, hmk6] at hm6
                      cases hm6
                    obtain ⟨hb, hcl⟩ := hr e hm6
                    refine ⟨?_, fun n hn => ?_⟩
                    · show (if e = eid then N else r e) < N + 1
                      rw [if_neg hde]
                      exact Nat.lt_succ_of_lt hb
                    have hn6 : n ∈ (st6.edge e).inputs := by
                      rw [hedge9 e, if_neg (fun hc => hde hc.1.symm)] at hn
                      rw [hs68.inputs e] at hn
                      exact hn
                    obtain ⟨hleaf, hprod⟩ := hcl n hn6
                    constructor
                    · intro h0
                      rw [hnodes98 n, hin86 n] at h0
                      rw [hnodes98 n, hsk86 n]
                      exact hleaf h0
                    · intro d hd
                      rw [hnodes98 n, hin86 n] at hd
                      obtain ⟨hdm, hrd⟩ := hprod d hd
                      have hdne : d ≠ eid := by
                        intro h
                        rw [h, hmk6] at hdm
                        cases hdm
                      refine ⟨(hmarks9off d hdne) ▸ hdm, ?_⟩
                      show (if d = eid then N else r d) < (if e = eid then N else r e)
                      rw [if_neg hdne, if_neg hde]
                      exact hrd
                · intro n hn
                  rw [hnodes98 n] at hn ⊢
                  rcases hdi86 n hn with h6 | ⟨hmem, hlt, _⟩
                  · rw [hsk86 n]
                    exact hdk6 n h6
                  · rw [hsk86 n]
                    have hmem2 : n ∈ (st2.edge eid).outputs := by
                      rw [hs36.outputs eid, hs23.outputs eid] at hmem
                      exact hmem
                    have hlt2 : n < st2.nodes.length := by
                      rw [hs36.nodesLen, hs23.nodesLen] at hlt
                      exact hlt
                    exact hs36.statusMono n (hsk3 n hmem2 hlt2)
                · intro n d hn hnd'
                  rw [hnodes98 n] at hn hnd'
                  rw [hin86 n] at hnd'
                  rcases hdi86 n hn with h6 | ⟨hmem, hlt, hready⟩
                  · obtain ⟨hdm, hready⟩ := hdl6 n d h6 hnd'
                    have hdne : d ≠ eid := by
                      intro h
                      rw [h, hmk6] at hdm
                      cases hdm
                    refine ⟨(hmarks9off d hdne).symm ▸ hdm, ?_⟩
                    have h9d : st9.edge d = st8.edge d := by
                      rw [hedge9 d, if_neg (fun hc => hdne hc.1.symm)]
                    rw [h9d, hrd86 d hdne, hs68.inputs d, hs68.isPhony d]
                    exact hready
                  · have hdeq : d = eid := by
                      have := hwf6.singleProducer eid n hmem
                      rw [this] at hnd'
                      exact ((Option.some.injEq _ _).mp hnd').symm
                    rw [hdeq]
                    refine ⟨hmk9, ?_⟩
                    have h9r : (st9.edge eid).outputsReady =
                        (st8.edge eid).outputsReady := by
                      rw [hedge9 eid, if_pos ⟨rfl, heid8⟩]
                    have h9ph : (st9.edge eid).isPhony = (st6.edge eid).isPhony := by
                      rw [(hs68.transS hs89).isPhony eid]
                    have h9in : (st9.edge eid).inputs = (st6.edge eid).inputs := by
                      rw [(hs68.transS hs89).inputs eid]
                    rw [h9r, h9ph, h9in]
                    exact hready
              · unfold processed
                rw [hs09.inEdge nid, hie]
                exact hmk9
              · have h98 : countNone st9 ≤ countNone st8 :=
                  countNone_mono_of_step hs89
                have h86 : countNone st8 = countNone st6 :=
                  countNone_congr hs68.edgesLen hm86
                omega
            cases hdv : (if !dirtyL then RecomputeOutputsDirtyB env st6 eid mriL
                else dirtyL) with
            | false =>
              simp only [hdv, Bool.false_and, Bool.false_eq_true, reduceIte,
                if_false]
              exact hfinal st6 (ScanStep.reflS st6) (fun _ => rfl) (fun _ => rfl)
                (fun _ => rfl) (fun j hj => Or.inl hj) (fun _ _ => rfl)
            | true =>
              simp only [hdv, Bool.true_and, reduceIte, if_true]
              set st7 := markOutputsDirty st6 ((st6.edge eid).outputs) with hst7
              obtain ⟨hmo1, hmo2, hmo3, hmo4⟩ :=
                markOutputsDirty_spec ((st6.edge eid).outputs) st6
              have hs67 : ScanStep st6 st7 :=
                markOutputsDirty_scanStep ((st6.edge eid).outputs) st6
              have hmarks7 : ∀ e, (st7.edge e).mark = (st6.edge e).mark :=
                fun e => by rw [BuildState.edge_congr hmo1 e]
              cases hpe : ((st7.edge eid).isPhony && (st7.edge eid).inputs.isEmpty)
                  with
              | true =>
                simp only [hpe, Bool.not_true, Bool.false_eq_true, reduceIte,
                  if_false]
                have hpe6 : ((st6.edge eid).isPhony &&
                    (st6.edge eid).inputs.isEmpty) = true := by
                  rw [← hs67.isPhony eid, ← hs67.inputs eid]
                  exact hpe
                have hinem : (st3.edge eid).inputs = [] := by
                  have h1 : (st6.edge eid).inputs.isEmpty = true := by
                    rcases h2 : (st6.edge eid).inputs.isEmpty with _ | _
                    · rw [h2, Bool.and_false] at hpe6
                      cases hpe6
                    · rfl
                  rw [hs36.inputs eid] at h1
                  exact List.isEmpty_iff.mp h1
                have h63 : st6 = st3 ∧ dirtyL = false := by
                  rw [hinem] at hres
                  have : LoopRes.ok st3 false none = LoopRes.ok st6 dirtyL mriL :=
                    hres
                  cases this
                  exact ⟨rfl, rfl⟩
                have hrdy6 : (st6.edge eid).outputsReady = true := by
                  rw [h63.1]
                  rw [BuildState.edge_congr hstep3.edges eid]
                  exact hrdy2
                refine hfinal st7 hs67 hmarks7 (fun j => (hmo3 j).2.2.2)
                  (fun j => (hmo3 j).2.1) ?_ ?_
                · intro j hj
                  rcases (hmo4 j).mp hj with h6 | ⟨hmem, hlt⟩
                  · exact Or.inl h6
                  · refine Or.inr ⟨hmem, hlt, ?_⟩
                    rw [BuildState.edge_congr hmo1 eid, hrdy6, hpe6]
                · intro e _
                  rw [BuildState.edge_congr hmo1 e]
              | false =>
                simp only [hpe, Bool.not_false, reduceIte, if_true]
                have hpe6 : ((st6.edge eid).isPhony &&
                    (st6.edge eid).inputs.isEmpty) = false := by
                  rw [← hs67.isPhony eid, ← hs67.inputs eid]
                  exact hpe
                set st8 := st7.setEdge eid
                  { st7.edge eid with outputsReady := false } with hst8
                have heid7 : eid < st7.edges.length := by
                  rw [hs67.edgesLen]
                  exact heid6
                have hs78 : ScanStep st7 st8 := by
                  rw [hst8]
                  exact scanStep_setEdge st7 eid _ rfl rfl rfl rfl rfl
                    (Nat.le_refl _)
                have hedge8 : ∀ e, st8.edge e =
                    if eid = e ∧ eid < st7.edges.length then
                      { st7.edge eid with outputsReady := false }
                    else st7.edge e := fun e => BuildState.edge_setEdge st7 eid e _
                refine hfinal st8 (hs67.transS hs78) ?_ ?_ ?_ ?_ ?_
                · intro e
                  rw [hedge8 e]
                  split
                  · next h => rw [← h.1, hmarks7 eid]
                  · exact hmarks7 e
                · intro j
                  rw [hst8]
                  exact (hmo3 j).2.2.2
                · intro j
                  rw [hst8]
                  exact (hmo3 j).2.1
                · intro j hj
                  rw [hst8] at hj
                  rcases (hmo4 j).mp hj with h6 | ⟨hmem, hlt⟩
                  · exact Or.inl h6
                  · refine Or.inr ⟨hmem, hlt, ?_⟩
                    rw [hedge8 eid, if_pos ⟨rfl, heid7⟩, hpe6]
                · intro e hde
                  rw [hedge8 e, if_neg (fun hc => hde hc.1.symm),
                    BuildState.edge_congr hmo1 e]

theorem EqOutsidePrecompute.reflQ (st : BuildState) : EqOutsidePrecompute st st :=
  ⟨rfl, rfl, fun _ => ⟨rfl, rfl, rfl, rfl, rfl⟩,
   fun _ => ⟨rfl, rfl, rfl, rfl, rfl, rfl⟩⟩

theorem EqOutsidePrecompute.transQ {a b c : BuildState}
    (h1 : EqOutsidePrecompute a b) (h2 : EqOutsidePrecompute b c) :
    EqOutsidePrecompute a c := by
  obtain ⟨l1, l2, n1, e1⟩ := h1
  obtain ⟨m1, m2, n2, e2⟩ := h2
  refine ⟨m1.trans l1, m2.trans l2, fun j => ?_, fun e => ?_⟩
  · obtain ⟨a1, a2, a3, a4, a5⟩ := n1 j
    obtain ⟨b1, b2, b3, b4, b5⟩ := n2 j
    exact ⟨b1.trans a1, b2.trans a2, b3.trans a3, b4.trans a4, b5.trans a5⟩
  · obtain ⟨a1, a2, a3, a4, a5, a6⟩ := e1 e
    obtain ⟨b1, b2, b3, b4, b5, b6⟩ := e2 e
    exact ⟨b1.trans a1, b2.trans a2, b3.trans a3, b4.trans a4, b5.trans a5,
      b6.trans a6⟩

/-- Setting a node to a value equal outside the precompute cache fields. -/
theorem eqOP_setNode (st : BuildState) (i : Nat) (n' : Node)
    (h1 : n'.path = (st.node i).path) (h2 : n'.mtime = (st.node i).mtime)
    (h3 : n'.statusKnown = (st.node i).statusKnown)
    (h4 : n'.dirty = (st.node i).dirty) (h5 : n'.inEdge = (st.node i).inEdge) :
    EqOutsidePrecompute st (st.setNode i n') := by
  refine ⟨BuildState.nodes_length_setNode st i n', by rw [BuildState.edges_setNode],
    fun j => ?_, fun e => by rw [BuildState.edge_setNode]; exact ⟨rfl, rfl, rfl, rfl, rfl, rfl⟩⟩
  rw [BuildState.node_setNode]
  split
  · next h => rw [h.1] at h1 h2 h3 h4 h5; exact ⟨h1, h2, h3, h4, h5⟩
  · exact ⟨rfl, rfl, rfl, rfl, rfl⟩

/-- Setting an edge to a value equal outside the precompute cache fields. -/
theorem eqOP_setEdge (st : BuildState) (i : Nat) (e' : Edge)
    (h1 : e'.inputs = (st.edge i).inputs) (h2 : e'.outputs = (st.edge i).outputs)
    (h3 : e'.isPhony = (st.edge i).isPhony) (h4 : e'.mark = (st.edge i).mark)
    (h5 : e'.depScanInfo.deps = (st.edge i).depScanInfo.deps)
    (h6 : e'.depScanInfo.depfile = (st.edge i).depScanInfo.depfile) :
    EqOutsidePrecompute st (st.setEdge i e') := by
  refine ⟨by rw [BuildState.nodes_setEdge], BuildState.edges_length_setEdge st i e',
    fun j => by rw [BuildState.node_setEdge]; exact ⟨rfl, rfl, rfl, rfl, rfl⟩,
    fun e => ?_⟩
  rw [BuildState.edge_setEdge]
  split
  · next h => rw [h.1] at h1 h2 h3 h4 h5 h6; exact ⟨h1, h2, h3, h4, h5, h6⟩
  · exact ⟨rfl, rfl, rfl, rfl, rfl, rfl⟩

/-- The collect/precompute step relation: equal outside the caches, with the
precomputed mtimes also untouched. -/
theorem collectMany_q
    (f : Nat → BuildState → List Nat → List Nat →
      BuildState × List Nat × List Nat)
    (hf : ∀ n st ns es, EqOutsidePrecompute st (f n st ns es).1 ∧
      (∀ j, ((f n st ns es).1.node j).precomputedMtime =
        (st.node j).precomputedMtime)) :
    ∀ (l : List Nat) (st : BuildState) (ns es : List Nat),
      EqOutsidePrecompute st (collectMany f l st ns es).1 ∧
      (∀ j, ((collectMany f l st ns es).1.node j).precomputedMtime =
        (st.node j).precomputedMtime) := by
  intro l
  induction l with
  | nil =>
    intro st ns es
    exact ⟨EqOutsidePrecompute.reflQ st, fun _ => rfl⟩
  | cons n rest ih =>
    intro st ns es
    by_cases hpd : (st.node n).precomputedDirtiness = true
    · simp only [collectMany, hpd, reduceIte, if_true]
      exact ih st ns es
    · rw [Bool.not_eq_true] at hpd
      rcases hfe : f n st ns es with ⟨stA, nsA, esA⟩
      have hA := hf n st ns es
      rw [hfe] at hA
      simp only [collectMany, hpd, Bool.false_eq_true, reduceIte, if_false, hfe]
      obtain ⟨hq, hpre⟩ := ih stA nsA esA
      exact ⟨(hA.1).transQ hq, fun j => (hpre j).trans (hA.2 j)⟩

theorem CollectPrecomputeLists_q (env : ScanEnv) :
    ∀ (fuel : Nat) (nid : Nat) (st : BuildState) (ns es : List Nat),
      EqOutsidePrecompute st (CollectPrecomputeLists env fuel nid st ns es).1 ∧
      (∀ j, ((CollectPrecomputeLists env fuel nid st ns es).1.node
        j).precomputedMtime = (st.node j).precomputedMtime) := by
  intro fuel
  induction fuel with
  | zero =>
    intro nid st ns es
    exact ⟨EqOutsidePrecompute.reflQ st, fun _ => rfl⟩
  | succ fuel ih =>
    intro nid st ns es
    by_cases hpd : (st.node nid).precomputedDirtiness = true
    · simp only [CollectPrecomputeLists, hpd, reduceIte, if_true]
      refine ⟨EqOutsidePrecompute.reflQ st, ?_⟩
      simp
    · rw [Bool.not_eq_true] at hpd
      simp only [CollectPrecomputeLists, hpd, Bool.false_eq_true, reduceIte,
        if_false]
      set stA := st.setNode nid
        { st.node nid with precomputedDirtiness := true } with hstA
      have hqA : EqOutsidePrecompute st stA ∧
          (∀ j, (stA.node j).precomputedMtime = (st.node j).precomputedMtime) := by
        constructor
        · exact eqOP_setNode st nid _ rfl rfl rfl rfl rfl
        · intro j
          rw [hstA, BuildState.node_setNode]
          split
          · next h => rw [h.1]
          · rfl
      have hinner : ∀ (stI : BuildState) (nsI esI : List Nat),
          (EqOutsidePrecompute stA stI ∧
            (∀ j, (stI.node j).precomputedMtime = (stA.node j).precomputedMtime)) →
          EqOutsidePrecompute st
            ((match env.depsLog nid with
              | some deps =>
                collectMany (fun n s a b => CollectPrecomputeLists env fuel n s a b)
                  deps.nodes stI nsI esI
              | none => (stI, nsI, esI)).1) ∧
          (∀ j, (((match env.depsLog nid with
              | some deps =>
                collectMany (fun n s a b => CollectPrecomputeLists env fuel n s a b)
                  deps.nodes stI nsI esI
              | none => (stI, nsI, esI)).1).node j).precomputedMtime =
            (st.node j).precomputedMtime) := by
        intro stI nsI esI hI
        cases hdl : env.depsLog nid with
        | none =>
          exact ⟨(hqA.1).transQ hI.1, fun j => (hI.2 j).trans (hqA.2 j)⟩
        | some deps =>
          obtain ⟨hq2, hp2⟩ := collectMany_q _ (fun n s a b => ih n s a b)
            deps.nodes stI nsI esI
          exact ⟨((hqA.1).transQ hI.1).transQ hq2,
            fun j => ((hp2 j).trans (hI.2 j)).trans (hqA.2 j)⟩
      cases hie : (stA.node nid).inEdge with
      | none =>
        simp only [hie]
        exact hinner stA (ns ++ [nid]) es ⟨EqOutsidePrecompute.reflQ stA, fun _ => rfl⟩
      | some eid =>
        simp only [hie]
        by_cases hepd : (stA.edge eid).precomputedDirtiness = true
        · simp only [hepd, Bool.not_true, Bool.false_eq_true, reduceIte, if_false]
          exact hinner stA (ns ++ [nid]) es
            ⟨EqOutsidePrecompute.reflQ stA, fun _ => rfl⟩
        · rw [Bool.not_eq_true] at hepd
          simp only [hepd, Bool.not_false, reduceIte, if_true]
          set stB := stA.setEdge eid
            { stA.edge eid with precomputedDirtiness := true } with hstB
          have hqB : EqOutsidePrecompute stA stB ∧
              (∀ j, (stB.node j).precomputedMtime =
                (stA.node j).precomputedMtime) :=
            ⟨eqOP_setEdge stA eid _ rfl rfl rfl rfl rfl rfl, fun _ => rfl⟩
          rcases hcm : collectMany
              (fun n s a b => CollectPrecomputeLists env fuel n s a b)
              ((stB.edge eid).inputs) stB (ns ++ [nid]) (es ++ [eid]) with
            ⟨stC, nsC, esC⟩
          have hC := collectMany_q _ (fun n s a b => ih n s a b)
            ((stB.edge eid).inputs) stB (ns ++ [nid]) (es ++ [eid])
          rw [hcm] at hC
          simp only [hcm]
          exact hinner stC nsC esC
            ⟨(hqB.1).transQ hC.1, fun j => (hC.2 j).trans (hqB.2 j)⟩

theorem collectAll_q (env : ScanEnv) (fuel : Nat) :
    ∀ (initial : List Nat) (st : BuildState) (acc : BuildState × List Nat × List Nat),
      EqOutsidePrecompute acc.1 (initial.foldl
        (fun acc n =>
          let (st, ns, es) := acc
          CollectPrecomputeLists env fuel n st ns es) acc).1 ∧
      (∀ j, ((initial.foldl
        (fun acc n =>
          let (st, ns, es) := acc
          CollectPrecomputeLists env fuel n st ns es) acc).1.node
          j).precomputedMtime = (acc.1.node j).precomputedMtime) := by
  intro initial
  induction initial with
  | nil =>
    intro st acc
    exact ⟨EqOutsidePrecompute.reflQ acc.1, fun _ => rfl⟩
  | cons n rest ih =>
    intro st acc
    rcases acc with ⟨stA, nsA, esA⟩
    rcases hc : CollectPrecomputeLists env fuel n stA nsA esA with ⟨stB, nsB, esB⟩
    have hB := CollectPrecomputeLists_q env fuel n stA nsA esA
    rw [hc] at hB
    rw [List.foldl_cons]
    simp only [hc]
    obtain ⟨hq2, hp2⟩ := ih st (stB, nsB, esB)
    exact ⟨(hB.1).transQ hq2, fun j => (hp2 j).trans (hB.2 j)⟩

theorem precomputeStatAll_q (env : ScanEnv) (he : goodEnv env) :
    ∀ (l : List Nat) (st : BuildState),
      (precomputeStatAll env l st).2 = "" ∧
      EqOutsidePrecompute st (precomputeStatAll env l st).1 ∧
      (GoodPre st → GoodPre (precomputeStatAll env l st).1) := by
  intro l
  induction l with
  | nil =>
    intro st
    exact ⟨rfl, EqOutsidePrecompute.reflQ st, fun h => h⟩
  | cons n rest ih =>
    intro st
    have hm : (match (st.node n).inEdge with
        | some _ => env.lstatFn (st.node n).path
        | none => env.statFn (st.node n).path) ≠ -1 := by
      cases (st.node n).inEdge
      · exact he.1 _
      · exact he.2 _
    set m := (match (st.node n).inEdge with
      | some _ => env.lstatFn (st.node n).path
      | none => env.statFn (st.node n).path) with hmdef
    set stA := st.setNode n { st.node n with precomputedMtime := some m }
      with hstA
    have hqA : EqOutsidePrecompute st stA :=
      eqOP_setNode st n _ rfl rfl rfl rfl rfl
    have hgpA : GoodPre st → GoodPre stA := by
      intro hgp j
      rw [hstA, BuildState.node_setNode]
      split
      · intro hc
        rw [Option.some.injEq] at hc
        exact hm hc
      · exact hgp j
    obtain ⟨hmsg, hq2, hgp2⟩ := ih stA
    have hexp : precomputeStatAll env (n :: rest) st =
        ((precomputeStatAll env rest stA).1,
          if ("" : String) ≠ "" then "" else (precomputeStatAll env rest stA).2) := by
      simp only [precomputeStatAll, nodePrecomputeStat, ← hmdef, ← hstA]
      simp [hm]
    rw [hexp]
    simp only [ne_eq, not_true_eq_false, reduceIte, if_false, ite_self]
    exact ⟨hmsg, hqA.transQ hq2, fun h => hgp2 (hgpA h)⟩

theorem precomputeDepScanInfoAll_q :
    ∀ (l : List Nat) (st : BuildState),
      EqOutsidePrecompute st (precomputeDepScanInfoAll st l) ∧
      (∀ j, ((precomputeDepScanInfoAll st l).node j).precomputedMtime =
        (st.node j).precomputedMtime) := by
  intro l
  induction l with
  | nil =>
    intro st
    exact ⟨EqOutsidePrecompute.reflQ st, fun _ => rfl⟩
  | cons e rest ih =>
    intro st
    simp only [precomputeDepScanInfoAll]
    obtain ⟨hq2, hp2⟩ := ih (st.setEdge e { st.edge e with
      depScanInfo := { (st.edge e).depScanInfo with valid := true } })
    exact ⟨(eqOP_setEdge st e ({ st.edge e with
      depScanInfo := { (st.edge e).depScanInfo with valid := true } })
      rfl rfl rfl rfl rfl rfl).transQ hq2, fun j => hp2 j⟩

theorem PrecomputeNodesDirty_q (env : ScanEnv) (he : goodEnv env)
    (nodes edges : List Nat) (st : BuildState) (hgp : GoodPre st) :
    ∃ st2, PrecomputeNodesDirty env nodes edges st = (st2, true, "") ∧
      EqOutsidePrecompute st st2 ∧ GoodPre st2 := by
  unfold PrecomputeNodesDirty
  by_cases hps : env.parallelStat = true
  · rw [if_pos hps]
    obtain ⟨hmsg, hq1, hgp1⟩ := precomputeStatAll_q env he nodes st
    rcases hpa : precomputeStatAll env nodes st with ⟨stP, msgP⟩
    rw [hpa] at hmsg hq1 hgp1
    simp only at hmsg hq1 hgp1
    subst hmsg
    simp only [ne_eq, not_true_eq_false, reduceIte, if_false, ite_self]
    obtain ⟨hq2, hp2⟩ := precomputeDepScanInfoAll_q edges stP
    refine ⟨_, rfl, hq1.transQ hq2, ?_⟩
    intro j
    rw [hp2 j]
    exact hgp1 hgp j
  · rw [if_neg hps]
    obtain ⟨hq2, hp2⟩ := precomputeDepScanInfoAll_q edges st
    refine ⟨_, rfl, hq2, ?_⟩
    intro j
    rw [hp2 j]
    exact hgp j

theorem clearPrecomputedStats_spec :
    ∀ (ns : List Nat) (st : BuildState),
      (clearPrecomputedStats ns st).edges = st.edges ∧
      (clearPrecomputedStats ns st).nodes.length = st.nodes.length ∧
      (∀ j, ((clearPrecomputedStats ns st).node j).path = (st.node j).path ∧
        ((clearPrecomputedStats ns st).node j).statusKnown =
          (st.node j).statusKnown ∧
        ((clearPrecomputedStats ns st).node j).dirty = (st.node j).dirty ∧
        ((clearPrecomputedStats ns st).node j).inEdge = (st.node j).inEdge) := by
  intro ns
  induction ns with
  | nil =>
    intro st
    exact ⟨rfl, rfl, fun _ => ⟨rfl, rfl, rfl, rfl⟩⟩
  | cons o rest ih =>
    intro st
    have hexp : clearPrecomputedStats (o :: rest) st =
        clearPrecomputedStats rest
          (st.setNode o { st.node o with precomputedMtime := none }) := by
      unfold clearPrecomputedStats
      rw [List.foldl_cons]
    rw [hexp]
    set st1 := st.setNode o { st.node o with precomputedMtime := none } with hst1
    obtain ⟨h1, h2, h3⟩ := ih st1
    refine ⟨h1.trans (by rw [hst1, BuildState.edges_setNode]),
      h2.trans (BuildState.nodes_length_setNode st o _), fun j => ?_⟩
    obtain ⟨a1, a2, a3, a4⟩ := h3 j
    have hn1 : st1.node j =
        if o = j ∧ o < st.nodes.length then
          { st.node o with precomputedMtime := none }
        else st.node j := BuildState.node_setNode st o j _
    rw [a1, a2, a3, a4, hn1]
    split
    · next h => rw [h.1]; exact ⟨rfl, rfl, rfl, rfl⟩
    · exact ⟨rfl, rfl, rfl, rfl⟩

theorem node_default_of_ge (st : BuildState) (n : Nat)
    (h : st.nodes.length ≤ n) : st.node n = { path := "" } := by
  unfold BuildState.node
  rw [List.getD_eq_getElem?_getD, List.getElem?_eq_none h]
  rfl

theorem clearPrecomputedStats_none :
    ∀ (ns : List Nat) (st : BuildState) (n : Nat),
      (st.node n).precomputedMtime = none →
      ((clearPrecomputedStats ns st).node n).precomputedMtime = none := by
  intro ns
  induction ns with
  | nil => exact fun st n h => h
  | cons o rest ih =>
    intro st n h
    have hexp : clearPrecomputedStats (o :: rest) st =
        clearPrecomputedStats rest
          (st.setNode o { st.node o with precomputedMtime := none }) := by
      unfold clearPrecomputedStats
      rw [List.foldl_cons]
    rw [hexp]
    refine ih _ n ?_
    rw [BuildState.node_setNode]
    split
    · rfl
    · exact h

/-- The post-scan cleanup clears the precomputed mtime of every listed node. -/
theorem clearPrecomputedStats_clears :
    ∀ (ns : List Nat) (st : BuildState) (n : Nat), n ∈ ns →
      ((clearPrecomputedStats ns st).node n).precomputedMtime = none := by
  intro ns
  induction ns with
  | nil => exact fun st n h => absurd h (by simp)
  | cons o rest ih =>
    intro st n hn
    have hexp : clearPrecomputedStats (o :: rest) st =
        clearPrecomputedStats rest
          (st.setNode o { st.node o with precomputedMtime := none }) := by
      unfold clearPrecomputedStats
      rw [List.foldl_cons]
    rw [hexp]
    rcases List.mem_cons.1 hn with rfl | hr
    · refine clearPrecomputedStats_none rest _ n ?_
      rw [BuildState.node_setNode]
      split
      · rfl
      · next hc =>
        have hge : st.nodes.length ≤ n := by
          rcases Nat.lt_or_ge n st.nodes.length with hlt | hge
          · exact absurd ⟨rfl, hlt⟩ hc
          · exact hge
        rw [node_default_of_ge st n hge]
    · exact ih _ n hr

theorem WFState.eqOPWF {a b : BuildState} (w : WFState a)
    (h : EqOutsidePrecompute a b) : WFState b := by
  obtain ⟨hln, hle, hn, heg⟩ := h
  refine ⟨?_, ?_, ?_, ?_⟩
  · intro n e hne
    rw [(hn n).2.2.2.2] at hne
    rw [hle]
    exact w.inEdgeValid n e hne
  · intro e n hne
    rw [(heg e).1] at hne
    rw [hln]
    exact w.inputValid e n hne
  · intro e n hne
    rw [(heg e).2.1] at hne
    rw [hln]
    exact w.outputValid e n hne
  · intro e n hne
    rw [(heg e).2.1] at hne
    rw [(hn n).2.2.2.2]
    exact w.singleProducer e n hne

theorem NoDeps.eqOPND {a b : BuildState} (w : NoDeps a)
    (h : EqOutsidePrecompute a b) : NoDeps b := by
  intro e
  rw [(h.2.2.2 e).2.2.2.2.1, (h.2.2.2 e).2.2.2.2.2]
  exact w e

theorem depStep_eqOP {a b : BuildState} (h : EqOutsidePrecompute a b) :
    ∀ m n, depStep a m n → depStep b m n := by
  rintro m n ⟨e, hme, hnm⟩
  exact ⟨e, by rw [(h.2.2.1 m).2.2.2.2]; exact hme,
    by rw [(h.2.2.2 e).1]; exact hnm⟩

theorem depStep_scanStep {a b : BuildState} (h : ScanStep a b) :
    ∀ m n, depStep a m n → depStep b m n := by
  rintro m n ⟨e, hme, hnm⟩
  exact ⟨e, by rw [h.inEdge m]; exact hme, by rw [h.inputs e]; exact hnm⟩

/-- The main pass: all failures are cycle-shaped, success settles every
visited node, and fuel bounded by the unvisited count never runs out. -/
theorem mainPass_post (env : ScanEnv) (he : goodEnv env) (fuel : Nat) :
    ∀ (l : List Nat) (st : BuildState), WFState st → NoDeps st → GoodPre st →
      ScanInv st [] → (∀ n ∈ l, n < st.nodes.length) → countNone st < fuel →
      (match mainPass env fuel l st with
       | .res true msg stf => msg = "" ∧ ScanStep st stf ∧ ScanInv stf [] ∧
           ∀ n ∈ l, processed stf n
       | .res false msg _ => cycleMsgForm msg
       | .fuelOut => False) := by
  intro l
  induction l with
  | nil =>
    intro st _ _ _ hinv _ _
    exact ⟨rfl, ScanStep.reflS st, hinv, fun n hn => absurd hn (by simp)⟩
  | cons n rest ih =>
    intro st hwf hnd hgp hinv hlen hcn
    have hpost := RND_post env he fuel n [] st hwf hnd hgp hinv
      (hlen n (List.mem_cons_self n rest)) hcn
    cases hR : RecomputeNodeDirty env fuel n [] st with
    | fail m sF =>
      rw [hR] at hpost
      simp only [mainPass, hR]
      exact hpost
    | fuelOut =>
      rw [hR] at hpost
      exact False.elim hpost
    | ok stA =>
      rw [hR] at hpost
      obtain ⟨hsA, _, hinvA, hprocA, hcnA⟩ := hpost
      have hrec := ih stA (hwf.stepWF hsA) (hnd.stepND hsA) (hgp.stepGP hsA) hinvA
        (fun x hx => by
          rw [hsA.nodesLen]
          exact hlen x (List.mem_cons_of_mem n hx))
        (Nat.lt_of_le_of_lt hcnA hcn)
      simp only [mainPass, hR]
      cases hmp : mainPass env fuel rest stA with
      | res success msg stf =>
        rw [hmp] at hrec
        cases success with
        | true =>
          obtain ⟨hmsg, hstep, hinvf, hprocf⟩ := hrec
          refine ⟨hmsg, hsA.transS hstep, hinvf, fun x hx => ?_⟩
          rcases List.mem_cons.1 hx with rfl | hxr
          · exact processed_mono hstep x hprocA
          · exact hprocf x hxr
        | false => exact hrec
      | fuelOut =>
        rw [hmp] at hrec
        exact False.elim hrec

theorem processed_step (st : BuildState) (hdr : DoneRank st) {a b : Nat}
    (h : depStep st a b) (hp : processed st a) : processed st b := by
  obtain ⟨e, hae, hbm⟩ := h
  unfold processed at hp
  rw [hae] at hp
  have hp2 : (st.edge e).mark = .VisitDone := hp
  obtain ⟨N, r, hr⟩ := hdr
  obtain ⟨_, hcl⟩ := hr e hp2
  obtain ⟨hleaf, hprod⟩ := hcl b hbm
  unfold processed
  cases hbe : (st.node b).inEdge with
  | none => exact hleaf hbe
  | some d => exact (hprod d hbe).1

theorem processed_reach (st : BuildState) (hdr : DoneRank st) :
    ∀ {a b : Nat}, Relation.ReflTransGen (depStep st) a b →
      processed st a → processed st b := by
  intro a b h hp
  induction h with
  | refl => exact hp
  | tail _ hstep ih => exact processed_step st hdr hstep ih

theorem cycle_rank (st : BuildState) (N : Nat) (r : Nat → Nat)
    (hr : ∀ e, (st.edge e).mark = Mark.VisitDone → r e < N ∧
      ∀ n ∈ (st.edge e).inputs,
        ((st.node n).inEdge = none → (st.node n).statusKnown = true) ∧
        ∀ d, (st.node n).inEdge = some d →
          (st.edge d).mark = Mark.VisitDone ∧ r d < r e) :
    ∀ {a b : Nat}, Relation.TransGen (depStep st) a b →
      ∀ ea, (st.node a).inEdge = some ea → (st.edge ea).mark = Mark.VisitDone →
      ∀ d, (st.node b).inEdge = some d →
        (st.edge d).mark = Mark.VisitDone ∧ r d < r ea := by
  intro a b h
  induction h with
  | single hstep =>
    intro ea hea hma d hd
    obtain ⟨e, hae, hbm⟩ := hstep
    have heq : ea = e := by
      have h1 := hea.symm.trans hae
      exact (Option.some.injEq _ _).mp h1
    subst heq
    exact ((hr ea hma).2 _ hbm).2 d hd
  | tail _ hbc ih =>
    intro ea hea hma d hd
    obtain ⟨e', hbe, hcm⟩ := hbc
    have hmid := ih ea hea hma e' hbe
    have hfin := ((hr e' hmid.1).2 _ hcm).2 d hd
    exact ⟨hfin.1, hfin.2.trans hmid.2⟩

theorem no_cycle (st : BuildState) (hdr : DoneRank st) {n : Nat}
    (hp : processed st n) (hc : Relation.TransGen (depStep st) n n) : False := by
  obtain ⟨N, r, hr⟩ := hdr
  have hprodn : ∃ e, (st.node n).inEdge = some e := by
    rcases (Relation.TransGen.head'_iff.mp hc) with ⟨c, hstep, _⟩
    obtain ⟨e, hne, _⟩ := hstep
    exact ⟨e, hne⟩
  obtain ⟨e, hne⟩ := hprodn
  have hm : (st.edge e).mark = .VisitDone := by
    unfold processed at hp
    rw [hne] at hp
    exact hp
  have hfin := cycle_rank st N r hr hc e hne hm e hne
  exact absurd hfin.2 (lt_irrefl _)

theorem collectAll_q' (env : ScanEnv) (fuel : Nat) (initial : List Nat)
    (st : BuildState) :
    EqOutsidePrecompute st (collectAll env fuel initial st).1 ∧
    (∀ j, ((collectAll env fuel initial st).1.node j).precomputedMtime =
      (st.node j).precomputedMtime) :=
  collectAll_q env fuel initial st (st, [], [])

/-- The invariant-like facts survive the final precompute-cache clearing. -/
theorem clear_transport (ns : List Nat) (st : BuildState) :
    (DirtyLinked st → DirtyLinked (clearPrecomputedStats ns st)) ∧
    (DoneRank st → DoneRank (clearPrecomputedStats ns st)) ∧
    (∀ n, processed st n → processed (clearPrecomputedStats ns st) n) := by
  obtain ⟨h1, h2, h3⟩ := clearPrecomputedStats_spec ns st
  have he := BuildState.edge_congr h1
  refine ⟨?_, ?_, ?_⟩
  · intro hdl n e hn hne
    rw [(h3 n).2.2.1] at hn
    rw [(h3 n).2.2.2] at hne
    rw [he e]
    exact hdl n e hn hne
  · rintro ⟨N, r, hr⟩
    refine ⟨N, r, fun e hm => ?_⟩
    rw [he e] at hm
    obtain ⟨hb, hcl⟩ := hr e hm
    refine ⟨hb, fun n hn => ?_⟩
    rw [he e] at hn
    obtain ⟨hleaf, hprod⟩ := hcl n hn
    constructor
    · intro h0
      rw [(h3 n).2.2.2] at h0
      rw [(h3 n).2.1]
      exact hleaf h0
    · intro d hd
      rw [(h3 n).2.2.2] at hd
      rw [he d]
      exact hprod d hd
  · intro n hp
    unfold processed at hp ⊢
    rw [(h3 n).2.2.2]
    cases hne : (st.node n).inEdge with
    | none =>
      rw [hne] at hp
      show ((clearPrecomputedStats ns st).node n).statusKnown = true
      rw [(h3 n).2.1]
      exact hp
    | some e =>
      rw [hne] at hp
      show ((clearPrecomputedStats ns st).edge e).mark = Mark.VisitDone
      rw [he e]
      exact hp

/-- The complete run of `RecomputeNodesDirty` on a fresh well-formed graph:
either it fails with a cycle-shaped message, or it succeeds having settled
every initial node, with the dirtiness/readiness link and an acyclicity
certificate over the final marks; the structural fields survive untouched. -/
theorem RecomputeNodesDirty_run (env : ScanEnv) (he : goodEnv env)
    (st : BuildState) (initial : List Nat) (fuel : Nat)
    (hwf : WFState st) (hnd : NoDeps st)
    (hmk : ∀ e, (st.edge e).mark = Mark.VisitNone)
    (hdc : ∀ n, (st.node n).dirty = false)
    (hpre : ∀ n, (st.node n).precomputedMtime = none)
    (hinit : ∀ n ∈ initial, n < st.nodes.length)
    (hfuel : st.edges.length < fuel) :
    (∃ msg st', RecomputeNodesDirty env fuel initial st = .res false msg st' ∧
      cycleMsgForm msg) ∨
    (∃ st', RecomputeNodesDirty env fuel initial st = .res true "" st' ∧
      DirtyLinked st' ∧ DoneRank st' ∧
      (∀ n ∈ initial, processed st' n) ∧
      (∀ j, (st'.node j).inEdge = (st.node j).inEdge) ∧
      (∀ e, (st'.edge e).inputs = (st.edge e).inputs)) := by
  rcases hca : collectAll env fuel initial st with ⟨st1, ns, es⟩
  have hq1 := collectAll_q' env fuel initial st
  rw [hca] at hq1
  obtain ⟨hqc1, hp1⟩ := hq1
  have hgp1 : GoodPre st1 := by
    intro j
    rw [hp1 j, hpre j]
    exact fun h => Option.noConfusion h
  obtain ⟨st2, hpe, hq2, hgp2⟩ := PrecomputeNodesDirty_q env he ns es st1 hgp1
  have hqc : EqOutsidePrecompute st st2 := hqc1.transQ hq2
  obtain ⟨hln, hle, hnq, heq⟩ := hqc
  have hwf2 : WFState st2 := hwf.eqOPWF ⟨hln, hle, hnq, heq⟩
  have hnd2 : NoDeps st2 := hnd.eqOPND ⟨hln, hle, hnq, heq⟩
  have hmk2 : ∀ e, (st2.edge e).mark = Mark.VisitNone := by
    intro e
    rw [(heq e).2.2.2.1]
    exact hmk e
  have hdc2 : ∀ n, (st2.node n).dirty = false := by
    intro n
    rw [(hnq n).2.2.2.1]
    exact hdc n
  have hinv2 : ScanInv st2 [] := by
    refine ⟨?_, ⟨0, fun _ => 0, ?_⟩, ?_, ?_⟩
    · intro e hm
      rw [hmk2 e] at hm
      exact Mark.noConfusion hm
    · intro e hm
      rw [hmk2 e] at hm
      exact Mark.noConfusion hm
    · intro n hn
      rw [hdc2 n] at hn
      exact Bool.noConfusion hn
    · intro n e hn _
      rw [hdc2 n] at hn
      exact Bool.noConfusion hn
  have hcn2 : countNone st2 < fuel := by
    have h0 : (List.range st2.edges.length).countP
        (fun e => (st2.edge e).mark == Mark.VisitNone) ≤
        (List.range st2.edges.length).length := List.countP_le_length _
    rw [List.length_range] at h0
    unfold countNone
    omega
  have hinit2 : ∀ n ∈ initial, n < st2.nodes.length := by
    intro n hn
    rw [hln]
    exact hinit n hn
  have hpost := mainPass_post env he fuel initial st2 hwf2 hnd2 hgp2 hinv2
    hinit2 hcn2
  simp only [RecomputeNodesDirty, hca, hpe, reduceIte, if_true]
  cases hmp : mainPass env fuel initial st2 with
  | res success msg st3 =>
    rw [hmp] at hpost
    cases success with
    | false =>
      left
      exact ⟨msg, clearPrecomputedStats ns st3, rfl, hpost⟩
    | true =>
      right
      obtain ⟨hmsg, hstep, hinvf, hprocf⟩ := hpost
      subst hmsg
      obtain ⟨hdlC, hdrC, hprC⟩ := clear_transport ns st3
      obtain ⟨hc1, _, hc3⟩ := clearPrecomputedStats_spec ns st3
      refine ⟨clearPrecomputedStats ns st3, rfl, hdlC hinvf.2.2.2,
        hdrC hinvf.2.1, fun n hn => hprC n (hprocf n hn), ?_, ?_⟩
      · intro j
        rw [(hc3 j).2.2.2, hstep.inEdge j, (hnq j).2.2.2.2]
      · intro e
        rw [BuildState.edge_congr hc1 e, hstep.inputs e, (heq e).1]
  | fuelOut =>
    rw [hmp] at hpost
    exact False.elim hpost

theorem goodEnv_exEnv : goodEnv exEnv := by
  constructor
  · intro p
    simp only [exEnv]
    split
    · decide
    · split
      · decide
      · decide
  · intro p
    simp only [exEnv]
    split
    · decide
    · split
      · decide
      · decide

theorem WF_exTwoCycle : WFState exTwoCycle := by
  refine ⟨?_, ?_, ?_, ?_⟩
  · intro n e h
    rcases n with _ | _ | n
    · simp [exTwoCycle, BuildState.node] at h
      subst h
      decide
    · simp [exTwoCycle, BuildState.node] at h
      subst h
      decide
    · simp [exTwoCycle, BuildState.node] at h
  · intro e n h
    rcases e with _ | _ | e
    · simp [exTwoCycle, BuildState.edge] at h
      subst h
      decide
    · simp [exTwoCycle, BuildState.edge] at h
      subst h
      decide
    · simp [exTwoCycle, BuildState.edge] at h
  · intro e n h
    rcases e with _ | _ | e
    · simp [exTwoCycle, BuildState.edge] at h
      subst h
      decide
    · simp [exTwoCycle, BuildState.edge] at h
      subst h
      decide
    · simp [exTwoCycle, BuildState.edge] at h
  · intro e n h
    rcases e with _ | _ | e
    · simp [exTwoCycle, BuildState.edge] at h
      subst h
      decide
    · simp [exTwoCycle, BuildState.edge] at h
      subst h
      decide
    · simp [exTwoCycle, BuildState.edge] at h

theorem NoDeps_exTwoCycle : NoDeps exTwoCycle := by
  intro e
  rcases e with _ | _ | e <;> exact ⟨rfl, rfl⟩

theorem WF_exPhonyInput : WFState exPhonyInput := by
  refine ⟨?_, ?_, ?_, ?_⟩
  · intro n e h
    rcases n with _ | _ | n
    · simp [exPhonyInput, BuildState.node] at h
    · simp [exPhonyInput, BuildState.node] at h
      subst h
      decide
    · simp [exPhonyInput, BuildState.node] at h
  · intro e n h
    rcases e with _ | e
    · simp [exPhonyInput, BuildState.edge] at h
      subst h
      decide
    · simp [exPhonyInput, BuildState.edge] at h
  · intro e n h
    rcases e with _ | e
    · simp [exPhonyInput, BuildState.edge] at h
      subst h
      decide
    · simp [exPhonyInput, BuildState.edge] at h
  · intro e n h
    rcases e with _ | e
    · simp [exPhonyInput, BuildState.edge] at h
      subst h
      decide
    · simp [exPhonyInput, BuildState.edge] at h

theorem NoDeps_exPhonyInput : NoDeps exPhonyInput := by
  intro e
  rcases e with _ | e <;> exact ⟨rfl, rfl⟩

/-- C3: every edge cycle reachable from the initial nodes makes the scan fail
with a message of the form `dependency cycle: p1 -> ... -> p1`, starting and
ending at the same path; the stack position where the cycle's edge was first
entered is rewritten to the currently visited node (`build a b: cat c` with
`build c: cat b`, scanned from `a`, reports `b -> c -> b` rather than
`a -> c -> b`); and the self-referencing single-output phony
`build a: phony a` gets the ` [-w phonycycle=err]` suffix. -/
theorem C3_dependency_cycle_failure :
    (∀ (env : ScanEnv) (st : BuildState) (initial : List Nat) (fuel : Nat)
      (n₀ i₀ : Nat),
      goodEnv env → WFState st → NoDeps st →
      (∀ e, (st.edge e).mark = Mark.VisitNone) →
      (∀ n, (st.node n).dirty = false) →
      (∀ n, (st.node n).precomputedMtime = none) →
      (∀ n ∈ initial, n < st.nodes.length) →
      st.edges.length < fuel →
      i₀ ∈ initial →
      Relation.ReflTransGen (depStep st) i₀ n₀ →
      Relation.TransGen (depStep st) n₀ n₀ →
      ∃ msg st', RecomputeNodesDirty env fuel initial st = .res false msg st' ∧
        cycleMsgForm msg)
    ∧ (RecomputeNodesDirty exEnv 10 [0] exPhonySelfLoop).errMsg =
        some "dependency cycle: a -> a [-w phonycycle=err]"
    ∧ (RecomputeNodesDirty exEnv 10 [0] exTwoOut).errMsg =
        some "dependency cycle: b -> c -> b" := by
  refine ⟨?_, by decide, by decide⟩
  intro env st initial fuel n₀ i₀ he hwf hnd hmk hdc hpre hinit hfuel hi0
    hreach hcyc
  rcases RecomputeNodesDirty_run env he st initial fuel hwf hnd hmk hdc hpre
      hinit hfuel with ⟨msg, st', heq, hform⟩ | ⟨st', heq, _, hdr, hproc, hin', hinp'⟩
  · exact ⟨msg, st', heq, hform⟩
  · exfalso
    have hds : ∀ m n, depStep st m n → depStep st' m n := by
      rintro m n ⟨e, hme, hnm⟩
      exact ⟨e, by rw [hin' m]; exact hme, by rw [hinp' e]; exact hnm⟩
    have hreach' : Relation.ReflTransGen (depStep st') i₀ n₀ :=
      Relation.ReflTransGen.mono hds hreach
    have hcyc' : Relation.TransGen (depStep st') n₀ n₀ :=
      Relation.TransGen.mono hds hcyc
    have hpn : processed st' n₀ :=
      processed_reach st' hdr hreach' (hproc i₀ hi0)
    exact no_cycle st' hdr hpn hcyc'

/-- Witness for `C3_dependency_cycle_failure`: the two-edge cycle
`build a: cat b` / `build b: cat a` makes the scan fail with a cycle-shaped
message. -/
theorem C3_dependency_cycle_failure_witness :
    ∃ msg st', RecomputeNodesDirty exEnv 10 [0] exTwoCycle =
      .res false msg st' ∧ cycleMsgForm msg :=
  C3_dependency_cycle_failure.1 exEnv exTwoCycle [0] 10 0 0
    goodEnv_exEnv WF_exTwoCycle NoDeps_exTwoCycle
    (fun e => by rcases e with _ | _ | e <;> rfl)
    (fun n => by rcases n with _ | _ | n <;> rfl)
    (fun n => by rcases n with _ | _ | n <;> rfl)
    (by decide) (by decide) (by decide)
    Relation.ReflTransGen.refl
    (Relation.TransGen.tail
      (Relation.TransGen.single
        (show depStep exTwoCycle 0 1 from ⟨0, by decide, by decide⟩))
      (show depStep exTwoCycle 1 0 from ⟨1, by decide, by decide⟩))

/-- C4 (amended): for a phony edge, the per-output check
`RecomputeOutputDirty` reports dirty exactly when the edge has no inputs and
the output is missing — but the scanner can still mark a phony output dirty
through a dirty input, which dirties the whole edge.  After a successful
scan, every dirty node with a producing edge has `outputs_ready` equal to
`isPhony && inputs.isEmpty`: false unless it is an input-less phony, which
stays ready. -/
theorem C4_amended_phony_dirty_and_readiness :
    (∀ (inputsEmpty restat generator : Bool) (blog : Option BuildLogFn)
      (mri : Option TimeStamp) (h : Nat) (p : String) (m : TimeStamp),
      RecomputeOutputDirty true inputsEmpty restat generator blog mri h p m =
        (inputsEmpty && !nodeExists m))
    ∧ (∀ (env : ScanEnv) (st : BuildState) (initial : List Nat) (fuel : Nat),
      goodEnv env → WFState st → NoDeps st →
      (∀ e, (st.edge e).mark = Mark.VisitNone) →
      (∀ n, (st.node n).dirty = false) →
      (∀ n, (st.node n).precomputedMtime = none) →
      (∀ n ∈ initial, n < st.nodes.length) →
      st.edges.length < fuel →
      ∀ st', RecomputeNodesDirty env fuel initial st = .res true "" st' →
        DirtyLinked st') := by
  constructor
  · intro inputsEmpty restat generator blog mri h p m
    rfl
  · intro env st initial fuel he hwf hnd hmk hdc hpre hinit hfuel st' heq
    rcases RecomputeNodesDirty_run env he st initial fuel hwf hnd hmk hdc hpre
        hinit hfuel with ⟨msg, st'', heq', _⟩ | ⟨st'', heq', hdl, _, _, _, _⟩
    · rw [heq'] at heq
      cases heq
    · rw [heq'] at heq
      cases heq
      exact hdl

/-- Witness for `C4_amended_phony_dirty_and_readiness`: an input-less missing
phony output reports dirty, and the scanned `build out: phony in` graph
satisfies the dirtiness/readiness link. -/
theorem C4_amended_phony_dirty_and_readiness_witness :
    RecomputeOutputDirty true true false false none none 0 "o" 0 = (true && !nodeExists 0)
    ∧ DirtyLinked ((RecomputeNodesDirty exEnv 10 [1] exPhonyInput).state.getD
        ⟨[], []⟩) :=
  ⟨C4_amended_phony_dirty_and_readiness.1 true false false none none 0 "o" 0,
   C4_amended_phony_dirty_and_readiness.2 exEnv exPhonyInput [1] 10
    goodEnv_exEnv WF_exPhonyInput NoDeps_exPhonyInput
    (fun e => by rcases e with _ | e <;> rfl)
    (fun n => by rcases n with _ | _ | n <;> rfl)
    (fun n => by rcases n with _ | _ | n <;> rfl)
    (by decide) (by decide) _ (by decide)⟩

/-- C5 (amended): after `RecomputeNodesDirty` returns, the precomputed mtime
of every collected node has been cleared, but the traversal marks are NOT
reset — the final cleanup (`clearPrecomputedStats`) touches no edge at all,
so a reached edge keeps its `VisitDone` mark and a subsequent scan does not
start from the first scan's mark state. -/
theorem C5_amended_precompute_cleared_marks_kept :
    (∀ (env : ScanEnv) (fuel : Nat) (initial : List Nat) (st : BuildState)
      (success : Bool) (msg : String) (st' : BuildState),
      RecomputeNodesDirty env fuel initial st = .res success msg st' →
      ∀ n ∈ (collectAll env fuel initial st).2.1,
        (st'.node n).precomputedMtime = none)
    ∧ (∀ (ns : List Nat) (st : BuildState),
        (clearPrecomputedStats ns st).edges = st.edges) := by
  constructor
  · intro env fuel initial st success msg st' heq n hn
    rcases hca : collectAll env fuel initial st with ⟨st1, ns, es⟩
    rw [hca] at hn
    simp only at hn
    simp only [RecomputeNodesDirty, hca] at heq
    rcases hpd : PrecomputeNodesDirty env ns es st1 with ⟨st2, ok1, msg1⟩
    rw [hpd] at heq
    simp only at heq
    rcases hre : (if ok1 = true then mainPass env fuel initial st2
        else ScanOut.res false msg1 st2) with ⟨s, m, stX⟩ | _
    · rw [hre] at heq
      simp only at heq
      injection heq with h1 h2 h3
      rw [← h3]
      exact clearPrecomputedStats_clears ns stX n hn
    · rw [hre] at heq
      cases heq
  · intro ns st
    exact (clearPrecomputedStats_spec ns st).1

/-- Witness for `C5_amended_precompute_cleared_marks_kept`: in the scanned
`build out: phony in` graph, the collected node `out` has its precomputed
mtime cleared in the final state. -/
theorem C5_amended_precompute_cleared_marks_kept_witness :
    1 ∈ (collectAll exEnv 10 [1] exPhonyInput).2.1 ∧
    (((RecomputeNodesDirty exEnv 10 [1] exPhonyInput).state.getD
        ⟨[], []⟩).node 1).precomputedMtime = none :=
  ⟨by decide,
   C5_amended_precompute_cleared_marks_kept.1 exEnv 10 [1] exPhonyInput
    true "" _ (by decide) 1 (by decide)⟩

end Ninja
